import Mathlib

/-!
# URI popularity tracker (`ngx_http_uri_hash_table.c`)

A shallow embedding of the tracker of `src/http/ngx_http_uri_hash_table.c`:
the chained hash index, the intrusive doubly linked LRU list, the capacity
purge and the max-heap that ranks the report; and of the handler of the
`popular_uri_stats` directive of `src/http/modules/ngx_http_trackuri_module.c`.

Conventions of the embedding.

* Entries live in a store `mem : List ngx_uri_entry`; the address of an entry is
  its index in the store and a C pointer is an `Option Nat` (`none` is `NULL`).
  `ngx_alloc` of a new entry appends to the store.  The address of the embedded
  `lru` link node and the address of the entry are identified (the source
  converts between them with `LINK_TO_STRUCT`).
* A C string is a list of bytes (`Nat`) followed by an implicit terminating NUL;
  the string functions (`strlen`, `ngx_strcmp`, `hash4`) only see the bytes in
  front of the first NUL.
* Loops that chase pointers take fuel and return `none` when it runs out; every
  operation draws `mem.length` units, one per allocated entry.  `none` is also
  the result of dereferencing a `NULL` `hash_table`.
* The counters `count` and `lru_list_entries` (`ngx_uint_t`) are unbounded
  naturals: call sequences shorter than `2 ^ word_bits` cannot wrap them, and the
  one decrement (`ngx_uri_table_lru_list_delete`) is never applied to 0 in a
  state reached from `ngx_uri_table_init` (`counter_pos_of_live`).  The hash
  value is computed modulo `2 ^ word_bits`.
* Allocation is assumed to succeed, so the `NULL` checks after `ngx_palloc` and
  `ngx_alloc` are never taken; `ngx_pfree` has no effect on the model.
* The heap of the report is the live prefix of the `elements` array.  The array
  has `INITIAL_SIZE` slots (`ngx_max_heap_init`; `ngx_max_heap_reset` never
  replaces it), and `ngx_max_heap_add` stores without a bound check: the report
  faults (`none`) at the store that falls outside the array.  The size of the
  text buffer (`270` bytes per heap entry) is not modelled.
* The heap is process-global (`ngx_max_heap * max_heap = NULL`): a report takes
  the global pointer as an argument, `none` on the first report of the process,
  and returns the heap object it leaves behind.  A later report goes through
  `ngx_max_heap_reset`, whose growth branch hands the heap object to `realloc`
  and keeps the result in its by-value parameter only; the report then works
  through the global pointer to the deallocated object, and the model faults.
-/

namespace TrackUri

/-! ## Platform and strings -/

/-- Platform constants the source depends on: the width of `ngx_uint_t` and the
signedness of plain `char` (the type `hash4` reads its key through). -/
structure Platform where
  word_bits : Nat
  char_signed : Bool

/-- The bytes of a string literal, for writing URIs down. -/
def bytes (s : String) : List Nat := s.data.map Char.toNat

/-- The bytes of a C string: everything in front of the first NUL. -/
def cstr (s : List Nat) : List Nat := s.takeWhile (fun b => b != 0)

/-- C `strlen`. -/
def strlen (s : List Nat) : Nat := (cstr s).length

/-- `ngx_strcmp(a, b) == 0`: the two C strings have the same bytes. -/
def ngx_strcmp_eq (a b : List Nat) : Bool := cstr a == cstr b

/-- Modelled from the spec: `ngx_tolower` (declared in the nginx core, not in
this module) is the ASCII lowercase transform: `A`..`Z` go to `a`..`z`, every
other byte is kept. -/
def ngx_tolower (c : Nat) : Nat := if 65 ≤ c ∧ c ≤ 90 then c + 32 else c

/-- Modelled from the spec: `ngx_strlow(dst, src, n)` lowercases `n` bytes. -/
def ngx_strlow (src : List Nat) : List Nat := src.map ngx_tolower

/-! ## `hash4` -/

/-- The value of `*key` converted to `ngx_uint_t`: a byte above 127 read through
a signed `char` is negative and wraps. -/
def char_val (P : Platform) (b : Nat) : Nat :=
  if P.char_signed ∧ 128 ≤ b then 2 ^ P.word_bits - 256 + b else b

/-- One `HASH4` (`HASH4b`) step on `(h, key)`: `h = (h << 5) + h + *key++`. -/
def HASH4 (P : Platform) (st : Nat × List Nat) : Nat × List Nat :=
  (((st.1 * 32) % 2 ^ P.word_bits + st.1 + char_val P (st.2.headD 0)) % 2 ^ P.word_bits,
    st.2.tail)

/-- The `while (loop--)` of `hash4`: eight `HASH4` steps per round. -/
def hash4_loop (P : Platform) : Nat → Nat × List Nat → Nat × List Nat
  | 0, st => st
  | loop + 1, st =>
    hash4_loop P loop
      (HASH4 P (HASH4 P (HASH4 P (HASH4 P (HASH4 P (HASH4 P (HASH4 P (HASH4 P st))))))))

/-- The `switch (len & (8 - 1))` of `hash4` with its fall-through cases. -/
def hash4_switch (P : Platform) (r : Nat) (st : Nat × List Nat) : Nat × List Nat :=
  match r with
  | 7 => HASH4 P (HASH4 P (HASH4 P (HASH4 P (HASH4 P (HASH4 P (HASH4 P st))))))
  | 6 => HASH4 P (HASH4 P (HASH4 P (HASH4 P (HASH4 P (HASH4 P st)))))
  | 5 => HASH4 P (HASH4 P (HASH4 P (HASH4 P (HASH4 P st))))
  | 4 => HASH4 P (HASH4 P (HASH4 P (HASH4 P st)))
  | 3 => HASH4 P (HASH4 P (HASH4 P st))
  | 2 => HASH4 P (HASH4 P st)
  | 1 => HASH4 P st
  | _ => st

/-- Source `hash4(data, size)`. -/
def hash4 (P : Platform) (data : List Nat) (size : Nat) : Nat :=
  let len := strlen data
  let loop := len / 8
  (hash4_loop P loop (hash4_switch P (len % 8) (0, data))).1 % size

/-! ## Data model -/

/-- Source `struct ngx_uri_entry_s`; `lru_prev` and `lru_next` are the two
fields of the embedded `lru` link node. -/
structure ngx_uri_entry where
  uri : List Nat
  next : Option Nat
  count : Nat
  lru_prev : Option Nat
  lru_next : Option Nat
  deriving DecidableEq

instance : Inhabited ngx_uri_entry := ⟨⟨[], none, 0, none, none⟩⟩

/-- Source `ngx_uri_hash_table`: the bucket array and its length. -/
structure ngx_uri_hash_table where
  buckets : List (Option Nat)
  size : Nat
  deriving DecidableEq

/-- Source `ngx_lru_link_list`. -/
structure ngx_lru_link_list where
  head : Option Nat
  tail : Option Nat
  deriving DecidableEq

/-- Source `ngx_uri_table`, together with the store of allocated entries. -/
structure ngx_uri_table where
  mem : List ngx_uri_entry
  hash_table : Option ngx_uri_hash_table
  lru_list : ngx_lru_link_list
  lru_list_entries : Nat
  lru_list_max_entries : Nat
  deriving DecidableEq

/-- Read the entry at an address. -/
def rd (mem : List ngx_uri_entry) (a : Nat) : ngx_uri_entry := mem.getD a default

/-- Overwrite the entry at an address. -/
def wr (mem : List ngx_uri_entry) (a : Nat) (e : ngx_uri_entry) : List ngx_uri_entry :=
  mem.set a e

/-- The assignment `a->next = v`. -/
def set_next (mem : List ngx_uri_entry) (a : Nat) (v : Option Nat) : List ngx_uri_entry :=
  wr mem a { rd mem a with next := v }

/-- The assignment `a->lru.prev = v`. -/
def set_lru_prev (mem : List ngx_uri_entry) (a : Nat) (v : Option Nat) : List ngx_uri_entry :=
  wr mem a { rd mem a with lru_prev := v }

/-- The assignment `a->lru.next = v`. -/
def set_lru_next (mem : List ngx_uri_entry) (a : Nat) (v : Option Nat) : List ngx_uri_entry :=
  wr mem a { rd mem a with lru_next := v }

/-- The assignment `a->count = v`. -/
def set_count (mem : List ngx_uri_entry) (a : Nat) (v : Nat) : List ngx_uri_entry :=
  wr mem a { rd mem a with count := v }

/-! ## Initialisation -/

/-- Source table `hash_primes`. -/
def hash_primes : List Nat :=
  [103, 229, 467, 977, 1979, 4019, 6037, 7951, 12149, 16231, 33493, 65357]

/-- The tracker before `ngx_uri_table_init`: the zeroed structure that
`ngx_pcalloc` hands to the module configuration. -/
def uri_table_zero : ngx_uri_table :=
  { mem := [], hash_table := none, lru_list := ⟨none, none⟩,
    lru_list_entries := 0, lru_list_max_entries := 0 }

/-- Modelled from the spec: the bucket array `ngx_uri_table_init` obtains from
`ngx_alloc` (nginx core, not part of this module) holds `hash_size` empty
buckets ("allocates bucket array, all empty"). -/
def ngx_alloc_buckets (hash_size : Nat) : List (Option Nat) :=
  List.replicate hash_size none

/-- Source `ngx_uri_table_init`.  `footprint` is
`sizeof(ngx_uri_entry) + 2 * sizeof(ngx_uri_entry*)` and `hash_size` the value
of `hash_prime(2 * num_hash_entries)`, a member of `hash_primes` that the source
selects in floating point; both are parameters. -/
def ngx_uri_table_init (footprint hash_size : Nat) (uri_table : ngx_uri_table) :
    Bool × ngx_uri_table :=
  match uri_table.hash_table with
  | some _ => (false, uri_table)
  | none =>
    let num_hash_entries := (2 * 1024 * 1024) / footprint
    (true,
      { uri_table with
        hash_table := some { buckets := ngx_alloc_buckets hash_size, size := hash_size }
        lru_list_entries := 0
        lru_list_max_entries := num_hash_entries
        lru_list := ⟨none, none⟩ })

/-! ## Hash index -/

/-- The `for` loop of `ngx_uri_table_lookup` over one bucket chain. -/
def lookup_walk (mem : List ngx_uri_entry) (uri : List Nat) :
    Nat → Option Nat → Option (Option Nat)
  | _, none => some none
  | 0, some _ => none
  | fuel + 1, some walker =>
    if ngx_strcmp_eq uri (rd mem walker).uri then some (some walker)
    else lookup_walk mem uri fuel (rd mem walker).next

/-- Source `ngx_uri_table_lookup` (the `uri == NULL` test never fires: every
caller passes a buffer). -/
def ngx_uri_table_lookup (P : Platform) (uri_table : ngx_uri_table) (uri : List Nat) :
    Option (Option Nat) :=
  match uri_table.hash_table with
  | none => none
  | some ht =>
    let v := hash4 P uri ht.size
    lookup_walk uri_table.mem uri uri_table.mem.length (ht.buckets.getD v none)

/-- Source `ngx_uri_table_join`: prepend the entry to its bucket chain. -/
def ngx_uri_table_join (P : Platform) (uri_table : ngx_uri_table) (new_entry : Nat) :
    Option ngx_uri_table :=
  match uri_table.hash_table with
  | none => none
  | some ht =>
    let v := hash4 P (rd uri_table.mem new_entry).uri ht.size
    let mem := set_next uri_table.mem new_entry (ht.buckets.getD v none)
    some { uri_table with
      mem := mem
      hash_table := some { ht with buckets := ht.buckets.set v (some new_entry) } }

/-- The predecessor scan of `ngx_uri_table_delete`. -/
def delete_walk (cur_entry : Nat) :
    Nat → List ngx_uri_entry → Option Nat → Option (List ngx_uri_entry)
  | _, mem, none => some mem
  | 0, _, some _ => none
  | fuel + 1, mem, some walker =>
    if (rd mem walker).next = some cur_entry then
      some (set_next mem walker (rd mem cur_entry).next)
    else delete_walk cur_entry fuel mem (rd mem walker).next

/-- Source `ngx_uri_table_delete`: unlink the entry from its bucket chain. -/
def ngx_uri_table_delete (P : Platform) (uri_table : ngx_uri_table) (cur_entry : Nat) :
    Option ngx_uri_table :=
  match uri_table.hash_table with
  | none => none
  | some ht =>
    let v := hash4 P (rd uri_table.mem cur_entry).uri ht.size
    if ht.buckets.getD v none = some cur_entry then
      some { uri_table with
        hash_table :=
          some { ht with buckets := ht.buckets.set v (rd uri_table.mem cur_entry).next } }
    else
      match delete_walk cur_entry uri_table.mem.length uri_table.mem
          (ht.buckets.getD v none) with
      | none => none
      | some mem => some { uri_table with mem := mem }

/-! ## LRU list -/

/-- The pointer surgery shared by `ngx_uri_table_lru_list_delete` and the purge
loop: unlink the node from the list and clear its two links. -/
def lru_unlink (uri_table : ngx_uri_table) (old_entry : Nat) : ngx_uri_table :=
  let mem0 := uri_table.mem
  let mem1 :=
    match (rd mem0 old_entry).lru_next with
    | some n => set_lru_prev mem0 n (rd mem0 old_entry).lru_prev
    | none => mem0
  let mem2 :=
    match (rd mem1 old_entry).lru_prev with
    | some p => set_lru_next mem1 p (rd mem1 old_entry).lru_next
    | none => mem1
  let head :=
    if some old_entry = uri_table.lru_list.head then (rd mem2 old_entry).lru_next
    else uri_table.lru_list.head
  let tail :=
    if some old_entry = uri_table.lru_list.tail then (rd mem2 old_entry).lru_prev
    else uri_table.lru_list.tail
  let mem3 := set_lru_next (set_lru_prev mem2 old_entry none) old_entry none
  { uri_table with mem := mem3, lru_list := ⟨head, tail⟩ }

/-- Source `ngx_uri_table_lru_list_delete`. -/
def ngx_uri_table_lru_list_delete (uri_table : ngx_uri_table) (old_entry : Nat) :
    ngx_uri_table :=
  let t := lru_unlink uri_table old_entry
  { t with lru_list_entries := t.lru_list_entries - 1 }

/-- Source `ngx_uri_table_lru_list_add`: push the entry at the head. -/
def ngx_uri_table_lru_list_add (uri_table : ngx_uri_table) (new_entry : Nat) :
    ngx_uri_table :=
  let mem1 := set_lru_prev uri_table.mem new_entry none
  let mem2 := set_lru_next mem1 new_entry uri_table.lru_list.head
  let mem3 :=
    match uri_table.lru_list.head with
    | some h => set_lru_prev mem2 h (some new_entry)
    | none => mem2
  let tail :=
    match uri_table.lru_list.tail with
    | none => some new_entry
    | some t => some t
  { uri_table with
    mem := mem3
    lru_list := ⟨some new_entry, tail⟩
    lru_list_entries := uri_table.lru_list_entries + 1 }

/-- Source `ngx_uri_table_update`: move the entry to the head of the list. -/
def ngx_uri_table_update (uri_table : ngx_uri_table) (old_entry : Nat) : ngx_uri_table :=
  ngx_uri_table_lru_list_add (ngx_uri_table_lru_list_delete uri_table old_entry) old_entry

/-- The `for (m = tail; m; m = prev)` loop of `ngx_uri_table_lru_list_purge`.
Each round unlinks `m` from the LRU list, looks its URI up in the hash index and
unlinks what the lookup returns from its bucket chain (`ngx_pfree` has no effect
on the model).  The round does not touch `lru_list_entries`. -/
def purge_loop (P : Platform) (force_purge : Bool) :
    Nat → ngx_uri_table → Option Nat → Option ngx_uri_table
  | _, t, none => some t
  | 0, _, some _ => none
  | fuel + 1, t, some m =>
    if !force_purge && decide (t.lru_list_entries < t.lru_list_max_entries) then some t
    else
      let prev := (rd t.mem m).lru_prev
      let t1 := lru_unlink t m
      match ngx_uri_table_lookup P t1 (rd t1.mem m).uri with
      | none => none
      | some none => purge_loop P force_purge fuel t1 prev
      | some (some cur_entry) =>
        match ngx_uri_table_delete P t1 cur_entry with
        | none => none
        | some t2 => purge_loop P force_purge fuel t2 prev

/-- Source `ngx_uri_table_lru_list_purge`. -/
def ngx_uri_table_lru_list_purge (P : Platform) (uri_table : ngx_uri_table)
    (force_purge : Bool) : Option ngx_uri_table :=
  purge_loop P force_purge uri_table.mem.length uri_table uri_table.lru_list.tail

/-! ## Recording a URI -/

/-- Source `ngx_uri_table_add`.  The result is `none` when the model faults
(no fuel, `NULL` hash table) and otherwise the returned flag with the new
state. -/
def ngx_uri_table_add (P : Platform) (uri_table : ngx_uri_table) (uri : List Nat) :
    Option (Bool × ngx_uri_table) :=
  if uri.length = 0 ∨ uri.length > 256 then some (false, uri_table)
  else
    let my_uri := ngx_strlow uri
    match ngx_uri_table_lookup P uri_table my_uri with
    | none => none
    | some (some entry) =>
      let t := { uri_table with
        mem := set_count uri_table.mem entry ((rd uri_table.mem entry).count + 1) }
      some (true, ngx_uri_table_update t entry)
    | some none =>
      match ngx_uri_table_lru_list_purge P uri_table false with
      | none => none
      | some t =>
        let new_entry := t.mem.length
        let t1 := { t with mem := t.mem ++ [⟨my_uri, none, 1, none, none⟩] }
        match ngx_uri_table_join P t1 new_entry with
        | none => none
        | some t2 => some (true, ngx_uri_table_lru_list_add t2 new_entry)

/-- Source `ngx_uri_table_cleanup`. -/
def ngx_uri_table_cleanup (P : Platform) (uri_table : ngx_uri_table) :
    Option ngx_uri_table :=
  match uri_table.hash_table with
  | none => some uri_table
  | some _ => ngx_uri_table_lru_list_purge P uri_table true

/-! ## Max-heap and report -/

/-- Source macro `LCHILD`. -/
def LCHILD (x : Nat) : Nat := 2 * x + 1

/-- Source macro `RCHILD`. -/
def RCHILD (x : Nat) : Nat := 2 * x + 2

/-- Source macro `PARENT`. -/
def PARENT (x : Nat) : Nat := x / 2

/-- Source macro `TOPN`. -/
def TOPN : Nat := 100

/-- Source macro `INITIAL_SIZE`: the number of slots of the `elements` array that
`ngx_max_heap_init` allocates for the global heap. -/
def INITIAL_SIZE : Nat := 1024

/-- Source `ngx_max_heap`: the live prefix `elements[0 .. size)` of the array of
entry pointers, so `size` is the length of the list.  The bound of the array is
checked where the report fills the heap (`build_loop`). -/
abbrev ngx_max_heap := List Nat

/-- The `while` loop of `ngx_max_heap_add` followed by `elements[i] = uri_entry`.
The fuel is the start index: `PARENT(i) < i` as long as `i` is not zero. -/
def heap_add_loop (mem : List ngx_uri_entry) (uri_entry : Nat) :
    Nat → List Nat → Nat → List Nat
  | 0, elements, i => elements.set i uri_entry
  | fuel + 1, elements, i =>
    if i ≠ 0 ∧ (rd mem uri_entry).count > (rd mem (elements.getD (PARENT i) 0)).count then
      heap_add_loop mem uri_entry fuel (elements.set i (elements.getD (PARENT i) 0)) (PARENT i)
    else elements.set i uri_entry

/-- Source `ngx_max_heap_add`: `i = size++`, then sift up along `PARENT`. -/
def ngx_max_heap_add (mem : List ngx_uri_entry) (max_heap : ngx_max_heap) (uri_entry : Nat) :
    ngx_max_heap :=
  let i := max_heap.length
  heap_add_loop mem uri_entry i (max_heap ++ [uri_entry]) i

/-- Source `ngx_max_heap_swap` on the slots `i` and `j` of the array. -/
def ngx_max_heap_swap (elements : List Nat) (i j : Nat) : List Nat :=
  (elements.set i (elements.getD j 0)).set j (elements.getD i 0)

/-- Source `ngx_max_heap_heapify`.  The fuel bounds the recursion depth: the
index grows with every call and stays below `size`. -/
def ngx_max_heap_heapify (mem : List ngx_uri_entry) : Nat → ngx_max_heap → Nat → ngx_max_heap
  | 0, max_heap, _ => max_heap
  | fuel + 1, max_heap, i =>
    let cnt := fun k => (rd mem (max_heap.getD k 0)).count
    let largest :=
      if LCHILD i < max_heap.length ∧ cnt (LCHILD i) > cnt i then LCHILD i else i
    let largest :=
      if RCHILD i < max_heap.length ∧ cnt (RCHILD i) > cnt largest then RCHILD i else largest
    if largest ≠ i then
      ngx_max_heap_heapify mem fuel (ngx_max_heap_swap max_heap i largest) largest
    else max_heap

/-- Source `ngx_max_heap_delete`: the returned entry (`none` is `NULL`) and the
heap afterwards. -/
def ngx_max_heap_delete (mem : List ngx_uri_entry) (max_heap : ngx_max_heap) :
    Option Nat × ngx_max_heap :=
  if max_heap.length > 0 then
    let temp := max_heap.getD 0 0
    let shrunk := (max_heap.set 0 (max_heap.getD (max_heap.length - 1) 0)).dropLast
    (some temp, ngx_max_heap_heapify mem shrunk.length shrunk 0)
  else (none, max_heap)

/-- Modelled from the spec: `ngx_sprintf(buf, "%d%N", count)` (nginx core) writes
the count in decimal followed by one newline. -/
def sprintf_count (count : Nat) : List Nat :=
  (Nat.toDigits 10 count).map Char.toNat ++ [10]

/-- The text `ngx_max_heap_get_topn` writes for one entry. -/
def report_line (e : ngx_uri_entry) : List Nat :=
  cstr e.uri ++ [32] ++ sprintf_count e.count

/-- The `while (max_heap->size > 0 && count < TOPN)` loop of
`ngx_max_heap_get_topn`; `n` is `TOPN - count`.  The state is the heap, the
running `total_len` and the text written so far. -/
def get_topn_loop (mem : List ngx_uri_entry) :
    Nat → ngx_max_heap → Nat → List Nat → Nat × List Nat
  | 0, _, total_len, report => (total_len, report)
  | n + 1, max_heap, total_len, report =>
    match ngx_max_heap_delete mem max_heap with
    | (none, _) => (total_len, report)
    | (some entry, max_heap1) =>
      let e := rd mem entry
      let len := strlen e.uri + 1
      let total_len1 :=
        if e.count < 10 then total_len + (len + 2)
        else if e.count < 100 then total_len + (len + 3)
        else if e.count < 1000 then total_len + (len + 4)
        else total_len
      get_topn_loop mem n max_heap1 total_len1 (report ++ report_line e)

/-- Source `ngx_max_heap_get_topn`: the returned length and the text written. -/
def ngx_max_heap_get_topn (mem : List ngx_uri_entry) (max_heap : ngx_max_heap) :
    Nat × List Nat :=
  get_topn_loop mem TOPN max_heap 0 []

/-- The entries `ngx_max_heap_get_topn` extracts, in output order. -/
def topn_entries (mem : List ngx_uri_entry) : Nat → ngx_max_heap → List Nat
  | 0, _ => []
  | n + 1, max_heap =>
    match ngx_max_heap_delete mem max_heap with
    | (none, _) => []
    | (some entry, max_heap1) => entry :: topn_entries mem n max_heap1

/-- The heap-building loop of `ngx_uri_table_report` over the LRU list.  The call
`ngx_max_heap_add` stores into the slots `0 .. size` of `elements`, an array of
`INITIAL_SIZE` slots: on a full array the store at slot `size` is outside the
allocation and the model faults. -/
def build_loop (mem : List ngx_uri_entry) :
    Nat → Option Nat → ngx_max_heap → Option ngx_max_heap
  | _, none, max_heap => some max_heap
  | 0, some _, _ => none
  | fuel + 1, some m, max_heap =>
    if max_heap.length < INITIAL_SIZE then
      build_loop mem fuel (rd mem m).lru_next (ngx_max_heap_add mem max_heap m)
    else none

/-- The heap object behind the global pointer `max_heap` of the source: its field
`capacity` and the live prefix `elements[0 .. size)`. -/
structure global_max_heap where
  capacity : Nat
  elements : ngx_max_heap
  deriving DecidableEq

/-- Source `ngx_max_heap_init`: `capacity = heap_size`, `size = 0`. -/
def ngx_max_heap_init (heap_size : Nat) : global_max_heap :=
  { capacity := heap_size, elements := [] }

/-- Source `ngx_max_heap_reset` applied to the global heap: `size = 0`, and when
`heap_size > capacity` the heap object itself (not its `elements` array) goes to
`realloc` and the result is stored in the by-value parameter only.  The object
the global pointer refers to is deallocated by that call and the caller keeps
using the global pointer, so this branch is a fault (`none`). -/
def ngx_max_heap_reset (max_heap : global_max_heap) (heap_size : Nat) :
    Option global_max_heap :=
  if heap_size > max_heap.capacity then none
  else some { max_heap with elements := [] }

/-- The first statement of `ngx_uri_table_report`: `ngx_max_heap_init(INITIAL_SIZE)`
when the global pointer is `NULL`, and otherwise
`ngx_max_heap_reset(max_heap, uri_table->lru_list_entries)`. -/
def report_start (max_heap : Option global_max_heap) (uri_table : ngx_uri_table) :
    Option global_max_heap :=
  match max_heap with
  | none => some (ngx_max_heap_init INITIAL_SIZE)
  | some h => ngx_max_heap_reset h uri_table.lru_list_entries

/-- The heap `ngx_uri_table_report` builds in the global heap object: after
`report_start` it receives every entry of the LRU list from the head on. -/
def report_heap (max_heap : Option global_max_heap) (uri_table : ngx_uri_table) :
    Option global_max_heap :=
  match report_start max_heap uri_table with
  | none => none
  | some h =>
    match build_loop uri_table.mem uri_table.mem.length uri_table.lru_list.head h.elements with
    | none => none
    | some elements => some { h with elements := elements }

/-- The heap that the extractions of `ngx_max_heap_get_topn` leave behind. -/
def topn_rest (mem : List ngx_uri_entry) : Nat → ngx_max_heap → ngx_max_heap
  | 0, max_heap => max_heap
  | n + 1, max_heap =>
    match ngx_max_heap_delete mem max_heap with
    | (none, _) => max_heap
    | (some _, max_heap1) => topn_rest mem n max_heap1

/-- Source `ngx_uri_table_report`.  The argument `max_heap` is the global pointer
when the report starts; the result is `(report->len, report->data)` together
with the global heap object when the report ends. -/
def ngx_uri_table_report (max_heap : Option global_max_heap) (uri_table : ngx_uri_table) :
    Option ((Nat × List Nat) × global_max_heap) :=
  match report_heap max_heap uri_table with
  | none => none
  | some h =>
    some (ngx_max_heap_get_topn uri_table.mem h.elements,
      { h with elements := topn_rest uri_table.mem TOPN h.elements })

/-- The entries behind the lines of the report, in output order. -/
def report_entries (max_heap : Option global_max_heap) (uri_table : ngx_uri_table) :
    Option (List Nat) :=
  match report_heap max_heap uri_table with
  | none => none
  | some h => some (topn_entries uri_table.mem TOPN h.elements)

/-! ## Directive handlers (`ngx_http_trackuri_module.c`) -/

/-- Source `ngx_http_trackuri_loc_conf_t`: the two flags (`ngx_flag_t`, a signed
integer); the tracker itself plays no part in the handlers modelled here. -/
structure ngx_http_trackuri_loc_conf_t where
  track_uri : Int
  return_uri_stats : Int
  deriving DecidableEq

/-- What a directive handler returns: `NGX_CONF_OK`, `NGX_CONF_ERROR` or the
message `"is duplicate"`. -/
inductive conf_result where
  | NGX_CONF_OK
  | NGX_CONF_ERROR
  | is_duplicate
  deriving DecidableEq

/-- Modelled from the spec: `ngx_strcasecmp(a, b) == 0` (nginx core) holds when
the two C strings are equal up to ASCII case. -/
def ngx_strcasecmp_eq (a b : List Nat) : Bool :=
  cstr (ngx_strlow a) == cstr (ngx_strlow b)

/-- Source `ngx_http_trackuri_create_loc_conf`: both flags start as
`NGX_CONF_UNSET`, a macro of the nginx core that is a parameter here. -/
def ngx_http_trackuri_create_loc_conf (NGX_CONF_UNSET : Int) : ngx_http_trackuri_loc_conf_t :=
  { track_uri := NGX_CONF_UNSET, return_uri_stats := NGX_CONF_UNSET }

/-- The tail of `ngx_http_return_uristats`, after the flag is stored:
`if (flcf->return_uri_stats) { if (!flcf->track_uri) return NGX_CONF_ERROR; }`. -/
def return_uristats_check (flcf : ngx_http_trackuri_loc_conf_t) :
    conf_result × ngx_http_trackuri_loc_conf_t :=
  if flcf.return_uri_stats ≠ 0 then
    if flcf.track_uri = 0 then (conf_result.NGX_CONF_ERROR, flcf)
    else (conf_result.NGX_CONF_OK, flcf)
  else (conf_result.NGX_CONF_OK, flcf)

/-- Source `ngx_http_return_uristats`, the handler of `popular_uri_stats`;
`value` is `value[1].data`, the argument of the directive.  The result is the
returned value with the configuration as the handler leaves it. -/
def ngx_http_return_uristats (NGX_CONF_UNSET : Int) (flcf : ngx_http_trackuri_loc_conf_t)
    (value : List Nat) : conf_result × ngx_http_trackuri_loc_conf_t :=
  if flcf.return_uri_stats ≠ NGX_CONF_UNSET then (conf_result.is_duplicate, flcf)
  else if ngx_strcasecmp_eq value (bytes "on") then
    return_uristats_check { flcf with return_uri_stats := 1 }
  else if ngx_strcasecmp_eq value (bytes "off") then
    return_uristats_check { flcf with return_uri_stats := 0 }
  else (conf_result.NGX_CONF_ERROR, flcf)

/-! ## Observations -/

/-- Walk the LRU list from a node on, following `lru.next`. -/
def lru_walk (mem : List ngx_uri_entry) : Nat → Option Nat → Option (List Nat)
  | _, none => some []
  | 0, some _ => none
  | fuel + 1, some m =>
    match lru_walk mem fuel (rd mem m).lru_next with
    | none => none
    | some l => some (m :: l)

/-- The live entries: the addresses on the LRU list, head first. -/
def lru_entries (uri_table : ngx_uri_table) : Option (List Nat) :=
  lru_walk uri_table.mem uri_table.mem.length uri_table.lru_list.head

/-- Walk one bucket chain, following `next`. -/
def chain_walk (mem : List ngx_uri_entry) : Nat → Option Nat → Option (List Nat)
  | _, none => some []
  | 0, some _ => none
  | fuel + 1, some m =>
    match chain_walk mem fuel (rd mem m).next with
    | none => none
    | some l => some (m :: l)

/-- The `(uri, count)` pair of the entry at an address. -/
def entry_view (mem : List ngx_uri_entry) (a : Nat) : List Nat × Nat :=
  (cstr (rd mem a).uri, (rd mem a).count)

/-- The live entries as `(uri, count)` pairs in LRU order, head first. -/
def lru_view (uri_table : ngx_uri_table) : Option (List (List Nat × Nat)) :=
  (lru_entries uri_table).map (fun l => l.map (entry_view uri_table.mem))

/-- The tracker a successful `ngx_uri_table_init` produces from the zeroed
structure. -/
def tracker_init (footprint hash_size : Nat) : ngx_uri_table :=
  (ngx_uri_table_init footprint hash_size uri_table_zero).2

/-- Record a sequence of URIs, stopping at a fault; the flags returned by the
calls are dropped. -/
def record_all (P : Platform) : ngx_uri_table → List (List Nat) → Option ngx_uri_table
  | t, [] => some t
  | t, uri :: rest =>
    match ngx_uri_table_add P t uri with
    | none => none
    | some (_, t1) => record_all P t1 rest

/-! ## Specification predicates and the abstract view -/

/-- One step of the rolling hash on the accumulator alone. -/
def hash_step (P : Platform) (h b : Nat) : Nat :=
  ((h * 32) % 2 ^ P.word_bits + h + char_val P b) % 2 ^ P.word_bits

/-- The rolling hash in the words of the specification: `h := h * 33 + byte` over
the bytes in order, starting from `h = 0`, in arithmetic modulo `2 ^ w`, reduced
modulo the bucket count. -/
def rolling_hash (w : Nat) (s : List Nat) (size : Nat) : Nat :=
  s.foldl (fun h b => (h * 33 + b) % 2 ^ w) 0 % size

/-- `IsChain nx p l`: following the link `nx` from the pointer `p` visits exactly the
addresses of `l`, in order, and then reaches `NULL`. -/
def IsChain (nx : Nat → Option Nat) : Option Nat → List Nat → Prop
  | p, [] => p = none
  | p, a :: l => p = some a ∧ IsChain nx (nx a) l

/-- The two stores have the same size and agree on `uri` and `count`. -/
def EqData (mem mem2 : List ngx_uri_entry) : Prop :=
  mem2.length = mem.length ∧
    ∀ b, (rd mem2 b).uri = (rd mem b).uri ∧ (rd mem2 b).count = (rd mem b).count

/-- The two stores agree on the hash-chain link. -/
def EqNext (mem mem2 : List ngx_uri_entry) : Prop :=
  ∀ b, (rd mem2 b).next = (rd mem b).next

/-- The two stores agree on the LRU links. -/
def EqLru (mem mem2 : List ngx_uri_entry) : Prop :=
  ∀ b, (rd mem2 b).lru_prev = (rd mem b).lru_prev ∧ (rd mem2 b).lru_next = (rd mem b).lru_next

/-- The bucket array of `ht` over the store `mem` represents the chains `C`, and
the nodes on the chains are exactly the `live` addresses, each on the chain of
its hash value, with pairwise different URIs. -/
structure HashOK (P : Platform) (mem : List ngx_uri_entry) (ht : ngx_uri_hash_table)
    (live : Nat → Prop) (C : Nat → List Nat) : Prop where
  size_pos : 0 < ht.size
  len : ht.buckets.length = ht.size
  chain : ∀ v, v < ht.size →
    IsChain (fun a => (rd mem a).next) (ht.buckets.getD v none) (C v)
  nodup : ∀ v, (C v).Nodup
  mem_iff : ∀ v a, a ∈ C v ↔ live a ∧ hash4 P (rd mem a).uri ht.size = v
  bound : ∀ a, live a → a < mem.length
  uniq : ∀ a b, live a → live b → cstr (rd mem a).uri = cstr (rd mem b).uri → a = b

/-- The list `ll` over the store `mem` is a well-formed doubly linked list of the
addresses `L`: `lru.next` leads from the head through `L`, `lru.prev` leads from
the tail through `L` backwards. -/
structure LruOK (mem : List ngx_uri_entry) (ll : ngx_lru_link_list) (L : List Nat) : Prop where
  fwd : IsChain (fun a => (rd mem a).lru_next) ll.head L
  bwd : IsChain (fun a => (rd mem a).lru_prev) ll.tail L.reverse
  nodup : L.Nodup
  bound : ∀ a ∈ L, a < mem.length

/-- The tracker state `s` is well formed and its LRU list holds the addresses `L`,
head first: the hash index has exactly the entries of `L` on its chains. -/
structure Repr (P : Platform) (s : ngx_uri_table) (L : List Nat) : Prop where
  hash : ∃ ht C, s.hash_table = some ht ∧ HashOK P s.mem ht (fun a => a ∈ L) C
  lru : LruOK s.mem s.lru_list L

/-- The abstract effect of an accepted `record` on the list of `(uri, count)`
pairs (head first) and the counter `lru_list_entries`; `M` is
`lru_list_max_entries` and `key` the normalised URI. -/
def abs_add (M : Nat) (st : List (List Nat × Nat) × Nat) (key : List Nat) :
    List (List Nat × Nat) × Nat :=
  match st.1.find? (fun e => e.1 == key) with
  | some e => ((key, e.2 + 1) :: st.1.filter (fun e => e.1 != key), st.2 - 1 + 1)
  | none => ((key, 1) :: (if st.2 < M then st.1 else []), st.2 + 1)

/-- The abstract effect of one `record` call, rejected calls included. -/
def abs_record (M : Nat) (st : List (List Nat × Nat) × Nat) (uri : List Nat) :
    List (List Nat × Nat) × Nat :=
  if uri.length = 0 ∨ uri.length > 256 then st else abs_add M st (cstr (ngx_strlow uri))

/-- The abstract effect of a sequence of `record` calls. -/
def abs_run (M : Nat) (st : List (List Nat × Nat) × Nat) (uris : List (List Nat)) :
    List (List Nat × Nat) × Nat :=
  uris.foldl (abs_record M) st

/-- The state `s` is a well-formed tracker whose live entries, read from the head
of the LRU list, are the `(uri, count)` pairs `V`. -/
def Tracks (P : Platform) (s : ngx_uri_table) (V : List (List Nat × Nat)) : Prop :=
  ∃ L, Repr P s L ∧ L.map (entry_view s.mem) = V

/-- The count recorded for the URI `k` in a list of `(uri, count)` pairs. -/
def getc (V : List (List Nat × Nat)) (k : List Nat) : Option Nat :=
  (V.find? (fun e => e.1 == k)).map Prod.snd

/-- The call `record(u)` is accepted and its normalised URI is the C string `k`. -/
def hits (k : List Nat) (u : List Nat) : Bool :=
  decide (¬ (u.length = 0 ∨ u.length > 256)) && (cstr (ngx_strlow u) == k)

/-- The `(uri, count)` pairs of the entries that are live after recording `uris`
on a freshly initialised tracker, head of the LRU list first. -/
def live_after (P : Platform) (footprint hash_size : Nat) (uris : List (List Nat)) :
    List (List Nat × Nat) :=
  match record_all P (tracker_init footprint hash_size) uris with
  | none => []
  | some s =>
    match lru_view s with
    | none => []
    | some V => V

/-- Walk every bucket chain of the array and collect the entries met. -/
def hash_walk_all (mem : List ngx_uri_entry) (fuel : Nat) :
    List (Option Nat) → Option (List Nat)
  | [] => some []
  | b :: bs =>
    match chain_walk mem fuel b, hash_walk_all mem fuel bs with
    | some l, some r => some (l ++ r)
    | _, _ => none

/-- The entries reachable through the hash index: all bucket chains, bucket 0
first. -/
def hash_entries (uri_table : ngx_uri_table) : Option (List Nat) :=
  match uri_table.hash_table with
  | none => none
  | some ht => hash_walk_all uri_table.mem uri_table.mem.length ht.buckets

/-- The count property of the tracker for the run `uris`: every entry `(k, c)` live
at the end has a last point `pre` of the run at which `k` was not live, `k` stays
live from the next call on, and `c` is the number of calls after `pre` whose
normalised URI is `k`: the calls that pass the length check and whose lowercased,
NUL-terminated copy `my_uri` is the C string `k`. -/
def count_claim (P : Platform) (footprint hash_size : Nat) (uris : List (List Nat)) : Prop :=
  ∀ k c, (k, c) ∈ live_after P footprint hash_size uris →
    ∃ pre suf, uris = pre ++ suf ∧
      k ∉ (live_after P footprint hash_size pre).map Prod.fst ∧
      (∀ i, i < suf.length →
        k ∈ (live_after P footprint hash_size (pre ++ suf.take (i + 1))).map Prod.fst) ∧
      c = suf.countP (hits k)

/-- The index `largest` that `ngx_max_heap_heapify` computes at slot `i`: the slot
among `i`, `LCHILD(i)`, `RCHILD(i)` chosen by its two comparisons. -/
def heap_largest (mem : List ngx_uri_entry) (max_heap : ngx_max_heap) (i : Nat) : Nat :=
  let cnt := fun k => (rd mem (max_heap.getD k 0)).count
  let largest :=
    if LCHILD i < max_heap.length ∧ cnt (LCHILD i) > cnt i then LCHILD i else i
  if RCHILD i < max_heap.length ∧ cnt (RCHILD i) > cnt largest then RCHILD i else largest

/-- The count of the entry in slot `k` of the heap array. -/
def heap_count (mem : List ngx_uri_entry) (max_heap : ngx_max_heap) (k : Nat) : Nat :=
  (rd mem (max_heap.getD k 0)).count

/-- The max-heap property for the child indices `LCHILD(i) = 2i+1` and
`RCHILD(i) = 2i+2` used by the extraction: no child inside the heap has a larger
count than its parent. -/
def is_max_heap (mem : List ngx_uri_entry) (max_heap : ngx_max_heap) : Prop :=
  ∀ i, i < max_heap.length →
    (LCHILD i < max_heap.length → heap_count mem max_heap (LCHILD i) ≤ heap_count mem max_heap i) ∧
    (RCHILD i < max_heap.length → heap_count mem max_heap (RCHILD i) ≤ heap_count mem max_heap i)

instance (mem : List ngx_uri_entry) (max_heap : ngx_max_heap) :
    Decidable (is_max_heap mem max_heap) :=
  inferInstanceAs (Decidable (∀ i, i < max_heap.length →
    (LCHILD i < max_heap.length → heap_count mem max_heap (LCHILD i) ≤ heap_count mem max_heap i) ∧
    (RCHILD i < max_heap.length → heap_count mem max_heap (RCHILD i) ≤ heap_count mem max_heap i)))

/-- The max-heap property everywhere except at slot `i`, the state in which
`ngx_max_heap_heapify(i)` is called: every slot other than `i` dominates its
children, and the children of `i` are dominated by the parent of `i`. -/
def heap_except (mem : List ngx_uri_entry) (max_heap : ngx_max_heap) (i : Nat) : Prop :=
  (∀ j, j < max_heap.length → j ≠ i →
    (LCHILD j < max_heap.length → heap_count mem max_heap (LCHILD j) ≤ heap_count mem max_heap j) ∧
    (RCHILD j < max_heap.length → heap_count mem max_heap (RCHILD j) ≤ heap_count mem max_heap j)) ∧
  (∀ p, p < max_heap.length → (LCHILD p = i ∨ RCHILD p = i) →
    (LCHILD i < max_heap.length → heap_count mem max_heap (LCHILD i) ≤ heap_count mem max_heap p) ∧
    (RCHILD i < max_heap.length → heap_count mem max_heap (RCHILD i) ≤ heap_count mem max_heap p))

/-! ## Concrete runs -/

/-- The run of C3: ten URIs recorded so that the LRU list, head first, is
`/a` .. `/j` with the counts 2, 2, 1, 2, 1, 1, 2, 1, 1, 1. -/
def unsorted_run : List (List Nat) :=
  [bytes "/j", bytes "/i", bytes "/h", bytes "/g", bytes "/g", bytes "/f", bytes "/e",
    bytes "/d", bytes "/d", bytes "/c", bytes "/b", bytes "/b", bytes "/a", bytes "/a"]

/-- The URI `/i` with `i` written in decimal. -/
def uri_of (i : Nat) : List Nat := 47 :: (Nat.toDigits 10 i).map Char.toNat

/-- The run of C4: the URIs `/105`, `/104`, .. , `/0` in this order, each recorded
once, except `/6`, `/3`, `/1` and `/0`, which are recorded twice in a row. -/
def topn_run : List (List Nat) :=
  ((List.range 106).reverse.map
    (fun i => List.replicate (if i = 0 ∨ i = 1 ∨ i = 3 ∨ i = 6 then 2 else 1) (uri_of i))).flatten

/-- The URI `/` followed by the three letters that write `i` in base 26. -/
def uri3 (i : Nat) : List Nat := [47, 97 + i / 676, 97 + i / 26 % 26, 97 + i % 26]

/-- The run of C11: 1025 pairwise different URIs, one more than the heap array
has slots. -/
def many_uris : List (List Nat) := (List.range 1025).map uri3

/-- The run of C23: 6722 pairwise different URIs, one more than the tracker of an
LP64 build holds. -/
def overflow_uris : List (List Nat) := (List.range 6722).map uri3

/-- The run of C15: seven URIs recorded so that the LRU list, head first, is
`/a` .. `/g` with the counts 2, 2, 1, 2, 1, 1, 2. -/
def heap_run : List (List Nat) :=
  [bytes "/g", bytes "/g", bytes "/f", bytes "/e", bytes "/d", bytes "/d", bytes "/c",
    bytes "/b", bytes "/b", bytes "/a", bytes "/a"]

/-- A store of three entries with the counts 5, 3 and 4. -/
def heap_mem : List ngx_uri_entry :=
  [⟨bytes "/a", none, 5, none, none⟩, ⟨bytes "/b", none, 3, none, none⟩,
    ⟨bytes "/c", none, 4, none, none⟩]

/-! ## Lemmas -/

/-! ## Store lemmas -/

theorem length_wr (mem : List ngx_uri_entry) (a : Nat) (e : ngx_uri_entry) :
    (wr mem a e).length = mem.length := by
  simp [wr]

theorem rd_wr (mem : List ngx_uri_entry) (a b : Nat) (e : ngx_uri_entry) :
    rd (wr mem a e) b = if a = b ∧ a < mem.length then e else rd mem b := by
  unfold rd wr
  by_cases h : a = b
  · subst h
    by_cases h2 : a < mem.length
    · simp [h2, List.getD_eq_getElem?_getD, List.getElem?_set]
    · have h3 : mem.length ≤ a := Nat.le_of_not_lt h2
      simp [h2, List.getD_eq_getElem?_getD, List.getElem?_set, List.getElem?_eq_none h3]
  · simp [h, List.getD_eq_getElem?_getD, List.getElem?_set]

theorem rd_append_lt (mem : List ngx_uri_entry) (e : ngx_uri_entry) (a : Nat)
    (h : a < mem.length) : rd (mem ++ [e]) a = rd mem a := by
  simp [rd, List.getD_eq_getElem?_getD, List.getElem?_append_left h]

theorem rd_append_new (mem : List ngx_uri_entry) (e : ngx_uri_entry) :
    rd (mem ++ [e]) mem.length = e := by
  simp [rd, List.getD_eq_getElem?_getD]

@[simp] theorem length_set_next (mem : List ngx_uri_entry) (a : Nat) (v : Option Nat) :
    (set_next mem a v).length = mem.length := by simp [set_next, length_wr]

@[simp] theorem length_set_lru_prev (mem : List ngx_uri_entry) (a : Nat) (v : Option Nat) :
    (set_lru_prev mem a v).length = mem.length := by simp [set_lru_prev, length_wr]

@[simp] theorem length_set_lru_next (mem : List ngx_uri_entry) (a : Nat) (v : Option Nat) :
    (set_lru_next mem a v).length = mem.length := by simp [set_lru_next, length_wr]

@[simp] theorem length_set_count (mem : List ngx_uri_entry) (a : Nat) (v : Nat) :
    (set_count mem a v).length = mem.length := by simp [set_count, length_wr]

/-! Field-wise effect of the four assignments. -/

@[simp] theorem uri_set_next (mem : List ngx_uri_entry) (a b : Nat) (v : Option Nat) :
    (rd (set_next mem a v) b).uri = (rd mem b).uri := by
  simp only [set_next, rd_wr]; split <;> simp_all

@[simp] theorem count_set_next (mem : List ngx_uri_entry) (a b : Nat) (v : Option Nat) :
    (rd (set_next mem a v) b).count = (rd mem b).count := by
  simp only [set_next, rd_wr]; split <;> simp_all

@[simp] theorem lru_prev_set_next (mem : List ngx_uri_entry) (a b : Nat) (v : Option Nat) :
    (rd (set_next mem a v) b).lru_prev = (rd mem b).lru_prev := by
  simp only [set_next, rd_wr]; split <;> simp_all

@[simp] theorem lru_next_set_next (mem : List ngx_uri_entry) (a b : Nat) (v : Option Nat) :
    (rd (set_next mem a v) b).lru_next = (rd mem b).lru_next := by
  simp only [set_next, rd_wr]; split <;> simp_all

theorem next_set_next (mem : List ngx_uri_entry) (a b : Nat) (v : Option Nat) :
    (rd (set_next mem a v) b).next = if a = b ∧ a < mem.length then v else (rd mem b).next := by
  simp only [set_next, rd_wr]; split <;> simp_all

@[simp] theorem uri_set_lru_prev (mem : List ngx_uri_entry) (a b : Nat) (v : Option Nat) :
    (rd (set_lru_prev mem a v) b).uri = (rd mem b).uri := by
  simp only [set_lru_prev, rd_wr]; split <;> simp_all

@[simp] theorem count_set_lru_prev (mem : List ngx_uri_entry) (a b : Nat) (v : Option Nat) :
    (rd (set_lru_prev mem a v) b).count = (rd mem b).count := by
  simp only [set_lru_prev, rd_wr]; split <;> simp_all

@[simp] theorem next_set_lru_prev (mem : List ngx_uri_entry) (a b : Nat) (v : Option Nat) :
    (rd (set_lru_prev mem a v) b).next = (rd mem b).next := by
  simp only [set_lru_prev, rd_wr]; split <;> simp_all

@[simp] theorem lru_next_set_lru_prev (mem : List ngx_uri_entry) (a b : Nat) (v : Option Nat) :
    (rd (set_lru_prev mem a v) b).lru_next = (rd mem b).lru_next := by
  simp only [set_lru_prev, rd_wr]; split <;> simp_all

theorem lru_prev_set_lru_prev (mem : List ngx_uri_entry) (a b : Nat) (v : Option Nat) :
    (rd (set_lru_prev mem a v) b).lru_prev =
      if a = b ∧ a < mem.length then v else (rd mem b).lru_prev := by
  simp only [set_lru_prev, rd_wr]; split <;> simp_all

@[simp] theorem uri_set_lru_next (mem : List ngx_uri_entry) (a b : Nat) (v : Option Nat) :
    (rd (set_lru_next mem a v) b).uri = (rd mem b).uri := by
  simp only [set_lru_next, rd_wr]; split <;> simp_all

@[simp] theorem count_set_lru_next (mem : List ngx_uri_entry) (a b : Nat) (v : Option Nat) :
    (rd (set_lru_next mem a v) b).count = (rd mem b).count := by
  simp only [set_lru_next, rd_wr]; split <;> simp_all

@[simp] theorem next_set_lru_next (mem : List ngx_uri_entry) (a b : Nat) (v : Option Nat) :
    (rd (set_lru_next mem a v) b).next = (rd mem b).next := by
  simp only [set_lru_next, rd_wr]; split <;> simp_all

@[simp] theorem lru_prev_set_lru_next (mem : List ngx_uri_entry) (a b : Nat) (v : Option Nat) :
    (rd (set_lru_next mem a v) b).lru_prev = (rd mem b).lru_prev := by
  simp only [set_lru_next, rd_wr]; split <;> simp_all

theorem lru_next_set_lru_next (mem : List ngx_uri_entry) (a b : Nat) (v : Option Nat) :
    (rd (set_lru_next mem a v) b).lru_next =
      if a = b ∧ a < mem.length then v else (rd mem b).lru_next := by
  simp only [set_lru_next, rd_wr]; split <;> simp_all

@[simp] theorem uri_set_count (mem : List ngx_uri_entry) (a b : Nat) (v : Nat) :
    (rd (set_count mem a v) b).uri = (rd mem b).uri := by
  simp only [set_count, rd_wr]; split <;> simp_all

@[simp] theorem next_set_count (mem : List ngx_uri_entry) (a b : Nat) (v : Nat) :
    (rd (set_count mem a v) b).next = (rd mem b).next := by
  simp only [set_count, rd_wr]; split <;> simp_all

@[simp] theorem lru_prev_set_count (mem : List ngx_uri_entry) (a b : Nat) (v : Nat) :
    (rd (set_count mem a v) b).lru_prev = (rd mem b).lru_prev := by
  simp only [set_count, rd_wr]; split <;> simp_all

@[simp] theorem lru_next_set_count (mem : List ngx_uri_entry) (a b : Nat) (v : Nat) :
    (rd (set_count mem a v) b).lru_next = (rd mem b).lru_next := by
  simp only [set_count, rd_wr]; split <;> simp_all

theorem count_set_count (mem : List ngx_uri_entry) (a b : Nat) (v : Nat) :
    (rd (set_count mem a v) b).count =
      if a = b ∧ a < mem.length then v else (rd mem b).count := by
  simp only [set_count, rd_wr]; split <;> simp_all

/-! ## Linked chains -/

theorem IsChain.congr {nx nx2 : Nat → Option Nat} {l : List Nat} :
    ∀ {p : Option Nat}, (∀ a ∈ l, nx2 a = nx a) → IsChain nx p l → IsChain nx2 p l := by
  induction l with
  | nil => intro p _ h; exact h
  | cons a l ih =>
    intro p hag h
    refine ⟨h.1, ?_⟩
    rw [hag a (List.mem_cons_self _ _)]
    exact ih (fun b hb => hag b (List.mem_cons_of_mem _ hb)) h.2

theorem IsChain.head_eq {nx : Nat → Option Nat} {l : List Nat} {p : Option Nat}
    (h : IsChain nx p l) : p = l.head? := by
  cases l with
  | nil => exact h
  | cons a l => exact h.1

theorem IsChain.unique {nx : Nat → Option Nat} {l : List Nat} :
    ∀ {p : Option Nat} {l2 : List Nat}, IsChain nx p l → IsChain nx p l2 → l = l2 := by
  induction l with
  | nil =>
    intro p l2 h h2
    cases l2 with
    | nil => rfl
    | cons b l2 => rw [h] at h2; exact absurd h2.1 (by simp)
  | cons a l ih =>
    intro p l2 h h2
    cases l2 with
    | nil => rw [h2] at h; exact absurd h.1 (by simp)
    | cons b l2 =>
      have hab : a = b := by
        have := h.1.symm.trans h2.1
        exact Option.some.inj this
      subst hab
      rw [ih h.2 h2.2]

theorem IsChain.tail_of_append {nx : Nat → Option Nat} {l1 : List Nat} :
    ∀ {p : Option Nat} {a : Nat} {l2 : List Nat},
      IsChain nx p (l1 ++ a :: l2) → IsChain nx (nx a) l2 := by
  induction l1 with
  | nil => intro p a l2 h; exact h.2
  | cons b l ih => intro p a l2 h; exact ih h.2

theorem IsChain.next_eq {nx : Nat → Option Nat} {l1 : List Nat} {p : Option Nat} {a : Nat}
    {l2 : List Nat} (h : IsChain nx p (l1 ++ a :: l2)) : nx a = l2.head? :=
  (IsChain.tail_of_append h).head_eq

theorem IsChain.next_mem {nx : Nat → Option Nat} {l : List Nat} {p : Option Nat}
    (h : IsChain nx p l) {b c : Nat} (hb : b ∈ l) (hc : nx b = some c) : c ∈ l := by
  obtain ⟨l1, l2, rfl⟩ := List.append_of_mem hb
  have := h.next_eq
  rw [hc] at this
  cases l2 with
  | nil => simp at this
  | cons d l2 =>
    simp at this
    subst this
    simp

/-- In a chain without repetition the only node whose link is `a` is the node in
front of `a`. -/
theorem IsChain.pred_iff {nx : Nat → Option Nat} {l1 : List Nat} {p : Option Nat} {a : Nat}
    {l2 : List Nat} (h : IsChain nx p (l1 ++ a :: l2)) (hn : (l1 ++ a :: l2).Nodup)
    {b : Nat} (hb : b ∈ l1 ++ a :: l2) : nx b = some a ↔ l1.getLast? = some b := by
  obtain ⟨m1, m2, hm⟩ := List.append_of_mem hb
  have hnx : nx b = m2.head? := by
    rw [hm] at h; exact h.next_eq
  constructor
  · intro hba
    rw [hba] at hnx
    cases m2 with
    | nil => simp at hnx
    | cons d m2 =>
      simp at hnx
      subst hnx
      -- l1 ++ a :: l2 = m1 ++ b :: a :: m2 = (m1 ++ [b]) ++ a :: m2
      have hm2 : l1 ++ a :: l2 = (m1 ++ [b]) ++ a :: m2 := by simp [hm]
      have hnotin : a ∉ l1 := by
        intro ha
        have := List.nodup_append.1 hn
        exact this.2.2 ha (List.mem_cons_self _ _) 
      have hnotin2 : a ∉ m1 ++ [b] := by
        intro ha
        rw [hm2] at hn
        have := List.nodup_append.1 hn
        exact this.2.2 ha (List.mem_cons_self _ _)
      have := List.append_inj_left' hm2 ?_
      · rw [this]; simp
      · have h1 := List.append_eq_append_iff.1 hm2
        rcases h1 with ⟨c, hc1, hc2⟩ | ⟨c, hc1, hc2⟩
        · cases c with
          | nil => simp at hc2; rw [hc2]
          | cons e c =>
            simp at hc2
            exfalso; apply hnotin2; rw [hc1, hc2.1]; simp
        · cases c with
          | nil => simp at hc2; rw [hc2]
          | cons e c =>
            simp at hc2
            exfalso; apply hnotin; rw [hc1, hc2.1]; simp
  · intro hl
    obtain ⟨k, rfl⟩ : ∃ k, l1 = k ++ [b] := by
      rcases List.eq_nil_or_concat l1 with h0 | ⟨k, c, hk⟩
      · subst h0; simp at hl
      · subst hk; simp at hl; subst hl; exact ⟨k, by simp⟩
    have h2 : IsChain nx p (k ++ b :: a :: l2) := by
      simpa using h
    have := h2.next_eq
    simpa using this

/-- Unlinking `a`: every link that pointed to `a` now points to what followed `a`. -/
theorem IsChain.unlink {nx g : Nat → Option Nat} {a : Nat} {l2 : List Nat} {l1 : List Nat} :
    ∀ {p : Option Nat}, IsChain nx p (l1 ++ a :: l2) → (l1 ++ a :: l2).Nodup →
      (∀ b ∈ l1 ++ l2, g b = if nx b = some a then nx a else nx b) →
      IsChain g (if p = some a then nx a else p) (l1 ++ l2) := by
  induction l1 with
  | nil =>
    intro p h hn hag
    have hp : p = some a := h.1
    simp only [hp, if_true, List.nil_append]
    refine IsChain.congr ?_ h.2
    intro b hb
    rw [hag b (by simpa using hb)]
    have : nx b ≠ some a := by
      intro hba
      have := h.2.next_mem hb hba
      simp at hn
      exact hn.1 this
    simp [this]
  | cons b l ih =>
    intro p h hn hag
    have hp : p = some b := h.1
    have hba : b ≠ a := by
      intro e; subst e
      simp at hn
    have hpa : p ≠ some a := by
      rw [hp]; intro e; exact hba (Option.some.inj e)
    simp only [hpa, if_false]
    refine ⟨hp, ?_⟩
    rw [hag b (by simp)]
    exact ih h.2 (List.nodup_cons.1 hn).2 (fun c hc => hag c (by simp at hc ⊢; tauto))

/-- Appending `n` at the far end: the link that was `NULL` now points to `n`. -/
theorem IsChain.snoc {nx g : Nat → Option Nat} {n : Nat} {l : List Nat} :
    ∀ {p : Option Nat}, IsChain nx p l → g n = none →
      (∀ b ∈ l, g b = if nx b = none then some n else nx b) →
      IsChain g (if p = none then some n else p) (l ++ [n]) := by
  induction l with
  | nil =>
    intro p h hn _
    have hp : p = none := h
    simp only [hp, if_true, List.nil_append]
    exact ⟨rfl, hn⟩
  | cons b l ih =>
    intro p h hn hag
    have hp : p = some b := h.1
    simp only [hp, List.cons_append]
    refine ⟨by simp, ?_⟩
    rw [hag b (by simp)]
    exact ih h.2 hn (fun c hc => hag c (by simp [hc]))

theorem IsChain.length_le {nx : Nat → Option Nat} {l : List Nat} {p : Option Nat}
    (_h : IsChain nx p l) (hn : l.Nodup) {n : Nat} (hb : ∀ a ∈ l, a < n) : l.length ≤ n := by
  have hsub : l ⊆ List.range n := by
    intro a ha; exact List.mem_range.2 (hb a ha)
  have := (List.subperm_of_subset hn hsub).length_le
  simpa using this

/-! ## `hash4` as a fold -/

theorem HASH4_iterate (P : Platform) (n : Nat) :
    ∀ (h : Nat) (l : List Nat), n ≤ l.length →
      (HASH4 P)^[n] (h, l) = ((l.take n).foldl (hash_step P) h, l.drop n) := by
  induction n with
  | zero => intro h l _; simp
  | succ n ih =>
    intro h l hl
    cases l with
    | nil => simp at hl
    | cons b l =>
      simp only [Function.iterate_succ, Function.comp]
      have : HASH4 P (h, b :: l) = (hash_step P h b, l) := by
        simp [HASH4, hash_step]
      rw [this, ih _ _ (by simpa using hl)]
      simp

theorem hash4_switch_eq (P : Platform) (r : Nat) (hr : r < 8) (st : Nat × List Nat) :
    hash4_switch P r st = (HASH4 P)^[r] st := by
  interval_cases r <;> rfl

theorem hash4_loop_eq (P : Platform) (k : Nat) :
    ∀ st : Nat × List Nat, hash4_loop P k st = (HASH4 P)^[8 * k] st := by
  induction k with
  | zero => intro st; rfl
  | succ k ih =>
    intro st
    have : 8 * (k + 1) = 8 * k + 8 := by ring
    rw [this, Function.iterate_add_apply]
    simp only [hash4_loop]
    rw [ih]
    rfl

theorem take_strlen (s : List Nat) : s.take (strlen s) = cstr s := by
  unfold strlen cstr
  induction s with
  | nil => simp
  | cons b s ih =>
    by_cases hb : (b != 0) = true
    · simp [List.takeWhile_cons, hb, ih]
    · simp [List.takeWhile_cons, hb]

theorem strlen_le (s : List Nat) : strlen s ≤ s.length := by
  unfold strlen cstr
  exact (List.takeWhile_sublist _).length_le

/-- `hash4` is the rolling hash of the bytes of its C string, reduced modulo `size`. -/
theorem hash4_eq_fold (P : Platform) (data : List Nat) (size : Nat) :
    hash4 P data size = (cstr data).foldl (hash_step P) 0 % size := by
  unfold hash4
  simp only
  rw [hash4_switch_eq P _ (Nat.mod_lt _ (by decide)), hash4_loop_eq,
    ← Function.iterate_add_apply]
  have hlen : 8 * (strlen data / 8) + strlen data % 8 = strlen data := Nat.div_add_mod _ _
  rw [hlen, HASH4_iterate P _ _ _ (strlen_le data), take_strlen]

theorem hash4_congr (P : Platform) {a b : List Nat} (size : Nat) (h : cstr a = cstr b) :
    hash4 P a size = hash4 P b size := by
  rw [hash4_eq_fold, hash4_eq_fold, h]

theorem hash4_lt (P : Platform) (data : List Nat) {size : Nat} (h : 0 < size) :
    hash4 P data size < size := by
  rw [hash4_eq_fold]; exact Nat.mod_lt _ h

theorem cstr_idem (s : List Nat) : cstr (cstr s) = cstr s := by
  unfold cstr
  induction s with
  | nil => simp
  | cons b s ih =>
    by_cases hb : (b != 0) = true
    · simp [List.takeWhile_cons, hb, ih]
    · simp [List.takeWhile_cons, hb]

theorem cstr_of_nul_free {s : List Nat} (h : 0 ∉ s) : cstr s = s := by
  unfold cstr
  rw [List.takeWhile_eq_self_iff]
  intro b hb
  simp
  intro e; subst e; exact h hb

/-! ## Frames -/

theorem EqData_refl (mem : List ngx_uri_entry) : EqData mem mem := ⟨rfl, fun _ => ⟨rfl, rfl⟩⟩
theorem EqLru_refl (mem : List ngx_uri_entry) : EqLru mem mem := fun _ => ⟨rfl, rfl⟩

theorem EqData.trans_data {m1 m2 m3 : List ngx_uri_entry} (h1 : EqData m1 m2) (h2 : EqData m2 m3) :
    EqData m1 m3 :=
  ⟨h2.1.trans h1.1, fun b => ⟨(h2.2 b).1.trans (h1.2 b).1, (h2.2 b).2.trans (h1.2 b).2⟩⟩

/-! ## The hash index -/

theorem HashOK.frame {P : Platform} {mem mem2 : List ngx_uri_entry} {ht : ngx_uri_hash_table}
    {live : Nat → Prop} {C : Nat → List Nat} (h : HashOK P mem ht live C)
    (hd : EqData mem mem2) (hn : EqNext mem mem2) : HashOK P mem2 ht live C where
  size_pos := h.size_pos
  len := h.len
  chain := fun v hv => IsChain.congr (fun a _ => hn a) (h.chain v hv)
  nodup := h.nodup
  mem_iff := fun v a => by rw [(hd.2 a).1]; exact h.mem_iff v a
  bound := fun a ha => by rw [hd.1]; exact h.bound a ha
  uniq := fun a b ha hb he => by
    rw [(hd.2 a).1, (hd.2 b).1] at he; exact h.uniq a b ha hb he

theorem HashOK.live_congr {P : Platform} {mem : List ngx_uri_entry} {ht : ngx_uri_hash_table}
    {live live2 : Nat → Prop} {C : Nat → List Nat} (h : HashOK P mem ht live C)
    (hl : ∀ a, live2 a ↔ live a) : HashOK P mem ht live2 C where
  size_pos := h.size_pos
  len := h.len
  chain := h.chain
  nodup := h.nodup
  mem_iff := fun v a => by rw [hl]; exact h.mem_iff v a
  bound := fun a ha => h.bound a ((hl a).1 ha)
  uniq := fun a b ha hb he => h.uniq a b ((hl a).1 ha) ((hl b).1 hb) he

theorem lookup_walk_none (mem : List ngx_uri_entry) (uri : List Nat) (fuel : Nat) :
    lookup_walk mem uri fuel none = some none := by
  cases fuel <;> rfl

theorem lookup_walk_chain (mem : List ngx_uri_entry) (key : List Nat) :
    ∀ (l : List Nat) (fuel : Nat) (p : Option Nat),
      IsChain (fun a => (rd mem a).next) p l → l.length ≤ fuel →
      lookup_walk mem key fuel p =
        some (l.find? (fun a => ngx_strcmp_eq key (rd mem a).uri)) := by
  intro l
  induction l with
  | nil =>
    intro fuel p h _
    have hp : p = none := h
    subst hp
    simp [lookup_walk_none]
  | cons a l ih =>
    intro fuel p h hf
    have hp : p = some a := h.1
    subst hp
    cases fuel with
    | zero => simp at hf
    | succ f =>
      simp only [lookup_walk, List.find?_cons]
      by_cases hm : ngx_strcmp_eq key (rd mem a).uri = true
      · simp [hm]
      · simp only [hm]
        exact ih f _ h.2 (by simpa using hf)

theorem strcmp_eq_iff (a b : List Nat) : ngx_strcmp_eq a b = true ↔ cstr a = cstr b := by
  simp [ngx_strcmp_eq]

/-- On a well-formed index the lookup returns, and it returns the live entry
with the URI of the key when there is one. -/
theorem lookup_spec {P : Platform} {s : ngx_uri_table} {ht : ngx_uri_hash_table}
    {live : Nat → Prop} {C : Nat → List Nat} (h : HashOK P s.mem ht live C)
    (hs : s.hash_table = some ht) (key : List Nat) :
    ∃ r, ngx_uri_table_lookup P s key = some r ∧
      (∀ a, r = some a → live a ∧ cstr (rd s.mem a).uri = cstr key) ∧
      (r = none → ∀ a, live a → cstr (rd s.mem a).uri ≠ cstr key) := by
  have hv : hash4 P key ht.size < ht.size := hash4_lt P key h.size_pos
  have hch := h.chain _ hv
  have hle : (C (hash4 P key ht.size)).length ≤ s.mem.length :=
    hch.length_le (h.nodup _) (fun a ha => h.bound a ((h.mem_iff _ a).1 ha).1)
  refine ⟨(C (hash4 P key ht.size)).find? (fun a => ngx_strcmp_eq key (rd s.mem a).uri),
    ?_, ?_, ?_⟩
  · unfold ngx_uri_table_lookup
    rw [hs]
    exact lookup_walk_chain s.mem key _ _ _ hch hle
  · intro a ha
    have h1 := List.find?_some ha
    have h2 := List.mem_of_find?_eq_some ha
    exact ⟨((h.mem_iff _ a).1 h2).1, ((strcmp_eq_iff _ _).1 h1).symm⟩
  · intro hnone a ha he
    have hmem : a ∈ C (hash4 P key ht.size) :=
      (h.mem_iff _ a).2 ⟨ha, hash4_congr P _ he⟩
    have := List.find?_eq_none.1 hnone a hmem
    apply this
    exact (strcmp_eq_iff _ _).2 he.symm

theorem getD_set_bucket (l : List (Option Nat)) (v w : Nat) (x : Option Nat) :
    (l.set v x).getD w none = if v = w ∧ v < l.length then x else l.getD w none := by
  by_cases h : v = w
  · subst h
    by_cases h2 : v < l.length
    · simp [h2, List.getD_eq_getElem?_getD, List.getElem?_set]
    · have h3 : l.length ≤ v := Nat.le_of_not_lt h2
      simp [h2, List.getD_eq_getElem?_getD, List.getElem?_set, List.getElem?_eq_none h3]
  · simp [h, List.getD_eq_getElem?_getD, List.getElem?_set]

/-- Prepending a fresh entry to its bucket chain keeps the index well formed. -/
theorem join_spec {P : Platform} {s : ngx_uri_table} {ht : ngx_uri_hash_table}
    {live : Nat → Prop} {C : Nat → List Nat} (h : HashOK P s.mem ht live C)
    (hs : s.hash_table = some ht) (n : Nat) (hn : n < s.mem.length) (hnl : ¬ live n)
    (hu : ∀ a, live a → cstr (rd s.mem a).uri ≠ cstr (rd s.mem n).uri) :
    ∃ s2 ht2 C2, ngx_uri_table_join P s n = some s2 ∧ s2.hash_table = some ht2 ∧
      ht2.size = ht.size ∧
      HashOK P s2.mem ht2 (fun a => a = n ∨ live a) C2 ∧
      s2.lru_list = s.lru_list ∧ s2.lru_list_entries = s.lru_list_entries ∧
      s2.lru_list_max_entries = s.lru_list_max_entries ∧
      EqData s.mem s2.mem ∧ EqLru s.mem s2.mem := by
  have hv : hash4 P (rd s.mem n).uri ht.size < ht.size := hash4_lt P _ h.size_pos
  have hnC : ∀ w, n ∉ C w := fun w hw => hnl ((h.mem_iff w n).1 hw).1
  refine ⟨{ s with
      mem := set_next s.mem n (ht.buckets.getD (hash4 P (rd s.mem n).uri ht.size) none)
      hash_table := some { ht with
        buckets := ht.buckets.set (hash4 P (rd s.mem n).uri ht.size) (some n) } },
    { ht with buckets := ht.buckets.set (hash4 P (rd s.mem n).uri ht.size) (some n) },
    Function.update C (hash4 P (rd s.mem n).uri ht.size)
    (n :: C (hash4 P (rd s.mem n).uri ht.size)), ?_, rfl, rfl, ?_, rfl, rfl, rfl, ?_, ?_⟩
  · unfold ngx_uri_table_join
    rw [hs]
  · refine ⟨h.size_pos, by simpa using h.len, ?_, ?_, ?_, ?_, ?_⟩
    · intro w hw
      simp only [getD_set_bucket, h.len]
      by_cases hwv : hash4 P (rd s.mem n).uri ht.size = w
      · subst hwv
        simp only [hv, and_self, if_true, Function.update_same]
        refine ⟨rfl, ?_⟩
        simp only [next_set_next, hn, and_self, if_true]
        exact IsChain.congr (fun a ha => by
          have : n ≠ a := by intro e; subst e; exact hnC _ ha
          simp [next_set_next, this]) (h.chain _ hv)
      · simp only [hwv, false_and, if_false, Function.update_noteq (Ne.symm hwv)]
        exact IsChain.congr (fun a ha => by
          have : n ≠ a := by intro e; subst e; exact hnC _ ha
          simp [next_set_next, this]) (h.chain _ hw)
    · intro w
      by_cases hwv : w = hash4 P (rd s.mem n).uri ht.size
      · subst hwv
        simp only [Function.update_same]
        exact List.nodup_cons.2 ⟨hnC _, h.nodup _⟩
      · simp only [Function.update_noteq hwv]
        exact h.nodup w
    · intro w a
      simp only [uri_set_next]
      by_cases hwv : w = hash4 P (rd s.mem n).uri ht.size
      · subst hwv
        simp only [Function.update_same, List.mem_cons, h.mem_iff]
        constructor
        · rintro (rfl | ⟨h1, h2⟩)
          · exact ⟨Or.inl rfl, rfl⟩
          · exact ⟨Or.inr h1, h2⟩
        · rintro ⟨rfl | h1, h2⟩
          · exact Or.inl rfl
          · exact Or.inr ⟨h1, h2⟩
      · simp only [Function.update_noteq hwv, h.mem_iff]
        constructor
        · rintro ⟨h1, h2⟩; exact ⟨Or.inr h1, h2⟩
        · rintro ⟨rfl | h1, h2⟩
          · exact absurd h2.symm hwv
          · exact ⟨h1, h2⟩
    · intro a ha
      simp only [length_set_next]
      rcases ha with rfl | ha
      · exact hn
      · exact h.bound a ha
    · intro a b ha hb he
      simp only [uri_set_next] at he
      rcases ha with rfl | ha <;> rcases hb with rfl | hb
      · rfl
      · exact absurd he.symm (hu b hb)
      · exact absurd he (hu a ha)
      · exact h.uniq a b ha hb he
  · exact ⟨by simp, fun b => by simp⟩
  · exact fun b => by simp

theorem delete_walk_chain (cur : Nat) (mem : List ngx_uri_entry) :
    ∀ (l : List Nat) (fuel : Nat) (p : Option Nat),
      IsChain (fun a => (rd mem a).next) p l → l.length ≤ fuel →
      (∃ q ∈ l, (rd mem q).next = some cur) →
      ∃ q ∈ l, (rd mem q).next = some cur ∧
        delete_walk cur fuel mem p = some (set_next mem q (rd mem cur).next) := by
  intro l
  induction l with
  | nil => intro fuel p _ _ hq; obtain ⟨q, hq, _⟩ := hq; simp at hq
  | cons a l ih =>
    intro fuel p h hf hq
    have hp : p = some a := h.1
    subst hp
    cases fuel with
    | zero => simp at hf
    | succ f =>
      simp only [delete_walk]
      by_cases hm : (rd mem a).next = some cur
      · exact ⟨a, List.mem_cons_self _ _, hm, by simp [hm]⟩
      · simp only [hm, if_false]
        obtain ⟨q, hq1, hq2⟩ := hq
        have hql : q ∈ l := by
          rcases List.mem_cons.1 hq1 with rfl | h1
          · exact absurd hq2 hm
          · exact h1
        obtain ⟨q2, h1, h2, h3⟩ := ih f _ h.2 (by simpa using hf) ⟨q, hql, hq2⟩
        exact ⟨q2, List.mem_cons_of_mem _ h1, h2, h3⟩

/-- Unlinking a live entry from its bucket chain keeps the index well formed and
removes exactly that entry. -/
theorem delete_spec {P : Platform} {s : ngx_uri_table} {ht : ngx_uri_hash_table}
    {live : Nat → Prop} {C : Nat → List Nat} (h : HashOK P s.mem ht live C)
    (hs : s.hash_table = some ht) (cur : Nat) (hc : live cur) :
    ∃ s2 ht2 C2, ngx_uri_table_delete P s cur = some s2 ∧ s2.hash_table = some ht2 ∧
      ht2.size = ht.size ∧
      HashOK P s2.mem ht2 (fun a => live a ∧ a ≠ cur) C2 ∧
      s2.lru_list = s.lru_list ∧ s2.lru_list_entries = s.lru_list_entries ∧
      s2.lru_list_max_entries = s.lru_list_max_entries ∧
      EqData s.mem s2.mem ∧ EqLru s.mem s2.mem := by
  set v := hash4 P (rd s.mem cur).uri ht.size with hvdef
  have hv : v < ht.size := hash4_lt P _ h.size_pos
  have hcur : cur ∈ C v := (h.mem_iff v cur).2 ⟨hc, rfl⟩
  obtain ⟨l1, l2, hl⟩ := List.append_of_mem hcur
  have hch : IsChain (fun a => (rd s.mem a).next) (ht.buckets.getD v none)
      (l1 ++ cur :: l2) := hl ▸ h.chain v hv
  have hnd : (l1 ++ cur :: l2).Nodup := hl ▸ h.nodup v
  have hcur1 : cur ∉ l1 := fun hx =>
    (List.nodup_append.1 hnd).2.2 hx (List.mem_cons_self _ _)
  have hcur2 : cur ∉ l2 := fun hx => by
    have := (List.nodup_cons.1 (List.nodup_append.1 hnd).2.1).1
    exact this hx
  have hmem12 : ∀ a, a ∈ l1 ++ l2 ↔ a ∈ C v ∧ a ≠ cur := by
    intro a
    rw [hl]
    simp only [List.mem_append, List.mem_cons]
    constructor
    · rintro (h1 | h1)
      · exact ⟨Or.inl h1, fun e => hcur1 (e ▸ h1)⟩
      · exact ⟨Or.inr (Or.inr h1), fun e => hcur2 (e ▸ h1)⟩
    · rintro ⟨h1 | h1 | h1, h2⟩
      · exact Or.inl h1
      · exact absurd h1 h2
      · exact Or.inr h1
  -- the properties of the index that do not depend on the branch
  have key : ∀ (mem2 : List ngx_uri_entry) (b2 : List (Option Nat)),
      EqData s.mem mem2 → b2.length = ht.buckets.length →
      (∀ w, w < ht.size → w ≠ v → b2.getD w none = ht.buckets.getD w none) →
      (∀ w, w ≠ v → ∀ a ∈ C w, (rd mem2 a).next = (rd s.mem a).next) →
      IsChain (fun a => (rd mem2 a).next) (b2.getD v none) (l1 ++ l2) →
      HashOK P mem2 { ht with buckets := b2 } (fun a => live a ∧ a ≠ cur)
        (Function.update C v (l1 ++ l2)) := by
    intro mem2 b2 hd hb2 hbw hnw hcv
    refine ⟨h.size_pos, by simpa [hb2] using h.len, ?_, ?_, ?_, ?_, ?_⟩
    · intro w hw
      by_cases hwv : w = v
      · subst hwv
        simpa only [Function.update_same] using hcv
      · simp only [Function.update_noteq hwv]
        rw [hbw w hw hwv]
        exact IsChain.congr (hnw w hwv) (h.chain w hw)
    · intro w
      by_cases hwv : w = v
      · subst hwv
        simp only [Function.update_same]
        have := List.nodup_append.1 hnd
        refine List.nodup_append.2 ⟨this.1, (List.nodup_cons.1 this.2.1).2, ?_⟩
        intro a ha1 ha2
        exact this.2.2 ha1 (List.mem_cons_of_mem _ ha2)
      · simp only [Function.update_noteq hwv]
        exact h.nodup w
    · intro w a
      simp only [(hd.2 a).1]
      by_cases hwv : w = v
      · subst hwv
        simp only [Function.update_same, hmem12, h.mem_iff]
        tauto
      · simp only [Function.update_noteq hwv, h.mem_iff]
        constructor
        · rintro ⟨h1, h2⟩
          refine ⟨⟨h1, ?_⟩, h2⟩
          intro e; subst e; exact hwv h2.symm
        · rintro ⟨⟨h1, _⟩, h2⟩; exact ⟨h1, h2⟩
    · intro a ha
      rw [hd.1]; exact h.bound a ha.1
    · intro a b ha hb he
      rw [(hd.2 a).1, (hd.2 b).1] at he
      exact h.uniq a b ha.1 hb.1 he
  by_cases hhead : ht.buckets.getD v none = some cur
  · -- the entry is the head of its chain
    have hun := IsChain.unlink (g := fun a => (rd s.mem a).next) hch hnd (by
      intro b hb
      have hbne : (rd s.mem b).next ≠ some cur := by
        intro e
        have hbm : b ∈ l1 ++ cur :: l2 := by
          have := (hmem12 b).1 hb; rw [← hl]; exact this.1
        have := (hch.pred_iff hnd hbm).1 e
        have hl1 : l1 = [] := by
          cases l1 with
          | nil => rfl
          | cons c l1 =>
            have := hch.1
            rw [hhead] at this
            have : cur = c := Option.some.inj this
            subst this
            simp at hcur1
        subst hl1
        simp at this
      simp [hbne])
    simp only [hhead, if_true] at hun
    refine ⟨{ s with hash_table := some { ht with
        buckets := ht.buckets.set v (rd s.mem cur).next } },
      { ht with buckets := ht.buckets.set v (rd s.mem cur).next },
      Function.update C v (l1 ++ l2), ?_, rfl, rfl, ?_, rfl, rfl, rfl,
      EqData_refl _, EqLru_refl _⟩
    · unfold ngx_uri_table_delete
      rw [hs]
      simp only [← hvdef, hhead, if_true]
    · refine key s.mem _ (EqData_refl _) (by simp) ?_ (fun _ _ _ _ => rfl) ?_
      · intro w _ hwv
        simp [getD_set_bucket, Ne.symm hwv]
      · simp only [getD_set_bucket, h.len, hv, and_self, if_true]
        exact hun
  · -- the entry has a predecessor on its chain
    have hl1 : l1 ≠ [] := by
      intro e
      subst e
      exact hhead hch.1
    obtain ⟨k, q0, hk⟩ : ∃ k q0, l1 = k ++ [q0] := by
      rcases List.eq_nil_or_concat l1 with h0 | ⟨k, c, hk⟩
      · exact absurd h0 hl1
      · exact ⟨k, c, by simp [hk]⟩
    have hq0 : (rd s.mem q0).next = some cur := by
      have hq0m : q0 ∈ l1 ++ cur :: l2 := by simp [hk]
      exact (hch.pred_iff hnd hq0m).2 (by simp [hk])
    have hlen : (l1 ++ cur :: l2).length ≤ s.mem.length :=
      hch.length_le hnd (fun a ha => h.bound a ((h.mem_iff v a).1 (hl ▸ ha)).1)
    obtain ⟨q, hq1, hq2, hq3⟩ := delete_walk_chain cur s.mem _ _ _ hch hlen
      ⟨q0, by simp [hk], hq0⟩
    have hqlast : l1.getLast? = some q := (hch.pred_iff hnd hq1).1 hq2
    have hqC : q ∈ C v := hl ▸ hq1
    have hqb : q < s.mem.length := h.bound q ((h.mem_iff v q).1 hqC).1
    have hun := IsChain.unlink
      (g := fun a => (rd (set_next s.mem q (rd s.mem cur).next) a).next) hch hnd (by
      intro b hb
      have hbm : b ∈ l1 ++ cur :: l2 := by
        have := (hmem12 b).1 hb; rw [← hl]; exact this.1
      simp only [next_set_next]
      by_cases hqb2 : q = b
      · subst hqb2
        simp [hqb, hq2]
      · have : (rd s.mem b).next ≠ some cur := by
          intro e
          have := (hch.pred_iff hnd hbm).1 e
          rw [hqlast] at this
          exact hqb2 (Option.some.inj this)
        simp [hqb2, this])
    simp only [hhead, if_false] at hun
    refine ⟨{ s with mem := set_next s.mem q (rd s.mem cur).next }, ht,
      Function.update C v (l1 ++ l2), ?_, hs, rfl, ?_, rfl, rfl, rfl, ?_, ?_⟩
    · unfold ngx_uri_table_delete
      rw [hs]
      simp only [← hvdef, hhead, if_false, hq3]
    · refine key _ _ ⟨by simp, fun b => by simp⟩ rfl (fun _ _ _ => rfl) ?_ hun
      intro w hwv a ha
      have : q ≠ a := by
        intro e; subst e
        have h1 := ((h.mem_iff v q).1 hqC).2
        have h2 := ((h.mem_iff w q).1 ha).2
        exact hwv (h2.symm.trans h1)
      simp [next_set_next, this]
    · exact ⟨by simp, fun b => by simp⟩
    · exact fun b => by simp

/-! ## The LRU list -/

theorem LruOK.frame_lru {mem mem2 : List ngx_uri_entry} {ll : ngx_lru_link_list} {L : List Nat}
    (h : LruOK mem ll L) (hlen : mem2.length = mem.length) (hl : EqLru mem mem2) :
    LruOK mem2 ll L where
  fwd := IsChain.congr (fun a _ => (hl a).2) h.fwd
  bwd := IsChain.congr (fun a _ => (hl a).1) h.bwd
  nodup := h.nodup
  bound := fun a ha => by rw [hlen]; exact h.bound a ha

theorem LruOK.lru_next_eq {mem : List ngx_uri_entry} {ll : ngx_lru_link_list} {l1 l2 : List Nat}
    {a : Nat} (h : LruOK mem ll (l1 ++ a :: l2)) : (rd mem a).lru_next = l2.head? :=
  h.fwd.next_eq

theorem LruOK.prev_eq {mem : List ngx_uri_entry} {ll : ngx_lru_link_list} {l1 l2 : List Nat}
    {a : Nat} (h : LruOK mem ll (l1 ++ a :: l2)) : (rd mem a).lru_prev = l1.getLast? := by
  have hb := h.bwd
  have hr : (l1 ++ a :: l2).reverse = l2.reverse ++ a :: l1.reverse := by simp
  rw [hr] at hb
  have := hb.next_eq
  simpa [List.head?_reverse] using this

theorem LruOK.lru_head_eq {mem : List ngx_uri_entry} {ll : ngx_lru_link_list} {L : List Nat}
    (h : LruOK mem ll L) : ll.head = L.head? := h.fwd.head_eq

theorem LruOK.tail_eq {mem : List ngx_uri_entry} {ll : ngx_lru_link_list} {L : List Nat}
    (h : LruOK mem ll L) : ll.tail = L.getLast? := by
  have := h.bwd.head_eq
  simpa [List.head?_reverse] using this

/-- In a well-formed list `b.next == a` exactly when `a.prev == b`. -/
theorem LruOK.next_iff_prev {mem : List ngx_uri_entry} {ll : ngx_lru_link_list}
    {l1 l2 : List Nat} {a : Nat} (h : LruOK mem ll (l1 ++ a :: l2)) {b : Nat}
    (hb : b ∈ l1 ++ a :: l2) :
    (rd mem b).lru_next = some a ↔ (rd mem a).lru_prev = some b := by
  rw [h.prev_eq]
  exact h.fwd.pred_iff h.nodup hb

theorem LruOK.prev_iff_next {mem : List ngx_uri_entry} {ll : ngx_lru_link_list}
    {l1 l2 : List Nat} {a : Nat} (h : LruOK mem ll (l1 ++ a :: l2)) {b : Nat}
    (hb : b ∈ l1 ++ a :: l2) :
    (rd mem b).lru_prev = some a ↔ (rd mem a).lru_next = some b := by
  rw [h.lru_next_eq]
  have hbw := h.bwd
  have hr : (l1 ++ a :: l2).reverse = l2.reverse ++ a :: l1.reverse := by simp
  rw [hr] at hbw
  have hn : (l2.reverse ++ a :: l1.reverse).Nodup := by
    rw [← hr]; exact List.nodup_reverse.2 h.nodup
  have hb2 : b ∈ l2.reverse ++ a :: l1.reverse := by
    rw [← hr]; exact List.mem_reverse.2 hb
  have := hbw.pred_iff hn hb2
  simpa [List.getLast?_reverse] using this

theorem lru_unlink_frame (s : ngx_uri_table) (a : Nat) :
    EqData s.mem (lru_unlink s a).mem ∧ EqNext s.mem (lru_unlink s a).mem := by
  unfold lru_unlink EqData EqNext
  dsimp only
  split <;> split <;> simp

theorem lru_unlink_spec {s : ngx_uri_table} {l1 l2 : List Nat} {a : Nat}
    (h : LruOK s.mem s.lru_list (l1 ++ a :: l2)) :
    LruOK (lru_unlink s a).mem (lru_unlink s a).lru_list (l1 ++ l2) ∧
      EqData s.mem (lru_unlink s a).mem ∧ EqNext s.mem (lru_unlink s a).mem ∧
      (lru_unlink s a).hash_table = s.hash_table ∧
      (lru_unlink s a).lru_list_entries = s.lru_list_entries ∧
      (lru_unlink s a).lru_list_max_entries = s.lru_list_max_entries := by
  have hnd := h.nodup
  have ha1 : a ∉ l1 := fun hx => (List.nodup_append.1 hnd).2.2 hx (List.mem_cons_self _ _)
  have ha2 : a ∉ l2 := fun hx => (List.nodup_cons.1 (List.nodup_append.1 hnd).2.1).1 hx
  have hnea : ∀ b ∈ l1 ++ l2, b ≠ a := by
    intro b hb e; subst e
    rcases List.mem_append.1 hb with h1 | h1
    · exact ha1 h1
    · exact ha2 h1
  have hmemL : ∀ b ∈ l1 ++ l2, b ∈ l1 ++ a :: l2 := by
    intro b hb
    rcases List.mem_append.1 hb with h1 | h1
    · exact List.mem_append_left _ h1
    · exact List.mem_append_right _ (List.mem_cons_of_mem _ h1)
  have hblt : ∀ b ∈ l1 ++ l2, b < s.mem.length := fun b hb => h.bound b (hmemL b hb)
  -- the links after the five statements
  have hnext : ∀ b ∈ l1 ++ l2, (rd (lru_unlink s a).mem b).lru_next =
      if (rd s.mem b).lru_next = some a then (rd s.mem a).lru_next else (rd s.mem b).lru_next := by
    intro b hb
    have hba := hnea b hb
    have hbl := hblt b hb
    rw [if_congr (h.next_iff_prev (hmemL b hb)) rfl rfl]
    unfold lru_unlink
    simp only [lru_next_set_lru_next, lru_next_set_lru_prev, length_set_lru_prev,
      length_set_lru_next]
    rcases hn : (rd s.mem a).lru_next with _ | n <;> rcases hp : (rd s.mem a).lru_prev with _ | p
    · simp [hn, hp, Ne.symm hba]
    · by_cases hpb : p = b
      · subst hpb; simp [hn, hp, Ne.symm hba, hbl, lru_next_set_lru_next]
      · simp [hn, hp, Ne.symm hba, hpb, lru_next_set_lru_next]
    · have hna : n ≠ a := by
        intro e; subst e
        have := h.lru_next_eq; rw [hn] at this
        cases l2 with
        | nil => simp at this
        | cons c l2 => simp at this; subst this; simp at ha2
      simp [hn, hp, Ne.symm hba, lru_prev_set_lru_prev, hna]
    · have hna : n ≠ a := by
        intro e; subst e
        have := h.lru_next_eq; rw [hn] at this
        cases l2 with
        | nil => simp at this
        | cons c l2 => simp at this; subst this; simp at ha2
      by_cases hpb : p = b
      · subst hpb
        simp [hn, hp, Ne.symm hba, hbl, lru_next_set_lru_next, lru_prev_set_lru_prev, hna]
      · simp [hn, hp, Ne.symm hba, hpb, lru_next_set_lru_next, lru_prev_set_lru_prev, hna]
  have hprev : ∀ b ∈ l1 ++ l2, (rd (lru_unlink s a).mem b).lru_prev =
      if (rd s.mem b).lru_prev = some a then (rd s.mem a).lru_prev else (rd s.mem b).lru_prev := by
    intro b hb
    have hba := hnea b hb
    have hbl := hblt b hb
    rw [if_congr (h.prev_iff_next (hmemL b hb)) rfl rfl]
    unfold lru_unlink
    simp only [lru_prev_set_lru_next, lru_prev_set_lru_prev, length_set_lru_prev,
      length_set_lru_next]
    rcases hn : (rd s.mem a).lru_next with _ | n <;> rcases hp : (rd s.mem a).lru_prev with _ | p
    · simp [hn, hp, Ne.symm hba]
    · simp [hn, hp, Ne.symm hba, lru_prev_set_lru_next]
    · by_cases hnb : n = b
      · subst hnb; simp [hn, hp, Ne.symm hba, hbl, lru_prev_set_lru_prev]
      · simp [hn, hp, Ne.symm hba, hnb, lru_prev_set_lru_prev]
    · by_cases hnb : n = b
      · subst hnb
        simp [hn, hp, Ne.symm hba, hbl, lru_prev_set_lru_next, lru_prev_set_lru_prev]
      · simp [hn, hp, Ne.symm hba, hnb, lru_prev_set_lru_next, lru_prev_set_lru_prev]
  have hna : ∀ n, (rd s.mem a).lru_next = some n → n ≠ a := by
    intro n hn e; subst e
    have := h.lru_next_eq; rw [hn] at this
    exact ha2 (List.mem_of_mem_head? this.symm)
  have hpa : ∀ p, (rd s.mem a).lru_prev = some p → p ≠ a := by
    intro p hp e; subst e
    have := h.prev_eq; rw [hp] at this
    exact ha1 (List.mem_of_getLast?_eq_some this.symm)
  have hll : (lru_unlink s a).lru_list =
      ⟨if s.lru_list.head = some a then (rd s.mem a).lru_next else s.lru_list.head,
        if s.lru_list.tail = some a then (rd s.mem a).lru_prev else s.lru_list.tail⟩ := by
    unfold lru_unlink
    rcases hn : (rd s.mem a).lru_next with _ | n <;> rcases hp : (rd s.mem a).lru_prev with _ | p
    · simp [hn, hp, eq_comm]
    · simp [hn, hp, eq_comm, lru_next_set_lru_next, hpa p hp]
    · simp [hn, hp, eq_comm, lru_prev_set_lru_prev, hna n hn]
    · simp [hn, hp, eq_comm, lru_prev_set_lru_prev, lru_next_set_lru_next, hna n hn, hpa p hp]
  refine ⟨⟨?_, ?_, ?_, ?_⟩, ?_, ?_, rfl, rfl, rfl⟩
  · rw [hll]
    exact IsChain.unlink h.fwd hnd hnext
  · rw [hll]
    have hr : (l1 ++ a :: l2).reverse = l2.reverse ++ a :: l1.reverse := by simp
    have hb := h.bwd
    rw [hr] at hb
    have hn2 : (l2.reverse ++ a :: l1.reverse).Nodup := by
      rw [← hr]; exact List.nodup_reverse.2 hnd
    have := IsChain.unlink (g := fun b => (rd (lru_unlink s a).mem b).lru_prev) hb hn2 (by
      intro b hb2
      apply hprev
      simp only [List.mem_append, List.mem_reverse] at hb2 ⊢
      tauto)
    simpa using this
  · have := List.nodup_append.1 hnd
    refine List.nodup_append.2 ⟨this.1, (List.nodup_cons.1 this.2.1).2, ?_⟩
    intro b hb1 hb2
    exact this.2.2 hb1 (List.mem_cons_of_mem _ hb2)
  · intro b hb
    rw [(lru_unlink_frame s a).1.1]; exact hblt b hb
  · exact (lru_unlink_frame s a).1
  · exact (lru_unlink_frame s a).2

theorem lru_add_frame (s : ngx_uri_table) (n : Nat) :
    EqData s.mem (ngx_uri_table_lru_list_add s n).mem ∧
      EqNext s.mem (ngx_uri_table_lru_list_add s n).mem := by
  unfold ngx_uri_table_lru_list_add EqData EqNext
  dsimp only
  split <;> simp

theorem lru_add_spec {s : ngx_uri_table} {L : List Nat} (h : LruOK s.mem s.lru_list L)
    (n : Nat) (hn : n < s.mem.length) (hnl : n ∉ L) :
    LruOK (ngx_uri_table_lru_list_add s n).mem (ngx_uri_table_lru_list_add s n).lru_list
      (n :: L) := by
  have hne : ∀ b ∈ L, b ≠ n := fun b hb e => hnl (e ▸ hb)
  have hhead := h.lru_head_eq
  have hll : (ngx_uri_table_lru_list_add s n).lru_list =
      ⟨some n, if s.lru_list.tail = none then some n else s.lru_list.tail⟩ := by
    unfold ngx_uri_table_lru_list_add
    rcases ht : s.lru_list.tail with _ | t <;> simp [ht]
  have hnext : ∀ b, b ≠ n → (rd (ngx_uri_table_lru_list_add s n).mem b).lru_next =
      (rd s.mem b).lru_next := by
    intro b hb
    unfold ngx_uri_table_lru_list_add
    dsimp only
    split <;> simp [lru_next_set_lru_next, Ne.symm hb]
  have hnext_n : (rd (ngx_uri_table_lru_list_add s n).mem n).lru_next = s.lru_list.head := by
    unfold ngx_uri_table_lru_list_add
    dsimp only
    split <;> simp [lru_next_set_lru_next, hn]
  have hprev_n : (rd (ngx_uri_table_lru_list_add s n).mem n).lru_prev = none := by
    unfold ngx_uri_table_lru_list_add
    dsimp only
    split
    · rename_i hd hh
      have : hd ≠ n := by
        intro e; subst e
        rw [hh] at hhead
        exact hnl (List.mem_of_mem_head? hhead.symm)
      simp [lru_prev_set_lru_prev, this, hn]
    · simp [lru_prev_set_lru_prev, hn]
  have hprev : ∀ b ∈ L, (rd (ngx_uri_table_lru_list_add s n).mem b).lru_prev =
      if (rd s.mem b).lru_prev = none then some n else (rd s.mem b).lru_prev := by
    intro b hb
    have hbn := hne b hb
    have hbl := h.bound b hb
    obtain ⟨m1, m2, rfl⟩ := List.append_of_mem hb
    have hpb := h.prev_eq
    have hiff : (rd s.mem b).lru_prev = none ↔ s.lru_list.head = some b := by
      rw [hpb, hhead]
      cases m1 with
      | nil => simp
      | cons c m1 =>
        have hcb : c ≠ b := by
          intro e; subst e
          have := h.nodup
          simp at this
        simp [hcb]
    rw [if_congr hiff rfl rfl]
    unfold ngx_uri_table_lru_list_add
    dsimp only
    split
    · rename_i hd hh
      by_cases hdb : hd = b
      · subst hdb
        simp [lru_prev_set_lru_prev, hbl, hh]
      · have : ¬ (some hd = some b) := fun e => hdb (Option.some.inj e)
        simp [lru_prev_set_lru_prev, hdb, Ne.symm hbn, hh]
    · rename_i hh
      simp [lru_prev_set_lru_prev, Ne.symm hbn, hh]
  refine ⟨?_, ?_, ?_, ?_⟩
  · rw [hll]
    refine ⟨rfl, ?_⟩
    simp only
    rw [hnext_n]
    exact IsChain.congr (fun b hb => hnext b (hne b hb)) h.fwd
  · rw [hll]
    have := IsChain.snoc (g := fun b => (rd (ngx_uri_table_lru_list_add s n).mem b).lru_prev)
      (n := n) h.bwd hprev_n (fun b hb => hprev b (List.mem_reverse.1 hb))
    simpa using this
  · exact List.nodup_cons.2 ⟨hnl, h.nodup⟩
  · intro b hb
    rw [(lru_add_frame s n).1.1]
    rcases List.mem_cons.1 hb with rfl | hb
    · exact hn
    · exact h.bound b hb

/-! ## The tracker invariant -/

theorem purge_loop_none (P : Platform) (force : Bool) (fuel : Nat) (t : ngx_uri_table) :
    purge_loop P force fuel t none = some t := by
  cases fuel <;> rfl

/-- One round of the purge loop on a well-formed tracker removes the tail entry
from the LRU list and from the hash index and continues with the entry in front
of it. -/
theorem purge_round {P : Platform} {t : ngx_uri_table} {L1 : List Nat} {m : Nat}
    (h : Repr P t (L1 ++ [m])) :
    (rd t.mem m).lru_prev = L1.getLast? ∧
    ∃ t2, (∃ c, ngx_uri_table_lookup P (lru_unlink t m) (rd (lru_unlink t m).mem m).uri
          = some (some c) ∧ ngx_uri_table_delete P (lru_unlink t m) c = some t2) ∧
      Repr P t2 L1 ∧ EqData t.mem t2.mem ∧
      t2.lru_list_entries = t.lru_list_entries ∧
      t2.lru_list_max_entries = t.lru_list_max_entries := by
  obtain ⟨ht, C, hht, hH⟩ := h.hash
  have hl := h.lru
  have hprev : (rd t.mem m).lru_prev = L1.getLast? := hl.prev_eq
  obtain ⟨hl1, hd1, hn1, hht1, he1, hm1⟩ := lru_unlink_spec hl
  simp only [List.append_nil] at hl1
  have hH1 : HashOK P (lru_unlink t m).mem ht (fun a => a ∈ L1 ++ [m]) C := hH.frame hd1 hn1
  have hht1' : (lru_unlink t m).hash_table = some ht := hht1.trans hht
  obtain ⟨r, hr, hr1, hr2⟩ := lookup_spec hH1 hht1' (rd (lru_unlink t m).mem m).uri
  have hm : m ∈ L1 ++ [m] := by simp
  have hrm : r = some m := by
    cases r with
    | none => exact absurd rfl (hr2 rfl m hm)
    | some c =>
      obtain ⟨hc1, hc2⟩ := hr1 c rfl
      rw [hH1.uniq c m hc1 hm hc2]
  subst hrm
  obtain ⟨s2, ht2, C2, hdel, hht2, _, hH2, hll2, he2, hm2, hd2, hlr2⟩ :=
    delete_spec hH1 hht1' m hm
  have hnd := hl.nodup
  have hmL1 : m ∉ L1 := fun hx => by
    have := List.nodup_append.1 hnd
    exact this.2.2 hx (by simp)
  refine ⟨hprev, s2, ⟨m, hr, hdel⟩, ⟨⟨ht2, C2, hht2, ?_⟩, ?_⟩, hd1.trans_data hd2, ?_, ?_⟩
  · refine hH2.live_congr (fun a => ?_)
    simp only [List.mem_append, List.mem_singleton]
    constructor
    · intro ha; exact ⟨Or.inl ha, fun e => hmL1 (e ▸ ha)⟩
    · rintro ⟨h1 | h1, h2⟩
      · exact h1
      · exact absurd h1 h2
  · rw [hll2]
    exact hl1.frame_lru hd2.1 hlr2
  · rw [he2, he1]
  · rw [hm2, hm1]

/-- When the loop condition does not stop it, the purge loop empties the tracker. -/
theorem purge_loop_all {P : Platform} (force : Bool) :
    ∀ (fuel : Nat) (L : List Nat) (t : ngx_uri_table), Repr P t L → L.length ≤ fuel →
      (force = true ∨ t.lru_list_max_entries ≤ t.lru_list_entries) →
      ∃ t2, purge_loop P force fuel t L.getLast? = some t2 ∧ Repr P t2 [] ∧
        EqData t.mem t2.mem ∧ t2.lru_list_entries = t.lru_list_entries ∧
        t2.lru_list_max_entries = t.lru_list_max_entries := by
  intro fuel
  induction fuel with
  | zero =>
    intro L t h hf _
    have : L = [] := List.length_eq_zero.1 (Nat.le_zero.1 hf)
    subst this
    exact ⟨t, by simp [purge_loop_none], h, EqData_refl _, rfl, rfl⟩
  | succ fuel ih =>
    intro L t h hf hc
    rcases List.eq_nil_or_concat L with h0 | ⟨L1, m, hL⟩
    · subst h0
      exact ⟨t, by simp [purge_loop_none], h, EqData_refl _, rfl, rfl⟩
    · have hL' : L = L1 ++ [m] := by simp [hL]
      subst hL'
      obtain ⟨hprev, t2, ⟨c, hlk, hdel⟩, hR2, hd2, he2, hm2⟩ := purge_round h
      have hcond : (!force && decide (t.lru_list_entries < t.lru_list_max_entries)) = false := by
        rcases hc with hc | hc
        · simp [hc]
        · simp [Nat.not_lt.2 hc]
      obtain ⟨t3, h3, hR3, hd3, he3, hm3⟩ := ih L1 t2 hR2 (by simpa using hf)
        (by rw [he2, hm2]; exact hc)
      refine ⟨t3, ?_, hR3, hd2.trans_data hd3, he3.trans he2, hm3.trans hm2⟩
      have hlast : (L1 ++ [m]).getLast? = some m := by simp
      rw [hlast]
      simp only [purge_loop, hcond, hlk, hdel, hprev]
      simpa using h3

theorem Repr.list_length_le {P : Platform} {s : ngx_uri_table} {L : List Nat} (h : Repr P s L) :
    L.length ≤ s.mem.length :=
  h.lru.fwd.length_le h.lru.nodup h.lru.bound

/-- The capacity purge: nothing happens below capacity, and at or above capacity
the whole list is evicted (the loop never decrements `lru_list_entries`). -/
theorem purge_spec {P : Platform} {s : ngx_uri_table} {L : List Nat} (h : Repr P s L) :
    ∃ s2, ngx_uri_table_lru_list_purge P s false = some s2 ∧
      Repr P s2 (if s.lru_list_entries < s.lru_list_max_entries then L else []) ∧
      EqData s.mem s2.mem ∧ s2.lru_list_entries = s.lru_list_entries ∧
      s2.lru_list_max_entries = s.lru_list_max_entries := by
  unfold ngx_uri_table_lru_list_purge
  rw [h.lru.tail_eq]
  by_cases hc : s.lru_list_entries < s.lru_list_max_entries
  · refine ⟨s, ?_, by simpa [hc] using h, EqData_refl _, rfl, rfl⟩
    rcases hL : L.getLast? with _ | m
    · exact purge_loop_none _ _ _ _
    · have hlen : 0 < s.mem.length := by
        have h1 := h.list_length_le
        have h2 : L ≠ [] := by intro e; subst e; simp at hL
        have := List.length_pos.2 h2
        omega
      obtain ⟨f, hf⟩ : ∃ f, s.mem.length = f + 1 := ⟨s.mem.length - 1, by omega⟩
      rw [hf]
      simp [purge_loop, hc]
  · simp only [hc, if_false]
    exact purge_loop_all false _ L s h h.list_length_le (Or.inr (Nat.not_lt.1 hc))

theorem HashOK.frame_on {P : Platform} {mem mem2 : List ngx_uri_entry}
    {ht : ngx_uri_hash_table} {live : Nat → Prop} {C : Nat → List Nat}
    (h : HashOK P mem ht live C) (hlen : mem.length ≤ mem2.length)
    (hu : ∀ b, live b → (rd mem2 b).uri = (rd mem b).uri)
    (hn : ∀ b, live b → (rd mem2 b).next = (rd mem b).next) : HashOK P mem2 ht live C where
  size_pos := h.size_pos
  len := h.len
  chain := fun v hv =>
    IsChain.congr (fun a ha => hn a ((h.mem_iff v a).1 ha).1) (h.chain v hv)
  nodup := h.nodup
  mem_iff := fun v a => by
    constructor
    · intro ha
      have := (h.mem_iff v a).1 ha
      exact ⟨this.1, by rw [hu a this.1]; exact this.2⟩
    · rintro ⟨h1, h2⟩
      rw [hu a h1] at h2
      exact (h.mem_iff v a).2 ⟨h1, h2⟩
  bound := fun a ha => Nat.lt_of_lt_of_le (h.bound a ha) hlen
  uniq := fun a b ha hb he => by
    rw [hu a ha, hu b hb] at he; exact h.uniq a b ha hb he

theorem LruOK.frame_on_lru {mem mem2 : List ngx_uri_entry} {ll : ngx_lru_link_list} {L : List Nat}
    (h : LruOK mem ll L) (hlen : mem.length ≤ mem2.length)
    (hl : ∀ b ∈ L, (rd mem2 b).lru_prev = (rd mem b).lru_prev ∧
      (rd mem2 b).lru_next = (rd mem b).lru_next) : LruOK mem2 ll L where
  fwd := IsChain.congr (fun a ha => (hl a ha).2) h.fwd
  bwd := IsChain.congr (fun a ha => (hl a (List.mem_reverse.1 ha)).1) h.bwd
  nodup := h.nodup
  bound := fun a ha => Nat.lt_of_lt_of_le (h.bound a ha) hlen

/-- What a successful `ngx_uri_table_add` does to a well-formed tracker, in terms
of the LRU list: a hit moves the entry to the head and bumps its count, a miss
puts a fresh entry with count 1 in front of what the purge left. -/
theorem add_spec {P : Platform} {s : ngx_uri_table} {L : List Nat} (h : Repr P s L)
    (uri : List Nat) (hv : ¬ (uri.length = 0 ∨ uri.length > 256)) :
    ∃ s2 L2, ngx_uri_table_add P s uri = some (true, s2) ∧ Repr P s2 L2 ∧
      s2.lru_list_max_entries = s.lru_list_max_entries ∧
      ((∃ l1 a l2, L = l1 ++ a :: l2 ∧ cstr (rd s.mem a).uri = cstr (ngx_strlow uri) ∧
          L2 = a :: (l1 ++ l2) ∧
          (rd s2.mem a).uri = (rd s.mem a).uri ∧
          (rd s2.mem a).count = (rd s.mem a).count + 1 ∧
          (∀ b, b ≠ a → (rd s2.mem b).uri = (rd s.mem b).uri ∧
            (rd s2.mem b).count = (rd s.mem b).count) ∧
          s2.lru_list_entries = s.lru_list_entries - 1 + 1) ∨
       ((∀ a ∈ L, cstr (rd s.mem a).uri ≠ cstr (ngx_strlow uri)) ∧
          ∃ n, n ∉ L ∧
          L2 = n :: (if s.lru_list_entries < s.lru_list_max_entries then L else []) ∧
          (rd s2.mem n).uri = ngx_strlow uri ∧ (rd s2.mem n).count = 1 ∧
          (∀ b ∈ L, (rd s2.mem b).uri = (rd s.mem b).uri ∧
            (rd s2.mem b).count = (rd s.mem b).count) ∧
          s2.lru_list_entries = s.lru_list_entries + 1)) := by
  obtain ⟨ht, C, hht, hH⟩ := h.hash
  have hl := h.lru
  obtain ⟨r, hr, hr1, hr2⟩ := lookup_spec hH hht (ngx_strlow uri)
  cases r with
  | some a =>
    -- hit
    obtain ⟨haL, hau⟩ := hr1 a rfl
    obtain ⟨l1, l2, hL⟩ := List.append_of_mem haL
    subst hL
    have hab : a < s.mem.length := hl.bound a haL
    set t : ngx_uri_table :=
      { s with mem := set_count s.mem a ((rd s.mem a).count + 1) } with ht_def
    have hlt : LruOK t.mem t.lru_list (l1 ++ a :: l2) :=
      hl.frame_on_lru (by simp [ht_def]) (fun b _ => by simp [ht_def])
    obtain ⟨hl1, hd1, hn1, hht1, he1, hm1⟩ := lru_unlink_spec hlt
    have hnd := hl.nodup
    have ha12 : a ∉ l1 ++ l2 := by
      intro hx
      have := List.nodup_append.1 hnd
      rcases List.mem_append.1 hx with h1 | h1
      · exact this.2.2 h1 (List.mem_cons_self _ _)
      · exact (List.nodup_cons.1 this.2.1).1 h1
    set t1 : ngx_uri_table := ngx_uri_table_lru_list_delete t a with ht1_def
    have ht1mem : t1.mem = (lru_unlink t a).mem := rfl
    have ht1ll : t1.lru_list = (lru_unlink t a).lru_list := rfl
    have hl1' : LruOK t1.mem t1.lru_list (l1 ++ l2) := by rw [ht1mem, ht1ll]; exact hl1
    have hab1 : a < t1.mem.length := by rw [ht1mem, hd1.1]; simpa [ht_def] using hab
    have hl2 := lru_add_spec hl1' a hab1 ha12
    obtain ⟨hd2, hn2⟩ := lru_add_frame t1 a
    refine ⟨ngx_uri_table_update t a, a :: (l1 ++ l2), ?_, ⟨⟨ht, C, ?_, ?_⟩, hl2⟩, rfl,
      Or.inl ⟨l1, a, l2, rfl, hau, rfl, ?_, ?_, ?_, ?_⟩⟩
    · unfold ngx_uri_table_add
      simp only [hv, if_false, hr]
    · exact hht
    · have : HashOK P (ngx_uri_table_update t a).mem ht (fun b => b ∈ l1 ++ a :: l2) C := by
        refine hH.frame_on ?_ ?_ ?_
        · show s.mem.length ≤ (ngx_uri_table_lru_list_add t1 a).mem.length
          rw [hd2.1, ht1mem, hd1.1]; simp [ht_def]
        · intro b _
          show (rd (ngx_uri_table_lru_list_add t1 a).mem b).uri = _
          rw [(hd2.2 b).1, ht1mem, (hd1.2 b).1]; simp [ht_def]
        · intro b _
          show (rd (ngx_uri_table_lru_list_add t1 a).mem b).next = _
          rw [hn2 b, ht1mem, hn1 b]; simp [ht_def]
      refine this.live_congr (fun b => ?_)
      simp only [List.mem_cons, List.mem_append]
      tauto
    · show (rd (ngx_uri_table_lru_list_add t1 a).mem a).uri = _
      rw [(hd2.2 a).1, ht1mem, (hd1.2 a).1]; simp [ht_def]
    · show (rd (ngx_uri_table_lru_list_add t1 a).mem a).count = _
      rw [(hd2.2 a).2, ht1mem, (hd1.2 a).2]; simp [ht_def, count_set_count, hab]
    · intro b hb
      constructor
      · show (rd (ngx_uri_table_lru_list_add t1 a).mem b).uri = _
        rw [(hd2.2 b).1, ht1mem, (hd1.2 b).1]; simp [ht_def]
      · show (rd (ngx_uri_table_lru_list_add t1 a).mem b).count = _
        rw [(hd2.2 b).2, ht1mem, (hd1.2 b).2]; simp [ht_def, count_set_count, Ne.symm hb]
    · rfl
  | none =>
    -- miss
    have hmiss : ∀ a ∈ L, cstr (rd s.mem a).uri ≠ cstr (ngx_strlow uri) := hr2 rfl
    obtain ⟨s2, hp, hR2, hd2, he2, hm2⟩ := purge_spec h
    set L2 := (if s.lru_list_entries < s.lru_list_max_entries then L else []) with hL2
    have hsub : ∀ a ∈ L2, a ∈ L := by
      intro a ha
      rw [hL2] at ha
      split at ha
      · exact ha
      · simp at ha
    obtain ⟨ht2, C2, hht2, hH2⟩ := hR2.hash
    set e : ngx_uri_entry := ⟨ngx_strlow uri, none, 1, none, none⟩ with he_def
    set n := s2.mem.length with hn_def
    set t1 : ngx_uri_table := { s2 with mem := s2.mem ++ [e] } with ht1_def
    have hrd1 : ∀ b, b < s2.mem.length → rd t1.mem b = rd s2.mem b :=
      fun b hb => rd_append_lt _ _ _ hb
    have hrdn : rd t1.mem n = e := rd_append_new _ _
    have hnL2 : n ∉ L2 := fun hx => Nat.lt_irrefl _ (hR2.lru.bound n hx)
    have hH1 : HashOK P t1.mem ht2 (fun a => a ∈ L2) C2 :=
      hH2.frame_on (by simp [ht1_def]) (fun b hb => by rw [hrd1 b (hR2.lru.bound b hb)])
        (fun b hb => by rw [hrd1 b (hR2.lru.bound b hb)])
    have hl1 : LruOK t1.mem t1.lru_list L2 :=
      hR2.lru.frame_on_lru (by simp [ht1_def])
        (fun b hb => by rw [hrd1 b (hR2.lru.bound b hb)]; exact ⟨rfl, rfl⟩)
    have hn1 : n < t1.mem.length := by simp [ht1_def, hn_def]
    obtain ⟨t2, ht3, C3, hj, hht3, _, hH3, hll3, he3, hm3, hd3, hlr3⟩ :=
      join_spec hH1 (show t1.hash_table = some ht2 from hht2) n hn1 hnL2 (by
        intro a ha
        rw [hrdn, hrd1 a (hR2.lru.bound a ha), (hd2.2 a).1]
        exact hmiss a (hsub a ha))
    have hl3 : LruOK t2.mem t2.lru_list L2 := by
      rw [hll3]; exact hl1.frame_lru hd3.1 hlr3
    have hn3 : n < t2.mem.length := by rw [hd3.1]; exact hn1
    have hl4 := lru_add_spec hl3 n hn3 hnL2
    obtain ⟨hd4, hn4⟩ := lru_add_frame t2 n
    have hnL : n ∉ L := fun hx => by
      have := h.lru.bound n hx
      rw [← hd2.1] at this
      exact Nat.lt_irrefl _ this
    refine ⟨ngx_uri_table_lru_list_add t2 n, n :: L2, ?_, ⟨⟨ht3, C3, ?_, ?_⟩, hl4⟩, ?_,
      Or.inr ⟨hmiss, n, hnL, rfl, ?_, ?_, ?_, ?_⟩⟩
    · unfold ngx_uri_table_add
      simp only [hv, if_false, hr, hp]
      simp only [← he_def, ← ht1_def, ← hn_def, hj]
    · exact hht3
    · have : HashOK P (ngx_uri_table_lru_list_add t2 n).mem ht3 (fun a => a = n ∨ a ∈ L2) C3 :=
        hH3.frame hd4 hn4
      exact this.live_congr (fun b => by simp [List.mem_cons])
    · show t2.lru_list_max_entries = _
      rw [hm3]; exact hm2
    · rw [(hd4.2 n).1, (hd3.2 n).1, hrdn]
    · rw [(hd4.2 n).2, (hd3.2 n).2, hrdn]
    · intro b hb
      have hb2 : b < s2.mem.length := by rw [hd2.1]; exact h.lru.bound b hb
      rw [(hd4.2 b).1, (hd3.2 b).1, (hd4.2 b).2, (hd3.2 b).2, hrd1 b hb2]
      exact hd2.2 b
    · show t2.lru_list_entries + 1 = _
      rw [he3]; show s2.lru_list_entries + 1 = _; rw [he2]

/-! ## Initial state and walks -/

theorem getD_replicate_none (n v : Nat) :
    (List.replicate n (none : Option Nat)).getD v none = none := by
  rw [List.getD_eq_getElem?_getD]
  by_cases h : v < n
  · simp [List.getElem?_replicate, h]
  · simp [List.getElem?_replicate, h]

theorem tracker_init_eq (footprint hash_size : Nat) :
    tracker_init footprint hash_size =
      { mem := [], hash_table := some { buckets := List.replicate hash_size none,
                                         size := hash_size },
        lru_list := ⟨none, none⟩, lru_list_entries := 0,
        lru_list_max_entries := 2 * 1024 * 1024 / footprint } := rfl

theorem Repr_init (P : Platform) (footprint : Nat) {hash_size : Nat} (h : 0 < hash_size) :
    Repr P (tracker_init footprint hash_size) [] := by
  rw [tracker_init_eq]
  refine ⟨⟨_, fun _ => [], rfl, ?_⟩, ?_⟩
  · refine ⟨h, by simp, ?_, fun _ => List.nodup_nil, ?_, ?_, ?_⟩
    · intro v _
      exact getD_replicate_none _ _
    · intro v a; simp
    · intro a ha; simp at ha
    · intro a b ha; simp at ha
  · exact ⟨rfl, rfl, List.nodup_nil, fun a ha => by simp at ha⟩

theorem mem_hash_primes_pos {n : Nat} (h : n ∈ hash_primes) : 0 < n := by
  simp [hash_primes] at h
  omega

theorem lru_walk_chain (mem : List ngx_uri_entry) :
    ∀ (l : List Nat) (fuel : Nat) (p : Option Nat),
      IsChain (fun a => (rd mem a).lru_next) p l → l.length ≤ fuel →
      lru_walk mem fuel p = some l := by
  intro l
  induction l with
  | nil =>
    intro fuel p h _
    have hp : p = none := h
    subst hp
    cases fuel <;> rfl
  | cons a l ih =>
    intro fuel p h hf
    have hp : p = some a := h.1
    subst hp
    cases fuel with
    | zero => simp at hf
    | succ f =>
      simp only [lru_walk]
      rw [ih f _ h.2 (by simpa using hf)]

theorem chain_walk_chain (mem : List ngx_uri_entry) :
    ∀ (l : List Nat) (fuel : Nat) (p : Option Nat),
      IsChain (fun a => (rd mem a).next) p l → l.length ≤ fuel →
      chain_walk mem fuel p = some l := by
  intro l
  induction l with
  | nil =>
    intro fuel p h _
    have hp : p = none := h
    subst hp
    cases fuel <;> rfl
  | cons a l ih =>
    intro fuel p h hf
    have hp : p = some a := h.1
    subst hp
    cases fuel with
    | zero => simp at hf
    | succ f =>
      simp only [chain_walk]
      rw [ih f _ h.2 (by simpa using hf)]

theorem Repr.lru_entries_eq {P : Platform} {s : ngx_uri_table} {L : List Nat}
    (h : Repr P s L) : lru_entries s = some L :=
  lru_walk_chain _ _ _ _ h.lru.fwd h.list_length_le

theorem Repr.lru_view_eq {P : Platform} {s : ngx_uri_table} {L : List Nat}
    (h : Repr P s L) : lru_view s = some (L.map (entry_view s.mem)) := by
  simp [lru_view, h.lru_entries_eq]

theorem add_invalid (P : Platform) (s : ngx_uri_table) (uri : List Nat)
    (h : uri.length = 0 ∨ uri.length > 256) : ngx_uri_table_add P s uri = some (false, s) := by
  unfold ngx_uri_table_add
  simp only [h, if_true]

/-! ## The tracker seen through its LRU list -/

theorem Tracks.view_eq {P : Platform} {s : ngx_uri_table} {V : List (List Nat × Nat)}
    (h : Tracks P s V) : lru_view s = some V := by
  obtain ⟨L, hR, hV⟩ := h
  rw [hR.lru_view_eq, hV]

theorem map_view_congr {mem mem2 : List ngx_uri_entry} {l : List Nat}
    (h : ∀ b ∈ l, (rd mem2 b).uri = (rd mem b).uri ∧ (rd mem2 b).count = (rd mem b).count) :
    l.map (entry_view mem2) = l.map (entry_view mem) := by
  apply List.map_congr_left
  intro b hb
  simp [entry_view, (h b hb).1, (h b hb).2]

theorem filter_key_of_ne {mem : List ngx_uri_entry} {l : List Nat} {key : List Nat}
    (h : ∀ b ∈ l, cstr (rd mem b).uri ≠ key) :
    (l.map (entry_view mem)).filter (fun e => e.1 != key) = l.map (entry_view mem) := by
  rw [List.filter_eq_self]
  intro e he
  obtain ⟨b, hb, rfl⟩ := List.mem_map.1 he
  simpa [entry_view] using h b hb

theorem find_key_of_ne {mem : List ngx_uri_entry} {l : List Nat} {key : List Nat}
    (h : ∀ b ∈ l, cstr (rd mem b).uri ≠ key) :
    (l.map (entry_view mem)).find? (fun e => e.1 == key) = none := by
  rw [List.find?_eq_none]
  intro e he
  obtain ⟨b, hb, rfl⟩ := List.mem_map.1 he
  simpa [entry_view] using h b hb

/-- An accepted `record` refines `abs_add`. -/
theorem add_tracks {P : Platform} {s : ngx_uri_table} {V : List (List Nat × Nat)}
    (h : Tracks P s V) (uri : List Nat) (hv : ¬ (uri.length = 0 ∨ uri.length > 256)) :
    ∃ s2, ngx_uri_table_add P s uri = some (true, s2) ∧
      Tracks P s2 (abs_add s.lru_list_max_entries (V, s.lru_list_entries)
        (cstr (ngx_strlow uri))).1 ∧
      s2.lru_list_entries = (abs_add s.lru_list_max_entries (V, s.lru_list_entries)
        (cstr (ngx_strlow uri))).2 ∧
      s2.lru_list_max_entries = s.lru_list_max_entries := by
  obtain ⟨L, hR, hV⟩ := h
  subst hV
  obtain ⟨s2, L2, hadd, hR2, hmax, hcase⟩ := add_spec hR uri hv
  refine ⟨s2, hadd, ?_, ?_, hmax⟩
  · refine ⟨L2, hR2, ?_⟩
    rcases hcase with ⟨l1, a, l2, hL, hau, hL2, hu, hc, hrest, _⟩ | ⟨hmiss, n, hn, hL2, hu, hc, hrest, _⟩
    · subst hL hL2
      have huniq := hR.hash
      obtain ⟨ht, C, _, hH⟩ := huniq
      have hnd := hR.lru.nodup
      have ha1 : a ∉ l1 := fun hx => (List.nodup_append.1 hnd).2.2 hx (List.mem_cons_self _ _)
      have ha2 : a ∉ l2 := fun hx => (List.nodup_cons.1 (List.nodup_append.1 hnd).2.1).1 hx
      have hne : ∀ b ∈ l1 ++ l2, cstr (rd s.mem b).uri ≠ cstr (ngx_strlow uri) := by
        intro b hb e
        have hbL : b ∈ l1 ++ a :: l2 := by
          simp only [List.mem_append, List.mem_cons] at hb ⊢; tauto
        have := hH.uniq b a hbL (by simp) (e.trans hau.symm)
        subst this
        simp only [List.mem_append] at hb
        tauto
      have hne1 : ∀ b ∈ l1, cstr (rd s.mem b).uri ≠ cstr (ngx_strlow uri) :=
        fun b hb => hne b (List.mem_append_left _ hb)
      have hne2 : ∀ b ∈ l2, cstr (rd s.mem b).uri ≠ cstr (ngx_strlow uri) :=
        fun b hb => hne b (List.mem_append_right _ hb)
      have hfind : ((l1 ++ a :: l2).map (entry_view s.mem)).find?
          (fun e => e.1 == cstr (ngx_strlow uri)) = some (entry_view s.mem a) := by
        rw [List.map_append, List.find?_append, find_key_of_ne hne1]
        simp [List.find?_cons, entry_view, hau]
      have hfilter : ((l1 ++ a :: l2).map (entry_view s.mem)).filter
          (fun e => e.1 != cstr (ngx_strlow uri)) = (l1 ++ l2).map (entry_view s.mem) := by
        rw [List.map_append, List.filter_append, filter_key_of_ne hne1, List.map_cons,
          List.filter_cons, filter_key_of_ne hne2]
        simp [entry_view, hau]
      simp only [abs_add, hfind, hfilter, List.map_cons]
      congr 1
      · simp [entry_view, hu, hc, hau]
      · apply map_view_congr
        intro b hb
        exact hrest b (fun e => by
          subst e
          simp only [List.mem_append] at hb
          tauto)
    · subst hL2
      simp only [abs_add, find_key_of_ne hmiss, List.map_cons]
      congr 1
      · simp [entry_view, hu, hc]
      · split
        · exact map_view_congr hrest
        · simp
  · rcases hcase with ⟨l1, a, l2, hL, hau, hL2, hu, hc, hrest, he⟩ | ⟨hmiss, n, hn, hL2, hu, hc, hrest, he⟩
    · subst hL
      obtain ⟨ht, C, _, hH⟩ := hR.hash
      have hnd := hR.lru.nodup
      have ha1 : a ∉ l1 := fun hx => (List.nodup_append.1 hnd).2.2 hx (List.mem_cons_self _ _)
      have hne1 : ∀ b ∈ l1, cstr (rd s.mem b).uri ≠ cstr (ngx_strlow uri) := by
        intro b hb e
        have := hH.uniq b a (List.mem_append_left _ hb) (by simp) (e.trans hau.symm)
        subst this
        exact ha1 hb
      have hfind : ((l1 ++ a :: l2).map (entry_view s.mem)).find?
          (fun e => e.1 == cstr (ngx_strlow uri)) = some (entry_view s.mem a) := by
        rw [List.map_append, List.find?_append, find_key_of_ne hne1]
        simp [List.find?_cons, entry_view, hau]
      simp only [abs_add, hfind, he]
    · simp only [abs_add, find_key_of_ne hmiss, he]

theorem Tracks_init (P : Platform) (footprint : Nat) {hash_size : Nat} (h : 0 < hash_size) :
    Tracks P (tracker_init footprint hash_size) [] :=
  ⟨[], Repr_init P footprint h, rfl⟩

/-- One `record` call on a well-formed tracker returns and refines `abs_record`. -/
theorem record_tracks {P : Platform} {s : ngx_uri_table} {V : List (List Nat × Nat)}
    (h : Tracks P s V) (uri : List Nat) :
    ∃ s2, ngx_uri_table_add P s uri =
        some (!decide (uri.length = 0 ∨ uri.length > 256), s2) ∧
      Tracks P s2 (abs_record s.lru_list_max_entries (V, s.lru_list_entries) uri).1 ∧
      s2.lru_list_entries = (abs_record s.lru_list_max_entries (V, s.lru_list_entries) uri).2 ∧
      s2.lru_list_max_entries = s.lru_list_max_entries ∧
      ((uri.length = 0 ∨ uri.length > 256) → s2 = s) := by
  by_cases hv : uri.length = 0 ∨ uri.length > 256
  · refine ⟨s, ?_, ?_, ?_, rfl, fun _ => rfl⟩
    · rw [add_invalid P s uri hv, decide_eq_true hv]; rfl
    · rw [abs_record, if_pos hv]; exact h
    · rw [abs_record, if_pos hv]
  · obtain ⟨s2, h1, h2, h3, h4⟩ := add_tracks h uri hv
    refine ⟨s2, ?_, ?_, ?_, h4, fun h => absurd h hv⟩
    · rw [h1, decide_eq_false hv]; rfl
    · rw [abs_record, if_neg hv]; exact h2
    · rw [abs_record, if_neg hv]; exact h3

/-- A sequence of `record` calls on a well-formed tracker runs to the end and
refines `abs_run`. -/
theorem record_all_tracks {P : Platform} :
    ∀ (uris : List (List Nat)) (s : ngx_uri_table) (V : List (List Nat × Nat)),
      Tracks P s V →
      ∃ s2, record_all P s uris = some s2 ∧
        Tracks P s2 (abs_run s.lru_list_max_entries (V, s.lru_list_entries) uris).1 ∧
        s2.lru_list_entries = (abs_run s.lru_list_max_entries (V, s.lru_list_entries) uris).2 ∧
        s2.lru_list_max_entries = s.lru_list_max_entries := by
  intro uris
  induction uris with
  | nil => intro s V h; exact ⟨s, rfl, h, rfl, rfl⟩
  | cons u rest ih =>
    intro s V h
    obtain ⟨s1, h1, h2, h3, h4, _⟩ := record_tracks h u
    obtain ⟨s2, g1, g2, g3, g4⟩ := ih s1 _ h2
    refine ⟨s2, ?_, ?_, ?_, g4.trans h4⟩
    · simp only [record_all, h1]; exact g1
    · rw [h4, h3] at g2
      simpa [abs_run] using g2
    · rw [h4, h3] at g3
      simpa [abs_run] using g3

/-- Runs from the initial tracker. -/
theorem run_init (P : Platform) (footprint : Nat) {hash_size : Nat} (h : 0 < hash_size)
    (uris : List (List Nat)) :
    ∃ s, record_all P (tracker_init footprint hash_size) uris = some s ∧
      Tracks P s (abs_run (2 * 1024 * 1024 / footprint) ([], 0) uris).1 ∧
      s.lru_list_entries = (abs_run (2 * 1024 * 1024 / footprint) ([], 0) uris).2 ∧
      s.lru_list_max_entries = 2 * 1024 * 1024 / footprint :=
  record_all_tracks uris _ _ (Tracks_init P footprint h)

theorem record_all_append (P : Platform) :
    ∀ (us vs : List (List Nat)) (s : ngx_uri_table),
      record_all P s (us ++ vs) = (record_all P s us).bind (fun t => record_all P t vs) := by
  intro us
  induction us with
  | nil => intro vs s; rfl
  | cons u us ih =>
    intro vs s
    simp only [List.cons_append, record_all]
    rcases ngx_uri_table_add P s u with _ | ⟨b, t⟩
    · rfl
    · exact ih vs t

theorem abs_run_append (M : Nat) (st : List (List Nat × Nat) × Nat) (us vs : List (List Nat)) :
    abs_run M st (us ++ vs) = abs_run M (abs_run M st us) vs := by
  simp [abs_run, List.foldl_append]

/-! ### Capacity -/

/-- Invariant of the abstract run: the list is never longer than the counter says
and never longer than a positive capacity. -/
theorem abs_record_len {M : Nat} (hM : 0 < M) (st : List (List Nat × Nat) × Nat)
    (u : List Nat) (h : st.1.length ≤ st.2 ∧ st.1.length ≤ M) :
    (abs_record M st u).1.length ≤ (abs_record M st u).2 ∧ (abs_record M st u).1.length ≤ M := by
  unfold abs_record
  split
  · exact h
  · unfold abs_add
    split
    · rename_i e he
      have hmem := List.mem_of_find?_eq_some he
      have hp := List.find?_some he
      have hlt : (st.1.filter (fun e => e.1 != cstr (ngx_strlow u))).length < st.1.length := by
        rw [List.length_filter_lt_length_iff_exists]
        exact ⟨e, hmem, by simpa using hp⟩
      simp only [List.length_cons]
      omega
    · simp only [List.length_cons]
      split
      · omega
      · simp; omega

theorem abs_run_len {M : Nat} (hM : 0 < M) (us : List (List Nat)) :
    ∀ st : List (List Nat × Nat) × Nat, st.1.length ≤ st.2 ∧ st.1.length ≤ M →
      (abs_run M st us).1.length ≤ (abs_run M st us).2 ∧ (abs_run M st us).1.length ≤ M := by
  induction us with
  | nil => intro st h; exact h
  | cons u us ih =>
    intro st h
    simp only [abs_run, List.foldl_cons]
    exact ih _ (abs_record_len hM st u h)

/-! ### Counts in the abstract run -/

theorem getc_cons (k2 : List Nat) (c : Nat) (V : List (List Nat × Nat)) (k : List Nat) :
    getc ((k2, c) :: V) k = if k2 = k then some c else getc V k := by
  unfold getc
  by_cases h : k2 = k
  · simp [List.find?_cons, h]
  · simp [List.find?_cons, h]

theorem getc_nil (k : List Nat) : getc [] k = none := rfl

theorem getc_filter_ne {k2 k : List Nat} (h : k2 ≠ k) (V : List (List Nat × Nat)) :
    getc (V.filter (fun e => e.1 != k2)) k = getc V k := by
  induction V with
  | nil => rfl
  | cons e V ih =>
    obtain ⟨k3, c⟩ := e
    by_cases h3 : k3 = k2
    · subst h3
      simp only [List.filter_cons, bne_self_eq_false, Bool.false_eq_true, if_false]
      rw [ih, getc_cons, if_neg h]
    · have : (k3 != k2) = true := by simpa using h3
      simp only [List.filter_cons, this, if_true]
      rw [getc_cons, getc_cons, ih]

theorem getc_eq_none_iff (V : List (List Nat × Nat)) (k : List Nat) :
    getc V k = none ↔ k ∉ V.map Prod.fst := by
  unfold getc
  simp only [Option.map_eq_none', List.find?_eq_none, List.mem_map, not_exists, not_and]
  constructor
  · intro h e he hk
    exact h e he (by simpa using hk)
  · intro h e he hk
    exact h e he (by simpa using hk)

theorem mem_of_getc {V : List (List Nat × Nat)} {k : List Nat} {c : Nat}
    (h : getc V k = some c) : (k, c) ∈ V := by
  unfold getc at h
  obtain ⟨e, he, hc⟩ := Option.map_eq_some'.1 h
  have h1 := List.find?_some he
  have h2 := List.mem_of_find?_eq_some he
  obtain ⟨k2, c2⟩ := e
  simp at h1 hc
  subst h1 hc
  exact h2

theorem getc_of_mem {V : List (List Nat × Nat)} (hn : (V.map Prod.fst).Nodup) {k : List Nat}
    {c : Nat} (h : (k, c) ∈ V) : getc V k = some c := by
  induction V with
  | nil => simp at h
  | cons e V ih =>
    obtain ⟨k2, c2⟩ := e
    rw [getc_cons]
    simp only [List.map_cons, List.nodup_cons] at hn
    rcases List.mem_cons.1 h with h1 | h1
    · simp at h1
      simp [h1.1, h1.2]
    · have : k2 ≠ k := by
        intro e; subst e
        exact hn.1 (List.mem_map.2 ⟨(k2, c), h1, rfl⟩)
      rw [if_neg this]
      exact ih hn.2 h1

/-- An accepted call for `k` leaves `k` with its old count plus one (one, if `k`
was absent). -/
theorem getc_abs_add_same (M : Nat) (st : List (List Nat × Nat) × Nat) (k : List Nat) :
    getc (abs_add M st k).1 k = some ((getc st.1 k).getD 0 + 1) := by
  unfold abs_add
  split
  · rename_i e he
    simp [getc_cons, getc, he]
  · rename_i he
    simp [getc_cons, getc, he]

/-- An accepted call for another URI leaves the count of `k` alone or evicts `k`. -/
theorem getc_abs_add_other (M : Nat) (st : List (List Nat × Nat) × Nat) {key k : List Nat}
    (h : key ≠ k) :
    getc (abs_add M st key).1 k = getc st.1 k ∨ getc (abs_add M st key).1 k = none := by
  unfold abs_add
  split
  · left
    simp only [getc_cons, if_neg h]
    exact getc_filter_ne h _
  · simp only [getc_cons, if_neg h]
    split
    · left; rfl
    · right; rfl

theorem hits_iff (k u : List Nat) :
    hits k u = true ↔ ¬ (u.length = 0 ∨ u.length > 256) ∧ cstr (ngx_strlow u) = k := by
  simp [hits]

theorem getc_abs_record_hit (M : Nat) (st : List (List Nat × Nat) × Nat) {k u : List Nat}
    (h : hits k u = true) :
    getc (abs_record M st u).1 k = some ((getc st.1 k).getD 0 + 1) := by
  obtain ⟨h1, h2⟩ := (hits_iff k u).1 h
  rw [abs_record, if_neg h1, h2]
  exact getc_abs_add_same M st k

theorem getc_abs_record_miss (M : Nat) (st : List (List Nat × Nat) × Nat) {k u : List Nat}
    (h : hits k u = false) :
    getc (abs_record M st u).1 k = getc st.1 k ∨ getc (abs_record M st u).1 k = none := by
  unfold abs_record
  split
  · left; rfl
  · rename_i hv
    have : cstr (ngx_strlow u) ≠ k := by
      intro e
      have := (hits_iff k u).2 ⟨hv, e⟩
      rw [h] at this
      exact Bool.false_ne_true this
    exact getc_abs_add_other M st this

theorem abs_run_snoc (M : Nat) (st : List (List Nat × Nat) × Nat) (us : List (List Nat))
    (u : List Nat) : abs_run M st (us ++ [u]) = abs_record M (abs_run M st us) u := by
  simp [abs_run, List.foldl_append]

/-- The count of a live URI is the number of accepted calls for it since the last
point of the run at which it was absent. -/
theorem abs_count_since_absent (M : Nat) (st0 : List (List Nat × Nat) × Nat) (k : List Nat)
    (h0 : getc st0.1 k = none) :
    ∀ (us : List (List Nat)) (c : Nat), getc (abs_run M st0 us).1 k = some c →
      ∃ pre suf, us = pre ++ suf ∧ getc (abs_run M st0 pre).1 k = none ∧
        (∀ i, i < suf.length → getc (abs_run M st0 (pre ++ suf.take (i + 1))).1 k ≠ none) ∧
        c = suf.countP (hits k) := by
  intro us
  induction us using List.reverseRecOn with
  | nil =>
    intro c hc
    simp only [abs_run, List.foldl_nil] at hc
    rw [h0] at hc
    exact absurd hc (by simp)
  | append_singleton us u ih =>
    intro c hc
    rw [abs_run_snoc] at hc
    rcases hprev : getc (abs_run M st0 us).1 k with _ | c2
    · -- absent before the last call: the run since the last absence is that call
      refine ⟨us, [u], rfl, hprev, ?_, ?_⟩
      · intro i hi
        have : i = 0 := by simpa using hi
        subst this
        have : ([u] : List (List Nat)).take (0 + 1) = [u] := rfl
        rw [this, abs_run_snoc, hc]
        simp
      · rcases hh : hits k u with _ | _
        · rcases getc_abs_record_miss M (abs_run M st0 us) hh with h1 | h1
          · rw [h1, hprev] at hc; exact absurd hc (by simp)
          · rw [h1] at hc; exact absurd hc (by simp)
        · have := getc_abs_record_hit M (abs_run M st0 us) hh
          rw [hc, hprev] at this
          simp at this
          simp [List.countP_cons, hh, this]
    · obtain ⟨pre, suf, hus, hpre, hlive, hcount⟩ := ih c2 hprev
      subst hus
      refine ⟨pre, suf ++ [u], by simp, hpre, ?_, ?_⟩
      · intro i hi
        by_cases hlt : i < suf.length
        · have : (suf ++ [u]).take (i + 1) = suf.take (i + 1) :=
            List.take_append_of_le_length (by omega)
          rw [this]
          exact hlive i hlt
        · have hi2 : i = suf.length := by
            simp at hi; omega
          subst hi2
          have : (suf ++ [u]).take (suf.length + 1) = suf ++ [u] :=
            List.take_of_length_le (by simp)
          rw [this, ← List.append_assoc, abs_run_snoc, hc]
          simp
      · rcases hh : hits k u with _ | _
        · rcases getc_abs_record_miss M (abs_run M st0 (pre ++ suf)) hh with h1 | h1
          · rw [h1, hprev] at hc
            simp at hc
            simp [List.countP_append, List.countP_cons, hh, ← hc, hcount]
          · rw [h1] at hc; exact absurd hc (by simp)
        · have := getc_abs_record_hit M (abs_run M st0 (pre ++ suf)) hh
          rw [hc, hprev] at this
          simp at this
          simp [List.countP_append, List.countP_cons, hh, this, hcount]

/-- The URIs in the abstract list stay pairwise different. -/
theorem abs_record_nodup (M : Nat) (st : List (List Nat × Nat) × Nat) (u : List Nat)
    (h : (st.1.map Prod.fst).Nodup) : ((abs_record M st u).1.map Prod.fst).Nodup := by
  unfold abs_record
  split
  · exact h
  · unfold abs_add
    split
    · simp only [List.map_cons, List.nodup_cons]
      refine ⟨?_, ?_⟩
      · intro hx
        obtain ⟨e, he, hk⟩ := List.mem_map.1 hx
        have := (List.mem_filter.1 he).2
        simp at this
        exact this hk
      · exact (List.filter_sublist _).map _ |>.nodup h
    · rename_i hnone
      simp only [List.map_cons, List.nodup_cons]
      refine ⟨?_, ?_⟩
      · intro hx
        split at hx
        · obtain ⟨e, he, hk⟩ := List.mem_map.1 hx
          have := List.find?_eq_none.1 hnone e he
          simp at this
          exact this hk
        · simp at hx
      · split
        · exact h
        · simp

theorem abs_run_nodup (M : Nat) (us : List (List Nat)) :
    ∀ st : List (List Nat × Nat) × Nat, (st.1.map Prod.fst).Nodup →
      ((abs_run M st us).1.map Prod.fst).Nodup := by
  induction us with
  | nil => intro st h; exact h
  | cons u us ih =>
    intro st h
    simp only [abs_run, List.foldl_cons]
    exact ih _ (abs_record_nodup M st u h)

/-- Every URI in the abstract list is the normalised form of an accepted call. -/
theorem abs_run_keys (M : Nat) (us : List (List Nat)) :
    ∀ st : List (List Nat × Nat) × Nat,
      ∀ k ∈ (abs_run M st us).1.map Prod.fst,
        k ∈ st.1.map Prod.fst ∨ ∃ u ∈ us, hits k u = true := by
  induction us with
  | nil => intro st k hk; exact Or.inl hk
  | cons u us ih =>
    intro st k hk
    simp only [abs_run, List.foldl_cons] at hk
    rcases ih _ k hk with h1 | ⟨u2, hu2, h2⟩
    · unfold abs_record at h1
      split at h1
      · exact Or.inl h1
      · rename_i hv
        unfold abs_add at h1
        split at h1
        · simp only [List.map_cons, List.mem_cons] at h1
          rcases h1 with h1 | h1
          · exact Or.inr ⟨u, by simp, (hits_iff k u).2 ⟨hv, h1.symm⟩⟩
          · left
            obtain ⟨e, he, hk⟩ := List.mem_map.1 h1
            exact List.mem_map.2 ⟨e, (List.mem_filter.1 he).1, hk⟩
        · simp only [List.map_cons, List.mem_cons] at h1
          rcases h1 with h1 | h1
          · exact Or.inr ⟨u, by simp, (hits_iff k u).2 ⟨hv, h1.symm⟩⟩
          · split at h1
            · exact Or.inl h1
            · simp at h1
    · exact Or.inr ⟨u2, List.mem_cons_of_mem _ hu2, h2⟩

/-! ### From the abstract run back to the tracker -/

theorem live_after_eq (P : Platform) (footprint : Nat) {hash_size : Nat} (h : 0 < hash_size)
    (uris : List (List Nat)) :
    live_after P footprint hash_size uris =
      (abs_run (2 * 1024 * 1024 / footprint) ([], 0) uris).1 := by
  obtain ⟨s, h1, h2, _⟩ := run_init P footprint h uris
  unfold live_after
  rw [h1]
  simp only [h2.view_eq]

theorem tolower_eq_zero {c : Nat} (h : ngx_tolower c = 0) : c = 0 := by
  unfold ngx_tolower at h
  split at h <;> omega

theorem strlow_nul_free {u : List Nat} (h : 0 ∉ u) : 0 ∉ ngx_strlow u := by
  intro hx
  obtain ⟨c, hc, h0⟩ := List.mem_map.1 hx
  rw [tolower_eq_zero h0] at hc
  exact h hc

theorem length_strlow (u : List Nat) : (ngx_strlow u).length = u.length := by
  simp [ngx_strlow]

theorem cstr_strlow {u : List Nat} (h : 0 ∉ u) : cstr (ngx_strlow u) = ngx_strlow u :=
  cstr_of_nul_free (strlow_nul_free h)

/-- For URIs without NUL, being an accepted call for a live URI is the same as
having that lowercased form. -/
theorem hits_eq_of_nul_free {k u u0 : List Nat} (hu : 0 ∉ u) (hu0 : 0 ∉ u0)
    (hk : hits k u0 = true) : hits k u = decide (ngx_strlow u = k) := by
  obtain ⟨hv0, hk0⟩ := (hits_iff k u0).1 hk
  rw [cstr_strlow hu0] at hk0
  by_cases he : ngx_strlow u = k
  · have hlen : u.length = u0.length := by
      rw [← length_strlow u, ← length_strlow u0, he, hk0]
    rw [decide_eq_true he]
    exact (hits_iff k u).2 ⟨by rw [hlen]; exact hv0, by rw [cstr_strlow hu]; exact he⟩
  · rw [decide_eq_false he]
    rcases hh : hits k u with _ | _
    · rfl
    · exact absurd (by rw [← cstr_strlow hu]; exact ((hits_iff k u).1 hh).2) he

theorem hash_walk_all_spec (mem : List ngx_uri_entry) (fuel : Nat) :
    ∀ (bs : List (Option Nat)) (D : Nat → List Nat),
      (∀ i, i < bs.length →
        IsChain (fun a => (rd mem a).next) (bs.getD i none) (D i) ∧ (D i).length ≤ fuel) →
      ∃ H, hash_walk_all mem fuel bs = some H ∧ ∀ a, a ∈ H ↔ ∃ i, i < bs.length ∧ a ∈ D i := by
  intro bs
  induction bs with
  | nil =>
    intro D _
    exact ⟨[], rfl, fun a => by simp⟩
  | cons b bs ih =>
    intro D h
    have h0 := h 0 (by simp)
    have hw := chain_walk_chain mem (D 0) fuel b (by simpa using h0.1) h0.2
    obtain ⟨H, hH, hmem⟩ := ih (fun i => D (i + 1)) (fun i hi => by
      have := h (i + 1) (by simpa using hi)
      simpa using this)
    refine ⟨D 0 ++ H, by simp [hash_walk_all, hw, hH], fun a => ?_⟩
    simp only [List.mem_append, hmem, List.length_cons]
    constructor
    · rintro (h1 | ⟨i, hi, h1⟩)
      · exact ⟨0, by omega, h1⟩
      · exact ⟨i + 1, by omega, h1⟩
    · rintro ⟨i, hi, h1⟩
      cases i with
      | zero => exact Or.inl h1
      | succ i => exact Or.inr ⟨i, by omega, h1⟩

theorem Repr.hash_entries_eq {P : Platform} {s : ngx_uri_table} {L : List Nat}
    (h : Repr P s L) : ∃ H, hash_entries s = some H ∧ ∀ a, a ∈ H ↔ a ∈ L := by
  obtain ⟨ht, C, hht, hH⟩ := h.hash
  obtain ⟨H, h1, h2⟩ := hash_walk_all_spec s.mem s.mem.length ht.buckets C (fun i hi => by
    have hi2 : i < ht.size := by rw [← hH.len]; exact hi
    exact ⟨hH.chain i hi2, (hH.chain i hi2).length_le (hH.nodup i)
      (fun a ha => hH.bound a ((hH.mem_iff i a).1 ha).1)⟩)
  refine ⟨H, by simp [hash_entries, hht, h1], fun a => ?_⟩
  rw [h2]
  constructor
  · rintro ⟨i, _, hi⟩
    exact ((hH.mem_iff i a).1 hi).1
  · intro ha
    refine ⟨hash4 P (rd s.mem a).uri ht.size, ?_, (hH.mem_iff _ a).2 ⟨ha, rfl⟩⟩
    rw [hH.len]
    exact hash4_lt P _ hH.size_pos

/-! ### Recording at capacity -/

/-- A miss on a tracker whose counter has reached the capacity leaves the new
entry as the only live entry. -/
theorem add_at_capacity {P : Platform} {s : ngx_uri_table} {V : List (List Nat × Nat)}
    (h : Tracks P s V) (hcap : s.lru_list_max_entries ≤ s.lru_list_entries)
    (uri : List Nat) (hv : ¬ (uri.length = 0 ∨ uri.length > 256))
    (hnew : cstr (ngx_strlow uri) ∉ V.map Prod.fst) :
    ∃ s2, ngx_uri_table_add P s uri = some (true, s2) ∧
      lru_view s2 = some [(cstr (ngx_strlow uri), 1)] ∧
      s2.lru_list_entries = s.lru_list_entries + 1 := by
  obtain ⟨s2, h1, h2, h3, _⟩ := add_tracks h uri hv
  have hfind : V.find? (fun e => e.1 == cstr (ngx_strlow uri)) = none := by
    have := (getc_eq_none_iff V _).2 hnew
    simpa [getc] using this
  have hlt : ¬ s.lru_list_entries < s.lru_list_max_entries := Nat.not_lt.2 hcap
  refine ⟨s2, h1, ?_, ?_⟩
  · rw [h2.view_eq]
    simp [abs_add, hfind, hlt]
  · rw [h3]
    simp [abs_add, hfind]

theorem find_fresh_key (us : List (List Nat)) (u : List Nat)
    (h : ∀ x ∈ us, cstr (ngx_strlow x) ≠ cstr (ngx_strlow u)) :
    (us.reverse.map (fun u => (cstr (ngx_strlow u), 1))).find?
      (fun e => e.1 == cstr (ngx_strlow u)) = none := by
  rw [List.find?_eq_none]
  intro e he
  obtain ⟨x, hx, rfl⟩ := List.mem_map.1 he
  have := h x (List.mem_reverse.1 hx)
  simpa using this

/-- Recording pairwise different URIs below the capacity stacks them on the list
and counts them. -/
theorem abs_run_distinct (M : Nat) (us : List (List Nat)) :
    (∀ u ∈ us, ¬ (u.length = 0 ∨ u.length > 256)) →
      (us.map (fun u => cstr (ngx_strlow u))).Nodup → us.length ≤ M →
      abs_run M ([], 0) us =
        (us.reverse.map (fun u => (cstr (ngx_strlow u), 1)), us.length) := by
  induction us using List.reverseRecOn with
  | nil => intro _ _ _; rfl
  | append_singleton us u ih =>
    intro hv hn hl
    have hv1 : ∀ u ∈ us, ¬ (u.length = 0 ∨ u.length > 256) :=
      fun x hx => hv x (List.mem_append_left _ hx)
    have hvu : ¬ (u.length = 0 ∨ u.length > 256) := hv u (by simp)
    rw [List.map_append, List.nodup_append] at hn
    have hlen : us.length < M := by
      simp at hl; omega
    rw [abs_run_snoc, ih hv1 hn.1 (Nat.le_of_lt hlen), abs_record, if_neg hvu]
    have hfind := find_fresh_key us u (fun x hx e =>
      hn.2.2 (List.mem_map.2 ⟨x, hx, rfl⟩) (by simp [e]))
    unfold abs_add
    simp only [hfind, hlen, if_true, List.reverse_append, List.reverse_cons, List.reverse_nil,
      List.nil_append, List.singleton_append, List.map_cons, List.length_append,
      List.length_singleton]

/-- On every initialised tracker, recording one more than `lru_list_max_entries`
pairwise different accepted URIs leaves the last one as the only live entry. -/
theorem overflow_evicts_every_entry (P : Platform) (footprint hash_size : Nat)
    (hh : hash_size ∈ hash_primes) (us : List (List Nat)) (u : List Nat)
    (hv : ∀ x ∈ us ++ [u], ¬ (x.length = 0 ∨ x.length > 256))
    (hn : ((us ++ [u]).map (fun x => cstr (ngx_strlow x))).Nodup)
    (hl : us.length = 2 * 1024 * 1024 / footprint) :
    live_after P footprint hash_size (us ++ [u]) = [(cstr (ngx_strlow u), 1)] := by
  rw [live_after_eq P footprint (mem_hash_primes_pos hh), abs_run_snoc]
  rw [List.map_append, List.nodup_append] at hn
  rw [abs_run_distinct _ us (fun x hx => hv x (List.mem_append_left _ hx)) hn.1 (by omega),
    abs_record, if_neg (hv u (by simp))]
  have hfind := find_fresh_key us u (fun x hx e =>
    hn.2.2 (List.mem_map.2 ⟨x, hx, rfl⟩) (by simp [e]))
  have hge : ¬ us.length < 2 * 1024 * 1024 / footprint := by omega
  unfold abs_add
  simp only [hfind, hge, if_false]

/-- The counter never falls below the length of the list. -/
theorem abs_record_le_counter (M : Nat) (st : List (List Nat × Nat) × Nat) (u : List Nat)
    (h : st.1.length ≤ st.2) : (abs_record M st u).1.length ≤ (abs_record M st u).2 := by
  unfold abs_record
  split
  · exact h
  · unfold abs_add
    split
    · rename_i e he
      have hmem := List.mem_of_find?_eq_some he
      have hp := List.find?_some he
      have hlt : (st.1.filter (fun e => e.1 != cstr (ngx_strlow u))).length < st.1.length := by
        rw [List.length_filter_lt_length_iff_exists]
        exact ⟨e, hmem, by simpa using hp⟩
      simp only [List.length_cons]
      omega
    · simp only [List.length_cons]
      split
      · omega
      · simp

theorem abs_run_le_counter (M : Nat) (us : List (List Nat)) :
    ∀ st : List (List Nat × Nat) × Nat, st.1.length ≤ st.2 →
      (abs_run M st us).1.length ≤ (abs_run M st us).2 := by
  induction us with
  | nil => intro st h; exact h
  | cons u us ih =>
    intro st h
    simp only [abs_run, List.foldl_cons]
    exact ih _ (abs_record_le_counter M st u h)

/-- In every state reached from the initial tracker, `lru_list_entries` is at
least the number of live entries; so it is positive whenever a lookup can hit,
and the decrement in `ngx_uri_table_lru_list_delete` never wraps. -/
theorem counter_pos_of_live (P : Platform) (footprint hash_size : Nat)
    (hh : hash_size ∈ hash_primes) (uris : List (List Nat)) :
    ∃ s L, record_all P (tracker_init footprint hash_size) uris = some s ∧
      lru_entries s = some L ∧ L.length ≤ s.lru_list_entries := by
  obtain ⟨s, h1, ⟨L, hR, hV⟩, h3, _⟩ := run_init P footprint (mem_hash_primes_pos hh) uris
  have hlen := abs_run_le_counter (2 * 1024 * 1024 / footprint) uris ([], 0) (by simp)
  refine ⟨s, L, h1, hR.lru_entries_eq, ?_⟩
  rw [h3]
  rw [← hV] at hlen
  simpa using hlen

/-! ## The heap as an array -/

theorem length_heap_add_loop (mem : List ngx_uri_entry) (e : Nat) :
    ∀ (fuel : Nat) (els : List Nat) (i : Nat),
      (heap_add_loop mem e fuel els i).length = els.length := by
  intro fuel
  induction fuel with
  | zero => intro els i; simp [heap_add_loop]
  | succ f ih =>
    intro els i
    simp only [heap_add_loop]
    split
    · rw [ih]; simp
    · simp

theorem length_heap_add (mem : List ngx_uri_entry) (h : ngx_max_heap) (e : Nat) :
    (ngx_max_heap_add mem h e).length = h.length + 1 := by
  simp [ngx_max_heap_add, length_heap_add_loop]

theorem length_heap_swap (els : List Nat) (i j : Nat) :
    (ngx_max_heap_swap els i j).length = els.length := by
  simp [ngx_max_heap_swap]

theorem heapify_succ (mem : List ngx_uri_entry) (fuel : Nat) (h : ngx_max_heap) (i : Nat) :
    ngx_max_heap_heapify mem (fuel + 1) h i =
      if heap_largest mem h i ≠ i then
        ngx_max_heap_heapify mem fuel (ngx_max_heap_swap h i (heap_largest mem h i))
          (heap_largest mem h i)
      else h := rfl

theorem length_heapify (mem : List ngx_uri_entry) :
    ∀ (fuel : Nat) (h : ngx_max_heap) (i : Nat),
      (ngx_max_heap_heapify mem fuel h i).length = h.length := by
  intro fuel
  induction fuel with
  | zero => intro h i; rfl
  | succ f ih =>
    intro h i
    rw [heapify_succ]
    split
    · rw [ih, length_heap_swap]
    · rfl

theorem heap_delete_nil (mem : List ngx_uri_entry) :
    ngx_max_heap_delete mem [] = (none, []) := rfl

theorem heap_delete_fst (mem : List ngx_uri_entry) {h : ngx_max_heap} (hne : h ≠ []) :
    (ngx_max_heap_delete mem h).1 = some (h.getD 0 0) := by
  have : h.length > 0 := List.length_pos.2 hne
  simp [ngx_max_heap_delete, this]

theorem length_heap_delete (mem : List ngx_uri_entry) (h : ngx_max_heap) :
    (ngx_max_heap_delete mem h).2.length = h.length - 1 := by
  unfold ngx_max_heap_delete
  split
  · simp [length_heapify]
  · rename_i hl
    have : h.length = 0 := by omega
    simp [this]

theorem length_topn_entries (mem : List ngx_uri_entry) :
    ∀ (n : Nat) (h : ngx_max_heap), (topn_entries mem n h).length = min n h.length := by
  intro n
  induction n with
  | zero => intro h; simp [topn_entries]
  | succ n ih =>
    intro h
    cases h with
    | nil => simp [topn_entries, heap_delete_nil]
    | cons a t =>
      have h1 := heap_delete_fst mem (h := a :: t) (by simp)
      have h2 := length_heap_delete mem (a :: t)
      rcases hd : ngx_max_heap_delete mem (a :: t) with ⟨r, h'⟩
      rw [hd] at h1 h2
      simp only at h1 h2
      subst h1
      simp only [topn_entries, hd, List.length_cons, ih, h2]
      simp
      omega

/-- The text written by `ngx_max_heap_get_topn` is one `report_line` per extracted
entry, in extraction order. -/
theorem get_topn_loop_text (mem : List ngx_uri_entry) :
    ∀ (n : Nat) (h : ngx_max_heap) (tl : Nat) (rep : List Nat),
      (get_topn_loop mem n h tl rep).2 =
        rep ++ ((topn_entries mem n h).map (fun a => report_line (rd mem a))).flatten := by
  intro n
  induction n with
  | zero => intro h tl rep; simp [get_topn_loop, topn_entries]
  | succ n ih =>
    intro h tl rep
    rcases hd : ngx_max_heap_delete mem h with ⟨r, h'⟩
    cases r with
    | none => simp [get_topn_loop, topn_entries, hd]
    | some e =>
      simp only [get_topn_loop, topn_entries, hd, ih, List.map_cons, List.flatten_cons,
        List.append_assoc]

theorem build_loop_chain (mem : List ngx_uri_entry) :
    ∀ (l : List Nat) (fuel : Nat) (p : Option Nat) (h : ngx_max_heap),
      IsChain (fun a => (rd mem a).lru_next) p l → l.length ≤ fuel →
      h.length + l.length ≤ INITIAL_SIZE →
      build_loop mem fuel p h = some (l.foldl (ngx_max_heap_add mem) h) := by
  intro l
  induction l with
  | nil =>
    intro fuel p h hc _ _
    have hp : p = none := hc
    subst hp
    cases fuel <;> rfl
  | cons a l ih =>
    intro fuel p h hc hf hcap
    have hp : p = some a := hc.1
    subst hp
    cases fuel with
    | zero => simp at hf
    | succ f =>
      have hlt : h.length < INITIAL_SIZE := by simp at hcap; omega
      simp only [build_loop, List.foldl_cons, if_pos hlt]
      refine ih f _ _ hc.2 (by simpa using hf) ?_
      rw [length_heap_add]; simp at hcap; omega

/-- The heap-building loop faults when the list does not fit into the array. -/
theorem build_loop_overflow (mem : List ngx_uri_entry) :
    ∀ (l : List Nat) (fuel : Nat) (p : Option Nat) (h : ngx_max_heap),
      IsChain (fun a => (rd mem a).lru_next) p l →
      INITIAL_SIZE < h.length + l.length → h.length ≤ INITIAL_SIZE →
      build_loop mem fuel p h = none := by
  intro l
  induction l with
  | nil => intro fuel p h _ hcap hle; simp at hcap; omega
  | cons a l ih =>
    intro fuel p h hc hcap hle
    have hp : p = some a := hc.1
    subst hp
    cases fuel with
    | zero => rfl
    | succ f =>
      by_cases hlt : h.length < INITIAL_SIZE
      · simp only [build_loop, if_pos hlt]
        refine ih f _ _ hc.2 ?_ ?_
        · rw [length_heap_add]; simp at hcap; omega
        · rw [length_heap_add]; omega
      · simp only [build_loop, if_neg hlt]

theorem length_foldl_heap_add (mem : List ngx_uri_entry) :
    ∀ (l : List Nat) (h : ngx_max_heap),
      (l.foldl (ngx_max_heap_add mem) h).length = h.length + l.length := by
  intro l
  induction l with
  | nil => intro h; simp
  | cons a l ih =>
    intro h
    simp only [List.foldl_cons, ih, length_heap_add, List.length_cons]
    omega

/-- The global heap lets the report start: it is `NULL`, or its `capacity` is at
least the counter `lru_list_entries`. -/
theorem report_start_ok {g : Option global_max_heap} {s : ngx_uri_table}
    (hg : ∀ h, g = some h → s.lru_list_entries ≤ h.capacity) :
    ∃ h0, report_start g s = some h0 ∧ h0.elements = [] := by
  cases g with
  | none => exact ⟨_, rfl, rfl⟩
  | some h =>
    have := hg h rfl
    refine ⟨{ h with elements := [] }, ?_, rfl⟩
    simp only [report_start, ngx_max_heap_reset]
    rw [if_neg (by omega)]

theorem report_start_elements {g : Option global_max_heap} {s : ngx_uri_table}
    {h0 : global_max_heap} (h : report_start g s = some h0) : h0.elements = [] := by
  cases g with
  | none =>
    simp only [report_start, Option.some.injEq] at h
    rw [← h]; rfl
  | some h1 =>
    simp only [report_start, ngx_max_heap_reset] at h
    split at h
    · cases h
    · simp only [Option.some.injEq] at h
      rw [← h]

/-- A later report faults when the counter exceeds the `capacity` of the global
heap. -/
theorem report_start_fault {h : global_max_heap} {s : ngx_uri_table}
    (hc : h.capacity < s.lru_list_entries) : report_start (some h) s = none := by
  simp only [report_start, ngx_max_heap_reset]
  rw [if_pos hc]

/-- On a well-formed tracker the heap of the report is built from the LRU list,
head first. -/
theorem Repr.report_heap_eq {P : Platform} {s : ngx_uri_table} {L : List Nat}
    (h : Repr P s L) (hcap : L.length ≤ INITIAL_SIZE) {g : Option global_max_heap}
    (hg : ∀ h, g = some h → s.lru_list_entries ≤ h.capacity) :
    ∃ h0 : global_max_heap,
      report_heap g s = some { h0 with elements := L.foldl (ngx_max_heap_add s.mem) [] } := by
  obtain ⟨h0, e0, e1⟩ := report_start_ok hg
  refine ⟨h0, ?_⟩
  simp only [report_heap, e0, e1]
  rw [build_loop_chain _ _ _ _ _ h.lru.fwd h.list_length_le (by simpa using hcap)]

/-- On a well-formed tracker with more live entries than the heap array has slots
the report faults. -/
theorem Repr.report_heap_none {P : Platform} {s : ngx_uri_table} {L : List Nat}
    (h : Repr P s L) (hcap : INITIAL_SIZE < L.length) (g : Option global_max_heap) :
    report_heap g s = none := by
  unfold report_heap
  cases e : report_start g s with
  | none => rfl
  | some h0 =>
    simp only
    rw [report_start_elements e,
      build_loop_overflow _ _ _ _ _ h.lru.fwd (by simpa using hcap) (by simp)]

theorem report_heap_fault {h : global_max_heap} {s : ngx_uri_table}
    (hc : h.capacity < s.lru_list_entries) : report_heap (some h) s = none := by
  simp only [report_heap, report_start_fault hc]

/-! ## Sifting down -/

theorem getD_set_nat (l : List Nat) (a k x : Nat) :
    (l.set a x).getD k 0 = if a = k ∧ a < l.length then x else l.getD k 0 := by
  by_cases h : a = k
  · subst h
    by_cases h2 : a < l.length
    · simp [h2, List.getD_eq_getElem?_getD, List.getElem?_set]
    · have h3 : l.length ≤ a := Nat.le_of_not_lt h2
      simp [h2, List.getD_eq_getElem?_getD, List.getElem?_set, List.getElem?_eq_none h3]
  · simp [h, List.getD_eq_getElem?_getD, List.getElem?_set]

theorem heap_count_swap (mem : List ngx_uri_entry) (h : List Nat) {i j : Nat}
    (hi : i < h.length) (hj : j < h.length) (k : Nat) :
    heap_count mem (ngx_max_heap_swap h i j) k =
      if k = j then heap_count mem h i else if k = i then heap_count mem h j
      else heap_count mem h k := by
  unfold heap_count ngx_max_heap_swap
  rw [getD_set_nat, getD_set_nat]
  by_cases hkj : k = j
  · subst hkj; simp [hj]
  · by_cases hki : k = i
    · subst hki
      have : ¬ (j = k) := fun e => hkj e.symm
      simp [this, hi, hkj]
    · have h1 : ¬ (j = k) := fun e => hkj e.symm
      have h2 : ¬ (i = k) := fun e => hki e.symm
      simp [h1, h2, hkj, hki]

theorem heap_largest_cases (mem : List ngx_uri_entry) (h : List Nat) (i : Nat) :
    (heap_largest mem h i = i ∧
        (LCHILD i < h.length → heap_count mem h (LCHILD i) ≤ heap_count mem h i) ∧
        (RCHILD i < h.length → heap_count mem h (RCHILD i) ≤ heap_count mem h i)) ∨
      (heap_largest mem h i = LCHILD i ∧ LCHILD i < h.length ∧
        heap_count mem h i < heap_count mem h (LCHILD i) ∧
        (RCHILD i < h.length → heap_count mem h (RCHILD i) ≤ heap_count mem h (LCHILD i))) ∨
      (heap_largest mem h i = RCHILD i ∧ RCHILD i < h.length ∧
        heap_count mem h i < heap_count mem h (RCHILD i) ∧
        (LCHILD i < h.length → heap_count mem h (LCHILD i) ≤ heap_count mem h (RCHILD i))) := by
  unfold heap_largest heap_count
  dsimp only
  by_cases h1 : LCHILD i < h.length ∧ (rd mem (h.getD (LCHILD i) 0)).count > (rd mem (h.getD i 0)).count
  · rw [if_pos h1]
    by_cases h2 : RCHILD i < h.length ∧
        (rd mem (h.getD (RCHILD i) 0)).count > (rd mem (h.getD (LCHILD i) 0)).count
    · rw [if_pos h2]
      right; right
      refine ⟨rfl, h2.1, ?_, fun _ => ?_⟩ <;> omega
    · rw [if_neg h2]
      right; left
      refine ⟨rfl, h1.1, h1.2, fun hr => ?_⟩
      have := fun hx => h2 ⟨hr, hx⟩
      omega
  · rw [if_neg h1]
    by_cases h2 : RCHILD i < h.length ∧
        (rd mem (h.getD (RCHILD i) 0)).count > (rd mem (h.getD i 0)).count
    · rw [if_pos h2]
      right; right
      refine ⟨rfl, h2.1, h2.2, fun hl => ?_⟩
      have := fun hx => h1 ⟨hl, hx⟩
      omega
    · rw [if_neg h2]
      left
      refine ⟨rfl, fun hl => ?_, fun hr => ?_⟩
      · have := fun hx => h1 ⟨hl, hx⟩
        omega
      · have := fun hx => h2 ⟨hr, hx⟩
        omega

theorem is_max_heap_of_except {mem : List ngx_uri_entry} {h : List Nat} {i : Nat}
    (he : heap_except mem h i)
    (hi : i < h.length →
      (LCHILD i < h.length → heap_count mem h (LCHILD i) ≤ heap_count mem h i) ∧
      (RCHILD i < h.length → heap_count mem h (RCHILD i) ≤ heap_count mem h i)) :
    is_max_heap mem h := by
  intro j hj
  by_cases hji : j = i
  · subst hji; exact hi hj
  · exact he.1 j hj hji

theorem LCHILD_eq (x : Nat) : LCHILD x = 2 * x + 1 := rfl

theorem RCHILD_eq (x : Nat) : RCHILD x = 2 * x + 2 := rfl

/-- After swapping slot `i` with its larger child `l`, the heap property can only
fail at `l`. -/
theorem heap_except_swap {mem : List ngx_uri_entry} {h : List Nat} {i l : Nat}
    (he : heap_except mem h i) (hi : i < h.length) (hl : l < h.length)
    (hchild : l = LCHILD i ∨ l = RCHILD i)
    (hlt : heap_count mem h i < heap_count mem h l)
    (hL : LCHILD i < h.length → heap_count mem h (LCHILD i) ≤ heap_count mem h l)
    (hR : RCHILD i < h.length → heap_count mem h (RCHILD i) ≤ heap_count mem h l) :
    heap_except mem (ngx_max_heap_swap h i l) l := by
  have hlen : (ngx_max_heap_swap h i l).length = h.length := length_heap_swap h i l
  have hil : i ≠ l := by
    rcases hchild with e | e
    · rw [LCHILD_eq] at e; omega
    · rw [RCHILD_eq] at e; omega
  have hchild2 : l = 2 * i + 1 ∨ l = 2 * i + 2 := hchild
  refine ⟨?_, ?_⟩
  · intro j hj hjl
    rw [hlen] at hj ⊢
    simp only [heap_count_swap mem h hi hl]
    by_cases hji : j = i
    · subst hji
      constructor
      · intro hc
        by_cases e : LCHILD j = l
        · rw [if_pos e, if_neg hjl, if_pos rfl]
          omega
        · have e2 : LCHILD j ≠ j := by rw [LCHILD_eq]; omega
          rw [if_neg e, if_neg e2, if_neg hjl, if_pos rfl]
          exact hL hc
      · intro hc
        by_cases e : RCHILD j = l
        · rw [if_pos e, if_neg hjl, if_pos rfl]
          omega
        · have e2 : RCHILD j ≠ j := by rw [RCHILD_eq]; omega
          rw [if_neg e, if_neg e2, if_neg hjl, if_pos rfl]
          exact hR hc
    · have hj1 := he.1 j hj hji
      rw [if_neg hjl, if_neg hji]
      constructor
      · intro hc
        have e1 : LCHILD j ≠ l := by
          intro e
          rw [LCHILD_eq] at e
          omega
        by_cases e2 : LCHILD j = i
        · rw [if_neg e1, if_pos e2]
          have := he.2 j hj (Or.inl e2)
          rcases hchild with e' | e'
          · subst e'; exact this.1 hl
          · subst e'; exact this.2 hl
        · rw [if_neg e1, if_neg e2]
          exact hj1.1 hc
      · intro hc
        have e1 : RCHILD j ≠ l := by
          intro e
          rw [RCHILD_eq] at e
          omega
        by_cases e2 : RCHILD j = i
        · rw [if_neg e1, if_pos e2]
          have := he.2 j hj (Or.inr e2)
          rcases hchild with e' | e'
          · subst e'; exact this.1 hl
          · subst e'; exact this.2 hl
        · rw [if_neg e1, if_neg e2]
          exact hj1.2 hc
  · intro p hp hpl
    rw [hlen] at hp ⊢
    have hpi : p = i := by
      rw [LCHILD_eq, RCHILD_eq] at hpl
      omega
    subst hpi
    have hl1 := he.1 l hl (Ne.symm hil)
    simp only [heap_count_swap mem h hi hl]
    have a1 : LCHILD l ≠ l := by rw [LCHILD_eq]; omega
    have a2 : LCHILD l ≠ p := by rw [LCHILD_eq]; omega
    have a3 : RCHILD l ≠ l := by rw [RCHILD_eq]; omega
    have a4 : RCHILD l ≠ p := by rw [RCHILD_eq]; omega
    rw [if_neg a1, if_neg a2, if_neg a3, if_neg a4]
    simp only [if_true, if_neg hil]
    exact hl1

/-- `ngx_max_heap_heapify(i)` restores the max-heap property when it can only
fail at `i`, given fuel for the slots from `i` on. -/
theorem heapify_is_max_heap (mem : List ngx_uri_entry) :
    ∀ (fuel : Nat) (h : List Nat) (i : Nat), heap_except mem h i → h.length ≤ i + fuel →
      is_max_heap mem (ngx_max_heap_heapify mem fuel h i) := by
  intro fuel
  induction fuel with
  | zero =>
    intro h i he hf
    have e : ngx_max_heap_heapify mem 0 h i = h := rfl
    rw [e]
    exact is_max_heap_of_except he (fun hi => by omega)
  | succ f ih =>
    intro h i he hf
    rw [heapify_succ]
    by_cases hi : i < h.length
    · rcases heap_largest_cases mem h i with ⟨e, h1, h2⟩ | ⟨e, hl, hlt, h2⟩ | ⟨e, hl, hlt, h2⟩
      · rw [e]; simp only [ne_eq, not_true_eq_false, if_false]
        exact is_max_heap_of_except he (fun _ => ⟨h1, h2⟩)
      · have hne : LCHILD i ≠ i := by rw [LCHILD_eq]; omega
        rw [e]; simp only [ne_eq, hne, not_false_eq_true, if_true]
        refine ih _ _ (heap_except_swap he hi hl (Or.inl rfl) hlt (fun _ => Nat.le_refl _) h2) ?_
        rw [length_heap_swap, LCHILD_eq]; omega
      · have hne : RCHILD i ≠ i := by rw [RCHILD_eq]; omega
        rw [e]; simp only [ne_eq, hne, not_false_eq_true, if_true]
        refine ih _ _ (heap_except_swap he hi hl (Or.inr rfl) hlt h2 (fun _ => Nat.le_refl _)) ?_
        rw [length_heap_swap, RCHILD_eq]; omega
    · have e : heap_largest mem h i = i := by
        rcases heap_largest_cases mem h i with ⟨e, _⟩ | ⟨_, hl, _⟩ | ⟨_, hl, _⟩
        · exact e
        · rw [LCHILD_eq] at hl; omega
        · rw [RCHILD_eq] at hl; omega
      rw [e]; simp only [ne_eq, not_true_eq_false, if_false]
      exact is_max_heap_of_except he (fun hi' => absurd hi' hi)

/-! ## Extraction of the maximum -/

theorem set_getD_self (h : List Nat) (i : Nat) : h.set i (h.getD i 0) = h := by
  apply List.ext_getElem?
  intro n
  rw [List.getElem?_set]
  by_cases e : i = n
  · subst e
    by_cases hi : i < h.length
    · simp [hi, List.getD_eq_getElem?_getD]
    · simp [hi, List.getElem?_eq_none (Nat.le_of_not_lt hi)]
  · simp [e]

theorem heap_swap_perm (h : List Nat) {i j : Nat} (hi : i < h.length) (hj : j < h.length) :
    (ngx_max_heap_swap h i j).Perm h := by
  unfold ngx_max_heap_swap
  by_cases hij : i = j
  · subst hij
    rw [set_getD_self, set_getD_self]
  · rw [List.perm_iff_count]
    intro b
    have e1 : h.getD i 0 = h[i] := by simp [List.getD_eq_getElem?_getD, hi]
    have e2 : h.getD j 0 = h[j] := by simp [List.getD_eq_getElem?_getD, hj]
    rw [e1, e2]
    have hj2 : j < (h.set i h[j]).length := by simpa using hj
    rw [List.count_set _ _ _ _ hj2, List.count_set _ _ _ _ hi]
    have e3 : (h.set i h[j])[j] = h[j] := by
      rw [List.getElem_set_ne hij]
    rw [e3]
    have p1 : h[i] = b → 0 < h.count b := fun e =>
      List.count_pos_iff.mpr (e ▸ List.getElem_mem hi)
    have p2 : h[j] = b → 0 < h.count b := fun e =>
      List.count_pos_iff.mpr (e ▸ List.getElem_mem hj)
    by_cases c1 : h[i] = b <;> by_cases c2 : h[j] = b <;>
      simp only [beq_iff_eq, c1, c2, if_true, if_false] <;> omega

theorem heapify_perm (mem : List ngx_uri_entry) :
    ∀ (fuel : Nat) (h : List Nat) (i : Nat), (ngx_max_heap_heapify mem fuel h i).Perm h := by
  intro fuel
  induction fuel with
  | zero => intro h i; exact List.Perm.refl _
  | succ f ih =>
    intro h i
    rw [heapify_succ]
    rcases heap_largest_cases mem h i with ⟨e, _⟩ | ⟨e, hl, _⟩ | ⟨e, hl, _⟩
    · rw [e]; simp only [ne_eq, not_true_eq_false, if_false]
      exact List.Perm.refl _
    · have hne : LCHILD i ≠ i := by rw [LCHILD_eq]; omega
      have hi : i < h.length := by rw [LCHILD_eq] at hl; omega
      rw [e]; simp only [ne_eq, hne, not_false_eq_true, if_true]
      exact (ih _ _).trans (heap_swap_perm h hi hl)
    · have hne : RCHILD i ≠ i := by rw [RCHILD_eq]; omega
      have hi : i < h.length := by rw [RCHILD_eq] at hl; omega
      rw [e]; simp only [ne_eq, hne, not_false_eq_true, if_true]
      exact (ih _ _).trans (heap_swap_perm h hi hl)

/-- The array after `elements[0] = elements[--size]`. -/
theorem heap_shrunk_perm (h : List Nat) (hne : h ≠ []) :
    h.Perm (h.getD 0 0 :: (h.set 0 (h.getD (h.length - 1) 0)).dropLast) := by
  cases h with
  | nil => exact absurd rfl hne
  | cons a t =>
    by_cases ht : t = []
    · subst ht; simp
    · have e : (a :: t).getD ((a :: t).length - 1) 0 = t.getLast ht := by
        have hl : 0 < t.length := List.length_pos.mpr ht
        have : (a :: t).length - 1 = (t.length - 1) + 1 := by simp; omega
        rw [this, List.getD_cons_succ, List.getD_eq_getElem?_getD, List.getLast_eq_getElem]
        simp [hl]
      rw [e]
      simp only [List.set_cons_zero, List.getD_cons_zero]
      rw [List.dropLast_cons_of_ne_nil ht]
      refine List.Perm.cons a ?_
      have := List.dropLast_append_getLast ht
      conv_lhs => rw [← this]
      exact List.perm_append_singleton _ _

theorem heap_shrunk_getD (h : List Nat) {k : Nat} (hk : k + 1 < h.length) :
    ((h.set 0 (h.getD (h.length - 1) 0)).dropLast).getD k 0 =
      if k = 0 then h.getD (h.length - 1) 0 else h.getD k 0 := by
  rw [List.getD_eq_getElem?_getD, List.dropLast_eq_take, List.getElem?_take]
  have : k < (h.set 0 (h.getD (h.length - 1) 0)).length - 1 := by simp; omega
  rw [if_pos this, List.getElem?_set]
  by_cases hk0 : k = 0
  · subst hk0
    have : 0 < h.length := by omega
    simp [this]
  · have h0 : ¬ (0 = k) := fun e => hk0 e.symm
    simp [h0, hk0, List.getD_eq_getElem?_getD]

theorem heap_shrunk_except (mem : List ngx_uri_entry) (h : List Nat) (hh : is_max_heap mem h) :
    heap_except mem ((h.set 0 (h.getD (h.length - 1) 0)).dropLast) 0 := by
  have hlen : ((h.set 0 (h.getD (h.length - 1) 0)).dropLast).length = h.length - 1 := by simp
  refine ⟨?_, ?_⟩
  · intro j hj hj0
    rw [hlen] at hj ⊢
    have hjj := hh j (by omega)
    have eL : LCHILD j = 2 * j + 1 := rfl
    have eR : RCHILD j = 2 * j + 2 := rfl
    have hj1 : j + 1 < h.length := by omega
    unfold heap_count
    constructor
    · intro hc
      have hc1 : LCHILD j + 1 < h.length := by omega
      have hc0 : LCHILD j ≠ 0 := by omega
      rw [heap_shrunk_getD h hj1, heap_shrunk_getD h hc1, if_neg hj0, if_neg hc0]
      exact hjj.1 (by omega)
    · intro hc
      have hc1 : RCHILD j + 1 < h.length := by omega
      have hc0 : RCHILD j ≠ 0 := by omega
      rw [heap_shrunk_getD h hj1, heap_shrunk_getD h hc1, if_neg hj0, if_neg hc0]
      exact hjj.2 (by omega)
  · intro p _ hp
    rw [LCHILD_eq, RCHILD_eq] at hp
    omega

/-- In a max-heap the root has the largest count. -/
theorem heap_root_max (mem : List ngx_uri_entry) (h : List Nat) (hh : is_max_heap mem h) :
    ∀ k, k < h.length → heap_count mem h k ≤ heap_count mem h 0 := by
  intro k
  induction k using Nat.strong_induction_on with
  | _ k ih =>
    intro hk
    by_cases hk0 : k = 0
    · subst hk0; exact Nat.le_refl _
    · have hp : (k - 1) / 2 < k := by omega
      have hpl : (k - 1) / 2 < h.length := by omega
      have h1 := hh ((k - 1) / 2) hpl
      have h2 := ih _ hp hpl
      rcases Nat.mod_two_eq_zero_or_one (k - 1) with e | e
      · have ek : LCHILD ((k - 1) / 2) = k := by rw [LCHILD_eq]; omega
        have := h1.1 (by rw [ek]; exact hk)
        rw [ek] at this
        omega
      · have ek : RCHILD ((k - 1) / 2) = k := by rw [RCHILD_eq]; omega
        have := h1.2 (by rw [ek]; exact hk)
        rw [ek] at this
        omega

theorem heap_count_of_mem (mem : List ngx_uri_entry) (h : List Nat) {a : Nat} (ha : a ∈ h) :
    ∃ k, k < h.length ∧ (rd mem a).count = heap_count mem h k := by
  obtain ⟨k, hk, e⟩ := List.getElem_of_mem ha
  refine ⟨k, hk, ?_⟩
  unfold heap_count
  rw [List.getD_eq_getElem?_getD, List.getElem?_eq_getElem hk, Option.getD_some, e]

/-- `ngx_max_heap_delete` on a non-empty max-heap. -/
theorem heap_delete_spec (mem : List ngx_uri_entry) (h : List Nat) (hne : h ≠ [])
    (hh : is_max_heap mem h) :
    ∃ e, (ngx_max_heap_delete mem h).1 = some e ∧ e ∈ h ∧
      (∀ a ∈ h, (rd mem a).count ≤ (rd mem e).count) ∧
      (ngx_max_heap_delete mem h).2.length + 1 = h.length ∧
      h.Perm (e :: (ngx_max_heap_delete mem h).2) ∧
      is_max_heap mem (ngx_max_heap_delete mem h).2 := by
  have hl : 0 < h.length := List.length_pos.mpr hne
  have e0 : h.getD 0 0 = h[0] := by simp [List.getD_eq_getElem?_getD, hl]
  refine ⟨h.getD 0 0, heap_delete_fst mem hne, ?_, ?_, ?_, ?_, ?_⟩
  · rw [e0]; exact List.getElem_mem hl
  · intro a ha
    obtain ⟨k, hk, e⟩ := heap_count_of_mem mem h ha
    rw [e]
    exact heap_root_max mem h hh k hk
  · rw [length_heap_delete]; omega
  · have e : (ngx_max_heap_delete mem h).2 =
        ngx_max_heap_heapify mem ((h.set 0 (h.getD (h.length - 1) 0)).dropLast).length
          ((h.set 0 (h.getD (h.length - 1) 0)).dropLast) 0 := by
      unfold ngx_max_heap_delete
      rw [if_pos hl]
    rw [e]
    exact (heap_shrunk_perm h hne).trans
      (List.Perm.cons _ (heapify_perm mem _ _ 0).symm)
  · have e : (ngx_max_heap_delete mem h).2 =
        ngx_max_heap_heapify mem ((h.set 0 (h.getD (h.length - 1) 0)).dropLast).length
          ((h.set 0 (h.getD (h.length - 1) 0)).dropLast) 0 := by
      unfold ngx_max_heap_delete
      rw [if_pos hl]
    rw [e]
    exact heapify_is_max_heap mem _ _ 0 (heap_shrunk_except mem h hh) (by omega)

/-! ## The report as a selection of live entries -/

theorem heap_add_loop_perm (mem : List ngx_uri_entry) (e : Nat) :
    ∀ (fuel : Nat) (elements : List Nat) (i : Nat), i < elements.length →
      (heap_add_loop mem e fuel elements i).Perm (elements.set i e) := by
  intro fuel
  induction fuel with
  | zero => intro elements i _; exact List.Perm.refl _
  | succ f ih =>
    intro elements i hi
    unfold heap_add_loop
    split
    · rename_i hc
      have hp : PARENT i < elements.length := by
        have : PARENT i ≤ i := Nat.div_le_self i 2
        omega
      have hne : PARENT i ≠ i := by
        have : PARENT i = i / 2 := rfl
        omega
      refine (ih _ _ (by simpa using hp)).trans ?_
      have hsw : (elements.set i (elements.getD (PARENT i) 0)).set (PARENT i) e =
          ngx_max_heap_swap (elements.set i e) i (PARENT i) := by
        unfold ngx_max_heap_swap
        rw [getD_set_nat, getD_set_nat, if_neg (fun h => hne h.1.symm),
          if_pos ⟨rfl, hi⟩, List.set_set]
      rw [hsw]
      exact heap_swap_perm _ (by simpa using hi) (by simpa using hp)
    · exact List.Perm.refl _

theorem heap_add_perm (mem : List ngx_uri_entry) (h : ngx_max_heap) (e : Nat) :
    (ngx_max_heap_add mem h e).Perm (e :: h) := by
  unfold ngx_max_heap_add
  refine (heap_add_loop_perm mem e _ _ _ (by simp)).trans ?_
  have : (h ++ [e]).set h.length e = h ++ [e] := by
    rw [List.set_append_right _ _ (Nat.le_refl _)]
    simp
  rw [this]
  exact List.perm_append_singleton _ _

theorem foldl_heap_add_perm (mem : List ngx_uri_entry) :
    ∀ (l : List Nat) (h : ngx_max_heap),
      (l.foldl (ngx_max_heap_add mem) h).Perm (l ++ h) := by
  intro l
  induction l with
  | nil => intro h; exact List.Perm.refl _
  | cons a l ih =>
    intro h
    rw [List.foldl_cons]
    refine (ih _).trans ?_
    refine (List.Perm.append_left l (heap_add_perm mem h a)).trans ?_
    exact List.perm_middle

/-- `ngx_max_heap_delete` on a non-empty array returns the root and keeps the
other elements. -/
theorem heap_delete_perm (mem : List ngx_uri_entry) (h : ngx_max_heap) (hne : h ≠ []) :
    h.Perm (h.getD 0 0 :: (ngx_max_heap_delete mem h).2) := by
  have hl : 0 < h.length := List.length_pos.mpr hne
  have e : (ngx_max_heap_delete mem h).2 =
      ngx_max_heap_heapify mem ((h.set 0 (h.getD (h.length - 1) 0)).dropLast).length
        ((h.set 0 (h.getD (h.length - 1) 0)).dropLast) 0 := by
    unfold ngx_max_heap_delete
    rw [if_pos hl]
  rw [e]
  exact (heap_shrunk_perm h hne).trans (List.Perm.cons _ (heapify_perm mem _ _ 0).symm)

/-- The entries `ngx_max_heap_get_topn` extracts are elements of the heap, each
slot being extracted at most once. -/
theorem topn_entries_perm (mem : List ngx_uri_entry) :
    ∀ (n : Nat) (h : ngx_max_heap), ∃ rest, h.Perm (topn_entries mem n h ++ rest) := by
  intro n
  induction n with
  | zero => intro h; exact ⟨h, by simp [topn_entries]⟩
  | succ n ih =>
    intro h
    by_cases hne : h = []
    · subst hne
      exact ⟨[], by simp [topn_entries, heap_delete_nil]⟩
    · have h1 := heap_delete_fst mem hne
      have h2 := heap_delete_perm mem h hne
      rcases hd : ngx_max_heap_delete mem h with ⟨r, h'⟩
      rw [hd] at h1 h2
      simp only at h1 h2
      subst h1
      obtain ⟨rest, hr⟩ := ih h'
      refine ⟨rest, ?_⟩
      simp only [topn_entries, hd, List.cons_append]
      exact h2.trans (List.Perm.cons _ hr)

/-- The report of a well-formed tracker whose live entries fit into the heap
array, started with a global heap that is `NULL` or has room for the counter:
it returns what `ngx_max_heap_get_topn` makes of the heap built from the LRU
list. -/
theorem Repr.report_eq {P : Platform} {s : ngx_uri_table} {L : List Nat}
    (h : Repr P s L) (hcap : L.length ≤ INITIAL_SIZE) {g : Option global_max_heap}
    (hg : ∀ h, g = some h → s.lru_list_entries ≤ h.capacity) :
    report_entries g s = some (topn_entries s.mem TOPN (L.foldl (ngx_max_heap_add s.mem) [])) ∧
    ∃ g2, ngx_uri_table_report g s =
      some (ngx_max_heap_get_topn s.mem (L.foldl (ngx_max_heap_add s.mem) []), g2) := by
  obtain ⟨h0, hh⟩ := h.report_heap_eq hcap hg
  exact ⟨by simp [report_entries, hh],
    { capacity := h0.capacity,
      elements := topn_rest s.mem TOPN (L.foldl (ngx_max_heap_add s.mem) []) },
    by simp only [ngx_uri_table_report, hh]⟩

/-- The report of a well-formed tracker whose live entries fit into the heap
array, started with a global heap that is `NULL` or has room for the counter:
it returns, its text is the concatenation of one `report_line` per extracted
entry, and the extracted entries are `min TOPN k` pairwise different live
entries. -/
theorem Repr.report_spec {P : Platform} {s : ngx_uri_table} {L : List Nat}
    (h : Repr P s L) (hcap : L.length ≤ INITIAL_SIZE) {g : Option global_max_heap}
    (hg : ∀ h, g = some h → s.lru_list_entries ≤ h.capacity) :
    ∃ r len g2, report_entries g s = some r ∧
      ngx_uri_table_report g s =
        some ((len, (r.map (fun a => report_line (rd s.mem a))).flatten), g2) ∧
      r.length = min TOPN L.length ∧ r.Nodup ∧ ∀ a ∈ r, a ∈ L := by
  obtain ⟨hre, g2, hrep⟩ := h.report_eq hcap hg
  have hperm := foldl_heap_add_perm s.mem L []
  obtain ⟨rest, hr⟩ := topn_entries_perm s.mem TOPN (L.foldl (ngx_max_heap_add s.mem) [])
  have hp2 : (topn_entries s.mem TOPN (L.foldl (ngx_max_heap_add s.mem) []) ++ rest).Perm L := by
    refine hr.symm.trans ?_
    simpa using hperm
  refine ⟨topn_entries s.mem TOPN (L.foldl (ngx_max_heap_add s.mem) []),
    (ngx_max_heap_get_topn s.mem (L.foldl (ngx_max_heap_add s.mem) [])).1, g2, hre, ?_, ?_, ?_, ?_⟩
  · rw [hrep]
    have := get_topn_loop_text s.mem TOPN (L.foldl (ngx_max_heap_add s.mem) []) 0 []
    rw [List.nil_append] at this
    rw [← this]
    rfl
  · rw [length_topn_entries, length_foldl_heap_add]
    simp
  · have hn : (topn_entries s.mem TOPN (L.foldl (ngx_max_heap_add s.mem) []) ++ rest).Nodup :=
      hp2.nodup_iff.mpr h.lru.nodup
    exact (List.nodup_append.mp hn).1
  · intro a ha
    exact hp2.subset (List.mem_append_left _ ha)

/-- Whenever the report of a well-formed tracker returns, the live entries fit
into the heap array and the global heap had room for the counter. -/
theorem Repr.report_returns {P : Platform} {s : ngx_uri_table} {L : List Nat}
    (h : Repr P s L) {g : Option global_max_heap} {rep : (Nat × List Nat) × global_max_heap}
    (hrep : ngx_uri_table_report g s = some rep) :
    L.length ≤ INITIAL_SIZE ∧ ∀ h, g = some h → s.lru_list_entries ≤ h.capacity := by
  constructor
  · by_contra hc
    have := h.report_heap_none (Nat.lt_of_not_le hc) g
    simp [ngx_uri_table_report, this] at hrep
  · intro h1 e
    subst e
    by_contra hc
    have := report_heap_fault (s := s) (h := h1) (Nat.lt_of_not_le hc)
    simp [ngx_uri_table_report, this] at hrep

/-! ## A run that overfills the heap array -/

theorem norm_uri3 (i : Nat) : cstr (ngx_strlow (uri3 i)) = uri3 i := by
  have h1 : ngx_strlow (uri3 i) = uri3 i := by
    simp only [ngx_strlow, uri3, List.map_cons, List.map_nil, ngx_tolower]
    have a1 : ¬ (65 ≤ 97 + i / 676 ∧ 97 + i / 676 ≤ 90) := by omega
    have a2 : ¬ (65 ≤ 97 + i / 26 % 26 ∧ 97 + i / 26 % 26 ≤ 90) := by omega
    have a3 : ¬ (65 ≤ 97 + i % 26 ∧ 97 + i % 26 ≤ 90) := by omega
    rw [if_neg a1, if_neg a2, if_neg a3, if_neg (by decide)]
  rw [h1]
  apply cstr_of_nul_free
  simp only [uri3, List.mem_cons, List.mem_nil_iff, or_false, not_or]
  refine ⟨by decide, ?_, ?_, ?_⟩ <;> omega

theorem uri3_inj {i j : Nat} (h : uri3 i = uri3 j) : i = j := by
  simp only [uri3, List.cons.injEq, and_true, true_and] at h
  omega

theorem many_uris_valid : ∀ u ∈ many_uris, ¬ (u.length = 0 ∨ u.length > 256) := by
  intro u hu
  simp only [many_uris, List.mem_map] at hu
  obtain ⟨i, _, rfl⟩ := hu
  simp [uri3]

theorem many_uris_nodup : (many_uris.map (fun u => cstr (ngx_strlow u))).Nodup := by
  have e : many_uris.map (fun u => cstr (ngx_strlow u)) = (List.range 1025).map uri3 := by
    simp only [many_uris, List.map_map]
    apply List.map_congr_left
    intro i _
    exact norm_uri3 i
  rw [e]
  exact (List.nodup_range 1025).map (fun i j h => uri3_inj h)

theorem length_many_uris : many_uris.length = 1025 := by
  simp [many_uris]

/-! ## What the entries store -/

/-- A property of stored URIs that holds for the lowercased form of every accepted
URI of a run holds for every live entry after the run. -/
theorem record_all_stored {P : Platform} (Q : List Nat → Prop) :
    ∀ (us : List (List Nat)) (s : ngx_uri_table) (L : List Nat), Repr P s L →
      (∀ a ∈ L, Q (rd s.mem a).uri) →
      (∀ u ∈ us, ¬ (u.length = 0 ∨ u.length > 256) → Q (ngx_strlow u)) →
      ∃ s2 L2, record_all P s us = some s2 ∧ Repr P s2 L2 ∧
        ∀ a ∈ L2, Q (rd s2.mem a).uri := by
  intro us
  induction us with
  | nil => intro s L h hq _; exact ⟨s, L, rfl, h, hq⟩
  | cons u rest ih =>
    intro s L h hq hus
    have hrest : ∀ x ∈ rest, ¬ (x.length = 0 ∨ x.length > 256) → Q (ngx_strlow x) :=
      fun x hx => hus x (List.mem_cons_of_mem _ hx)
    by_cases hv : u.length = 0 ∨ u.length > 256
    · obtain ⟨s2, L2, g1, g2, g3⟩ := ih s L h hq hrest
      refine ⟨s2, L2, ?_, g2, g3⟩
      simp only [record_all, add_invalid P s u hv]
      exact g1
    · obtain ⟨s1, L1, hadd, hR1, _, hcase⟩ := add_spec h u hv
      have hq1 : ∀ a ∈ L1, Q (rd s1.mem a).uri := by
        rcases hcase with ⟨l1, a, l2, hL, _, hL2, hu, _, hrest2, _⟩ |
          ⟨_, n, _, hL2, hu, _, hrest2, _⟩
        · subst hL hL2
          intro b hb
          by_cases hba : b = a
          · subst hba
            rw [hu]
            exact hq b (by simp)
          · rw [(hrest2 b hba).1]
            refine hq b ?_
            simp only [List.mem_cons, List.mem_append] at hb ⊢
            tauto
        · subst hL2
          intro b hb
          rcases List.mem_cons.1 hb with e | hb2
          · subst e
            rw [hu]
            exact hus u (List.mem_cons_self _ _) hv
          · have hbL : b ∈ L := by
              split at hb2
              · exact hb2
              · simp at hb2
            rw [(hrest2 b hbL).1]
            exact hq b hbL
      obtain ⟨s2, L2, g1, g2, g3⟩ := ih s1 L1 hR1 hq1 hrest
      refine ⟨s2, L2, ?_, g2, g3⟩
      simp only [record_all, hadd]
      exact g1

theorem tolower_not_upper (c : Nat) : ¬ (65 ≤ ngx_tolower c ∧ ngx_tolower c ≤ 90) := by
  unfold ngx_tolower
  split <;> omega

/-! ## The root of the heap built by insertion -/

/-- The sift-up loop of `ngx_max_heap_add` keeps the largest count in slot 0: if
every slot but the hole `i` is dominated by slot 0 (by the new entry when the
hole is slot 0), then after the loop every slot is dominated by slot 0. -/
theorem heap_add_loop_root (mem : List ngx_uri_entry) (e : Nat) :
    ∀ (fuel : Nat) (elements : List Nat) (i : Nat), i < elements.length → i ≤ fuel →
      (i = 0 → ∀ k, k < elements.length → k ≠ 0 →
        heap_count mem elements k ≤ (rd mem e).count) →
      (i ≠ 0 → ∀ k, k < elements.length → k ≠ i →
        heap_count mem elements k ≤ heap_count mem elements 0) →
      ∀ k, k < (heap_add_loop mem e fuel elements i).length →
        heap_count mem (heap_add_loop mem e fuel elements i) k ≤
          heap_count mem (heap_add_loop mem e fuel elements i) 0 := by
  have hset : ∀ (elements : List Nat) (i : Nat), i < elements.length →
      (i = 0 → ∀ k, k < elements.length → k ≠ 0 →
        heap_count mem elements k ≤ (rd mem e).count) →
      (i ≠ 0 → (∀ k, k < elements.length → k ≠ i →
        heap_count mem elements k ≤ heap_count mem elements 0) ∧
        (rd mem e).count ≤ heap_count mem elements 0) →
      ∀ k, k < (elements.set i e).length →
        heap_count mem (elements.set i e) k ≤ heap_count mem (elements.set i e) 0 := by
    intro elements i hi h0 h1 k hk
    rw [List.length_set] at hk
    have hc : ∀ j, heap_count mem (elements.set i e) j =
        if i = j then (rd mem e).count else heap_count mem elements j := by
      intro j
      unfold heap_count
      rw [getD_set_nat]
      by_cases hij : i = j
      · rw [if_pos ⟨hij, hi⟩, if_pos hij]
      · rw [if_neg (fun h => hij h.1), if_neg hij]
    rw [hc k, hc 0]
    by_cases hi0 : i = 0
    · rw [if_pos hi0]
      by_cases hik : i = k
      · rw [if_pos hik]
      · rw [if_neg hik]
        exact h0 hi0 k hk (fun h => hik (hi0.trans h.symm))
    · rw [if_neg hi0]
      by_cases hik : i = k
      · rw [if_pos hik]
        exact (h1 hi0).2
      · rw [if_neg hik]
        exact (h1 hi0).1 k hk (fun h => hik h.symm)
  intro fuel
  induction fuel with
  | zero =>
    intro elements i hi hf h0 h1
    have hi0 : i = 0 := by omega
    have e0 : heap_add_loop mem e 0 elements i = elements.set i e := rfl
    rw [e0]
    exact hset elements i hi h0 (fun h => absurd hi0 h)
  | succ f ih =>
    intro elements i hi hf h0 h1
    unfold heap_add_loop
    split
    · rename_i hc
      obtain ⟨hi0, hgt⟩ := hc
      have hp : PARENT i < elements.length := by
        have : PARENT i ≤ i := Nat.div_le_self i 2
        omega
      have hpe : PARENT i = i / 2 := rfl
      have hne : PARENT i ≠ i := by omega
      have hgt2 : heap_count mem elements (PARENT i) < (rd mem e).count := hgt
      have hold := h1 hi0
      have hcnt : ∀ k, heap_count mem (elements.set i (elements.getD (PARENT i) 0)) k =
          if i = k then heap_count mem elements (PARENT i) else heap_count mem elements k := by
        intro k
        unfold heap_count
        rw [getD_set_nat]
        by_cases hik : i = k
        · rw [if_pos ⟨hik, hi⟩, if_pos hik]
        · rw [if_neg (fun h => hik h.1), if_neg hik]
      refine ih _ _ (by simpa using hp) (by omega) ?_ ?_
      · intro hp0 k hk hk0
        rw [List.length_set] at hk
        rw [hcnt]
        by_cases hik : i = k
        · rw [if_pos hik]; omega
        · rw [if_neg hik]
          have := hold k hk (fun h => hik h.symm)
          rw [hp0] at hgt2
          omega
      · intro hp0 k hk hkp
        rw [List.length_set] at hk
        rw [hcnt, hcnt, if_neg hi0]
        by_cases hik : i = k
        · rw [if_pos hik]
          exact hold _ hp hne
        · rw [if_neg hik]
          exact hold k hk (fun h => hik h.symm)
    · rename_i hc
      refine hset elements i hi h0 (fun hi0 => ⟨h1 hi0, ?_⟩)
      have hp : PARENT i < elements.length := by
        have : PARENT i ≤ i := Nat.div_le_self i 2
        omega
      have hpe : PARENT i = i / 2 := rfl
      have hne : PARENT i ≠ i := by omega
      have hle : (rd mem e).count ≤ heap_count mem elements (PARENT i) := by
        have : ¬ ((rd mem e).count > heap_count mem elements (PARENT i)) :=
          fun h => hc ⟨hi0, h⟩
        omega
      exact Nat.le_trans hle (h1 hi0 _ hp hne)

/-- `ngx_max_heap_add` keeps the largest count at the root. -/
theorem heap_add_root (mem : List ngx_uri_entry) (h : ngx_max_heap) (e : Nat)
    (hh : ∀ k, k < h.length → heap_count mem h k ≤ heap_count mem h 0) :
    ∀ k, k < (ngx_max_heap_add mem h e).length →
      heap_count mem (ngx_max_heap_add mem h e) k ≤
        heap_count mem (ngx_max_heap_add mem h e) 0 := by
  unfold ngx_max_heap_add
  have hget : ∀ k, k < h.length → (h ++ [e]).getD k 0 = h.getD k 0 := by
    intro k hk
    rw [List.getD_eq_getElem?_getD, List.getD_eq_getElem?_getD, List.getElem?_append_left hk]
  refine heap_add_loop_root mem e _ _ _ (by simp) (Nat.le_refl _) ?_ ?_
  · intro h0 k hk hk0
    simp only [List.length_append, List.length_singleton] at hk
    omega
  · intro h0 k hk hkn
    simp only [List.length_append, List.length_singleton] at hk
    have hk2 : k < h.length := by omega
    have h02 : 0 < h.length := by omega
    unfold heap_count
    rw [hget k hk2, hget 0 h02]
    exact hh k hk2

theorem foldl_heap_add_root (mem : List ngx_uri_entry) :
    ∀ (l : List Nat) (h : ngx_max_heap),
      (∀ k, k < h.length → heap_count mem h k ≤ heap_count mem h 0) →
      ∀ k, k < (l.foldl (ngx_max_heap_add mem) h).length →
        heap_count mem (l.foldl (ngx_max_heap_add mem) h) k ≤
          heap_count mem (l.foldl (ngx_max_heap_add mem) h) 0 := by
  intro l
  induction l with
  | nil => intro h hh; exact hh
  | cons a l ih =>
    intro h hh
    rw [List.foldl_cons]
    exact ih _ (heap_add_root mem h a hh)

theorem topn_entries_cons (mem : List ngx_uri_entry) (n : Nat) {h : ngx_max_heap}
    (hne : h ≠ []) :
    topn_entries mem (n + 1) h =
      h.getD 0 0 :: topn_entries mem n (ngx_max_heap_delete mem h).2 := by
  have h1 := heap_delete_fst mem hne
  rcases hd : ngx_max_heap_delete mem h with ⟨r, h2⟩
  rw [hd] at h1
  simp only at h1
  subst h1
  simp only [topn_entries, hd]

/-- The first line of the report of a well-formed tracker with live entries that
fit into the heap array belongs to a live entry of maximum count. -/
theorem Repr.report_first_max {P : Platform} {s : ngx_uri_table} {L : List Nat}
    (h : Repr P s L) (hne : L ≠ []) (hcap : L.length ≤ INITIAL_SIZE)
    {g : Option global_max_heap}
    (hg : ∀ h, g = some h → s.lru_list_entries ≤ h.capacity) :
    ∃ e rest len g2, report_entries g s = some (e :: rest) ∧
      ngx_uri_table_report g s = some ((len, report_line (rd s.mem e) ++
        (rest.map (fun a => report_line (rd s.mem a))).flatten), g2) ∧
      e ∈ L ∧ ∀ a ∈ L, (rd s.mem a).count ≤ (rd s.mem e).count := by
  obtain ⟨r, len, g2, g1, hrep, _, _, g5⟩ := h.report_spec hcap hg
  have hre := (h.report_eq hcap hg).1
  have hperm : (L.foldl (ngx_max_heap_add s.mem) []).Perm L := by
    simpa using foldl_heap_add_perm s.mem L []
  have hHne : L.foldl (ngx_max_heap_add s.mem) [] ≠ [] := by
    intro e0
    rw [e0] at hperm
    exact hne hperm.symm.eq_nil
  have hr : r = (L.foldl (ngx_max_heap_add s.mem) []).getD 0 0 ::
      topn_entries s.mem 99 (ngx_max_heap_delete s.mem (L.foldl (ngx_max_heap_add s.mem) [])).2 := by
    rw [g1] at hre
    rw [Option.some.inj hre]
    exact topn_entries_cons s.mem 99 hHne
  refine ⟨_, _, len, g2, hr ▸ g1, ?_, g5 _ (by rw [hr]; exact List.mem_cons_self _ _), ?_⟩
  · rw [hrep, hr]
    simp
  · intro a ha
    have haH : a ∈ L.foldl (ngx_max_heap_add s.mem) [] := hperm.symm.subset ha
    obtain ⟨k, hk, ek⟩ := heap_count_of_mem s.mem _ haH
    rw [ek]
    exact foldl_heap_add_root s.mem L [] (fun k hk => by simp at hk) k hk

/-! ## A run that overflows the tracker -/

theorem uri3_run_valid (n : Nat) :
    ∀ u ∈ (List.range n).map uri3, ¬ (u.length = 0 ∨ u.length > 256) := by
  intro u hu
  obtain ⟨i, _, rfl⟩ := List.mem_map.1 hu
  simp [uri3]

theorem uri3_run_nodup (n : Nat) :
    (((List.range n).map uri3).map (fun u => cstr (ngx_strlow u))).Nodup := by
  have e : ((List.range n).map uri3).map (fun u => cstr (ngx_strlow u)) =
      (List.range n).map uri3 := by
    simp only [List.map_map]
    apply List.map_congr_left
    intro i _
    exact norm_uri3 i
  rw [e]
  exact (List.nodup_range n).map (fun i j h => uri3_inj h)

/-- One valid new URI after as many pairwise different valid URIs as the tracker
holds: the list is the new URI alone and the counter is one above the
capacity. -/
theorem abs_run_overflow (M : Nat) (us : List (List Nat)) (u : List Nat)
    (hv : ∀ x ∈ us ++ [u], ¬ (x.length = 0 ∨ x.length > 256))
    (hn : ((us ++ [u]).map (fun x => cstr (ngx_strlow x))).Nodup)
    (hl : us.length = M) :
    abs_run M ([], 0) (us ++ [u]) = ([(cstr (ngx_strlow u), 1)], M + 1) := by
  rw [abs_run_snoc]
  rw [List.map_append, List.nodup_append] at hn
  rw [abs_run_distinct _ us (fun x hx => hv x (List.mem_append_left _ hx)) hn.1 (by omega),
    abs_record, if_neg (hv u (by simp))]
  have hfind := find_fresh_key us u (fun x hx e =>
    hn.2.2 (List.mem_map.2 ⟨x, hx, rfl⟩) (by simp [e]))
  have hge : ¬ us.length < M := by omega
  unfold abs_add
  simp only [hfind, hge, if_false, hl]
  rw [if_neg (Nat.lt_irrefl M)]

theorem overflow_uris_eq : overflow_uris = (List.range 6721).map uri3 ++ [uri3 6721] := by
  unfold overflow_uris
  rw [List.range_succ, List.map_append]
  rfl

/-- After `overflow_uris` the tracker of an LP64 build holds one entry and its
counter is 6722. -/
theorem overflow_uris_state (P : Platform) :
    ∃ s a, record_all P (tracker_init 312 12149) overflow_uris = some s ∧
      Repr P s [a] ∧ s.lru_list_entries = 6722 ∧
      entry_view s.mem a = (uri3 6721, 1) := by
  obtain ⟨s, h1, ⟨L, hR, hV⟩, h3, _⟩ := run_init P 312 (by decide : 0 < 12149) overflow_uris
  have hM : (2 * 1024 * 1024 / 312 : Nat) = 6721 := by norm_num
  have hvalid : ∀ x ∈ (List.range 6721).map uri3 ++ [uri3 6721],
      ¬ (x.length = 0 ∨ x.length > 256) := by
    rw [← overflow_uris_eq]
    exact uri3_run_valid 6722
  have hnd : (((List.range 6721).map uri3 ++ [uri3 6721]).map
      (fun x => cstr (ngx_strlow x))).Nodup := by
    rw [← overflow_uris_eq]
    exact uri3_run_nodup 6722
  have hrun := abs_run_overflow 6721 ((List.range 6721).map uri3) (uri3 6721) hvalid hnd
    (by rw [List.length_map, List.length_range])
  rw [← overflow_uris_eq, norm_uri3] at hrun
  rw [hM] at hV h3
  have hV2 : L.map (entry_view s.mem) = [(uri3 6721, 1)] := by rw [hV, hrun]
  have h32 : s.lru_list_entries = 6722 := by rw [h3, hrun]
  cases L with
  | nil => simp at hV2
  | cons a t =>
    cases t with
    | nil =>
      simp only [List.map_cons, List.map_nil, List.cons.injEq, and_true] at hV2
      exact ⟨s, a, h1, hR, h32, hV2⟩
    | cons b t2 => simp at hV2

/-- The first report of a process leaves a global heap of capacity
`INITIAL_SIZE`. -/
theorem report_first_capacity {s : ngx_uri_table} {rep : (Nat × List Nat) × global_max_heap}
    (h : ngx_uri_table_report none s = some rep) : rep.2.capacity = INITIAL_SIZE := by
  unfold ngx_uri_table_report report_heap at h
  simp only [report_start] at h
  split at h
  · cases h
  · rename_i g hg
    split at hg
    · cases hg
    · simp only [Option.some.injEq] at hg h
      rw [← h, ← hg]
      rfl

theorem uri3_overflow : uri3 6721 = bytes "/jyn" := by decide

/-! ## Claims C1 to C10 -/

/-- Claim C1: for every sequence of record calls on an initialised tracker the run
returns, and every entry `(k, c)` live at the end has a last point of the run at
which `k` was not live (the initial state or its last eviction); from the next
call on `k` stays live, and `c` is the number of calls since that point whose
normalised URI is `k`. -/
theorem count_since_last_absent (P : Platform) (footprint hash_size : Nat)
    (hh : hash_size ∈ hash_primes) (uris : List (List Nat)) :
    (∃ s, record_all P (tracker_init footprint hash_size) uris = some s ∧
        lru_view s = some (live_after P footprint hash_size uris)) ∧
      count_claim P footprint hash_size uris := by
  have hpos := mem_hash_primes_pos hh
  obtain ⟨s, h1, h2, _⟩ := run_init P footprint hpos uris
  refine ⟨⟨s, h1, ?_⟩, ?_⟩
  · rw [live_after_eq P footprint hpos]; exact h2.view_eq
  · intro k c hkc
    rw [live_after_eq P footprint hpos] at hkc
    have hnd := abs_run_nodup (2 * 1024 * 1024 / footprint) uris ([], 0) (by simp)
    have hg := getc_of_mem hnd hkc
    obtain ⟨pre, suf, hus, hpre, hlive, hcount⟩ :=
      abs_count_since_absent _ ([], 0) k rfl uris c hg
    refine ⟨pre, suf, hus, ?_, ?_, hcount⟩
    · rw [live_after_eq P footprint hpos]
      exact (getc_eq_none_iff _ _).1 hpre
    · intro i hi
      rw [live_after_eq P footprint hpos]
      by_contra hx
      exact hlive i hi ((getc_eq_none_iff _ _).2 hx)

/-- Witness for C1: `/a`, `/b`, `/B`, `/a` and two URIs with a NUL byte on the LP64
tracker. -/
theorem count_since_last_absent_witness :
    12149 ∈ hash_primes ∧
      ((∃ s, record_all ⟨64, true⟩ (tracker_init 312 12149)
            [bytes "/a", bytes "/b", bytes "/B", bytes "/a", [47, 97, 0, 98], [47, 99, 0]] =
              some s ∧
          lru_view s = some (live_after ⟨64, true⟩ 312 12149
            [bytes "/a", bytes "/b", bytes "/B", bytes "/a", [47, 97, 0, 98], [47, 99, 0]])) ∧
        count_claim ⟨64, true⟩ 312 12149
          [bytes "/a", bytes "/b", bytes "/B", bytes "/a", [47, 97, 0, 98], [47, 99, 0]]) :=
  ⟨by decide,
    count_since_last_absent ⟨64, true⟩ 312 12149 (by decide)
      [bytes "/a", bytes "/b", bytes "/B", bytes "/a", [47, 97, 0, 98], [47, 99, 0]]⟩

/-- Claim C2: the code at the failing input.  On a tracker with
`lru_list_max_entries = 3` that holds `/c`, `/b`, `/a` (tail `/a`), recording `/d`
does not evict the tail alone: the purge loop never decrements
`lru_list_entries`, so it runs until the list is empty and `/d` is the only live
entry afterwards, with the counter at 4. -/
theorem purge_evicts_every_entry :
    (tracker_init 699050 103).lru_list_max_entries = 3 ∧
      (record_all ⟨64, true⟩ (tracker_init 699050 103)
          [bytes "/a", bytes "/b", bytes "/c"]).bind lru_view =
        some [(bytes "/c", 1), (bytes "/b", 1), (bytes "/a", 1)] ∧
      (record_all ⟨64, true⟩ (tracker_init 699050 103)
          [bytes "/a", bytes "/b", bytes "/c", bytes "/d"]).bind lru_view =
        some [(bytes "/d", 1)] ∧
      (record_all ⟨64, true⟩ (tracker_init 699050 103)
          [bytes "/a", bytes "/b", bytes "/c", bytes "/d"]).map
            (fun s => s.lru_list_entries) = some 4 := by
  decide!

/-- Claim C3: the code at the failing input.  After `unsorted_run` the first report
of the process lists `/h` with count 1 in front of `/g` with count 2 and leaves
the global heap empty: `ngx_max_heap_add` sifts up along
`PARENT(x) = x / 2`, which is not the parent of the children `2x+1`, `2x+2` that
`ngx_max_heap_heapify` uses, so the array it builds is not a heap for the
extraction. -/
theorem report_not_sorted :
    (record_all ⟨64, true⟩ (tracker_init 312 12149) unsorted_run).bind lru_view =
        some [(bytes "/a", 2), (bytes "/b", 2), (bytes "/c", 1), (bytes "/d", 2),
          (bytes "/e", 1), (bytes "/f", 1), (bytes "/g", 2), (bytes "/h", 1),
          (bytes "/i", 1), (bytes "/j", 1)] ∧
      (record_all ⟨64, true⟩ (tracker_init 312 12149) unsorted_run).bind
          (ngx_uri_table_report none) =
        some ((50, bytes "/a 2\n/b 2\n/d 2\n/h 1\n/g 2\n/f 1\n/e 1\n/j 1\n/c 1\n/i 1\n"),
          { capacity := 1024, elements := [] }) := by
  decide!

set_option maxRecDepth 100000 in
/-- Claim C4: the code at the failing input.  After `topn_run` there are 106 live
entries and `/6` has count 2; the first report of the process has 100 lines, `/6`
is not among them
and `/7` with count 1 is: a URI left out of the report was requested more often
than a URI in it. -/
theorem report_misses_frequent_uri :
    ((record_all ⟨64, true⟩ (tracker_init 19784 229) topn_run).bind lru_view).map
        (fun V => (V.length, decide ((bytes "/6", 2) ∈ V))) = some (106, true) ∧
      ((record_all ⟨64, true⟩ (tracker_init 19784 229) topn_run).bind
          (fun s => (report_entries none s).map (fun l => l.map (entry_view s.mem)))).map
        (fun r => (r.length, decide ((bytes "/6", 2) ∈ r), decide ((bytes "/7", 1) ∈ r))) =
        some (100, false, true) := by
  decide!

/-- Claim C5: for every sequence of record calls on an initialised tracker (entry
footprint positive and at most the 2 MiB budget, bucket count from the prime
table) the run returns and the number of live entries, the entries on the LRU
list, is at most `lru_list_max_entries`. -/
theorem live_entries_le_max (P : Platform) (footprint hash_size : Nat)
    (hf : 0 < footprint) (hb : footprint ≤ 2 * 1024 * 1024)
    (hh : hash_size ∈ hash_primes) (uris : List (List Nat)) :
    ∃ s L, record_all P (tracker_init footprint hash_size) uris = some s ∧
      lru_entries s = some L ∧ L.length ≤ s.lru_list_max_entries := by
  obtain ⟨s, h1, ⟨L, hR, hV⟩, _, h4⟩ := run_init P footprint (mem_hash_primes_pos hh) uris
  have hM : 0 < 2 * 1024 * 1024 / footprint := Nat.div_pos hb hf
  have hlen := (abs_run_len hM uris ([], 0) (by simp)).2
  refine ⟨s, L, h1, hR.lru_entries_eq, ?_⟩
  rw [h4]
  rw [← hV] at hlen
  simpa using hlen

/-- Witness for C5: four distinct URIs on a tracker with capacity 3. -/
theorem live_entries_le_max_witness :
    0 < 699050 ∧ 699050 ≤ 2 * 1024 * 1024 ∧ 103 ∈ hash_primes ∧
      ∃ s L, record_all ⟨64, true⟩ (tracker_init 699050 103)
          [bytes "/a", bytes "/b", bytes "/c", bytes "/d"] = some s ∧
        lru_entries s = some L ∧ L.length ≤ s.lru_list_max_entries :=
  ⟨by decide, by decide, by decide,
    live_entries_le_max ⟨64, true⟩ 699050 103 (by decide) (by decide) (by decide)
      [bytes "/a", bytes "/b", bytes "/c", bytes "/d"]⟩

/-- Claim C6: after every sequence of record calls on an initialised tracker, so
after every record call that returns, the entries reached through the bucket
chains of the hash index are exactly the entries reached by walking the LRU list
from head to tail. -/
theorem hash_index_eq_lru_list (P : Platform) (footprint hash_size : Nat)
    (hh : hash_size ∈ hash_primes) (uris : List (List Nat)) :
    ∃ s H L, record_all P (tracker_init footprint hash_size) uris = some s ∧
      hash_entries s = some H ∧ lru_entries s = some L ∧ ∀ a, a ∈ H ↔ a ∈ L := by
  obtain ⟨s, h1, ⟨L, hR, _⟩, _, _⟩ := run_init P footprint (mem_hash_primes_pos hh) uris
  obtain ⟨H, h2, h3⟩ := hR.hash_entries_eq
  exact ⟨s, H, L, h1, h2, hR.lru_entries_eq, h3⟩

/-- Witness for C6: a hit, two misses and a purge on a tracker with capacity 3. -/
theorem hash_index_eq_lru_list_witness :
    103 ∈ hash_primes ∧
      ∃ s H L, record_all ⟨64, true⟩ (tracker_init 699050 103)
          [bytes "/a", bytes "/b", bytes "/A", bytes "/c", bytes "/d"] = some s ∧
        hash_entries s = some H ∧ lru_entries s = some L ∧ ∀ a, a ∈ H ↔ a ∈ L :=
  ⟨by decide,
    hash_index_eq_lru_list ⟨64, true⟩ 699050 103 (by decide)
      [bytes "/a", bytes "/b", bytes "/A", bytes "/c", bytes "/d"]⟩

/-- Claim C7: the code at the failing input.  On the tracker with capacity 3 the
entries for `/a`, `/b`, `/c` get the addresses 0, 1, 2 and the head is 2; after
recording `/d` the LRU list is the new entry 3 alone, so the previous head is
not the second element. -/
theorem previous_head_evicted :
    (record_all ⟨64, true⟩ (tracker_init 699050 103)
        [bytes "/a", bytes "/b", bytes "/c"]).bind lru_entries = some [2, 1, 0] ∧
      (record_all ⟨64, true⟩ (tracker_init 699050 103)
        [bytes "/a", bytes "/b", bytes "/c", bytes "/d"]).bind lru_entries = some [3] := by
  decide!

/-- Claim C8: in every state reached by record calls on an initialised tracker,
`ngx_uri_table_add` returns (allocation succeeding); it returns `false` exactly
when the URI length is 0 or greater than 256, and a rejected call returns the
state it was given. -/
theorem add_rejects_iff_bad_length (P : Platform) (footprint hash_size : Nat)
    (hh : hash_size ∈ hash_primes) (uris : List (List Nat)) (uri : List Nat) :
    ∃ s b s2, record_all P (tracker_init footprint hash_size) uris = some s ∧
      ngx_uri_table_add P s uri = some (b, s2) ∧
      (b = false ↔ (uri.length = 0 ∨ uri.length > 256)) ∧ (b = false → s2 = s) := by
  obtain ⟨s, h1, h2, _, _⟩ := run_init P footprint (mem_hash_primes_pos hh) uris
  obtain ⟨s2, g1, _, _, _, g5⟩ := record_tracks h2 uri
  by_cases hbad : uri.length = 0 ∨ uri.length > 256
  · rw [decide_eq_true hbad] at g1
    exact ⟨s, false, s2, h1, g1, ⟨fun _ => hbad, fun _ => rfl⟩, fun _ => g5 hbad⟩
  · rw [decide_eq_false hbad] at g1
    exact ⟨s, true, s2, h1, g1, ⟨fun h => absurd h (by decide), fun h => absurd h hbad⟩,
      fun h => absurd h (by decide)⟩

/-- Witness for C8: a 257-byte URI after two accepted calls. -/
theorem add_rejects_iff_bad_length_witness :
    12149 ∈ hash_primes ∧
      ∃ s b s2, record_all ⟨64, true⟩ (tracker_init 312 12149) [bytes "/a", bytes "/b"] = some s ∧
        ngx_uri_table_add ⟨64, true⟩ s (List.replicate 257 97) = some (b, s2) ∧
        (b = false ↔ ((List.replicate 257 97).length = 0 ∨ (List.replicate 257 97).length > 256)) ∧
        (b = false → s2 = s) :=
  ⟨by decide,
    add_rejects_iff_bad_length ⟨64, true⟩ 312 12149 (by decide) [bytes "/a", bytes "/b"]
      (List.replicate 257 97)⟩

/-- Claim C9: recording is ASCII-case-insensitive.  For two NUL-free URIs of
accepted length with the same lowercased form, recording one and then the other
on a freshly initialised tracker leaves exactly one live entry: its uri is the
lowercased form and its count is 2. -/
theorem record_case_insensitive (P : Platform) (footprint hash_size : Nat)
    (hh : hash_size ∈ hash_primes) (u v : List Nat)
    (hu : 1 ≤ u.length ∧ u.length ≤ 256) (hv : 1 ≤ v.length ∧ v.length ≤ 256)
    (hnu : 0 ∉ u) (_hnv : 0 ∉ v) (huv : ngx_strlow u = ngx_strlow v) :
    ∃ s, record_all P (tracker_init footprint hash_size) [u, v] = some s ∧
      lru_view s = some [(ngx_strlow u, 2)] := by
  obtain ⟨s, h1, h2, _, _⟩ := run_init P footprint (mem_hash_primes_pos hh) [u, v]
  refine ⟨s, h1, ?_⟩
  rw [h2.view_eq]
  have hu' : ¬ (u.length = 0 ∨ u.length > 256) := by omega
  have hv' : ¬ (v.length = 0 ∨ v.length > 256) := by omega
  have hnv' : 0 ∉ v := _hnv
  simp only [abs_run, List.foldl_cons, List.foldl_nil, abs_record, if_neg hu', if_neg hv',
    cstr_strlow hnu, cstr_strlow hnv', ← huv]
  simp [abs_add]

/-- Witness for C9: `/Foo.html` and then `/foo.HTML`. -/
theorem record_case_insensitive_witness :
    12149 ∈ hash_primes ∧
      (1 ≤ (bytes "/Foo.html").length ∧ (bytes "/Foo.html").length ≤ 256) ∧
      (1 ≤ (bytes "/foo.HTML").length ∧ (bytes "/foo.HTML").length ≤ 256) ∧
      0 ∉ bytes "/Foo.html" ∧ 0 ∉ bytes "/foo.HTML" ∧
      ngx_strlow (bytes "/Foo.html") = ngx_strlow (bytes "/foo.HTML") ∧
      ∃ s, record_all ⟨64, true⟩ (tracker_init 312 12149)
          [bytes "/Foo.html", bytes "/foo.HTML"] = some s ∧
        lru_view s = some [(ngx_strlow (bytes "/Foo.html"), 2)] :=
  ⟨by decide, by decide, by decide, by decide, by decide, by decide,
    record_case_insensitive ⟨64, true⟩ 312 12149 (by decide) (bytes "/Foo.html")
      (bytes "/foo.HTML") (by decide) (by decide) (by decide) (by decide) (by decide)⟩

set_option maxRecDepth 100000 in
/-- Claim C10: the code at the failing input.  After 1000 calls for `/x` the text of
the first report of the process is the 8 bytes `/x 1000\n`, and the returned
length is 0: the length is only advanced for counts below 1000. -/
theorem report_len_ignores_large_counts :
    (record_all ⟨64, true⟩ (tracker_init 312 12149)
        (List.replicate 1000 (bytes "/x"))).bind (ngx_uri_table_report none) =
      some ((0, bytes "/x 1000\n"), { capacity := 1024, elements := [] }) := by
  decide!

/-! ## Claims C11 to C20 -/

/-- Claim C11: the code at the failing input.  After recording the 1025 pairwise
different URIs of `many_uris` on a tracker with room for 6721 entries all of
them are live, and the report, which stores one pointer per live entry into the
heap array of `INITIAL_SIZE = 1024` slots, writes past the array: whatever the
global heap is when it starts, it faults instead of producing `min 100 1025`
lines. -/
theorem report_overflows_heap_array (P : Platform) :
    ∃ s L, record_all P (tracker_init 312 12149) many_uris = some s ∧
      s.lru_list_max_entries = 6721 ∧ lru_entries s = some L ∧ L.length = 1025 ∧
      ∀ g, ngx_uri_table_report g s = none := by
  obtain ⟨s, h1, ⟨L, hR, hV⟩, _, h4⟩ := run_init P 312 (by decide : 0 < 12149) many_uris
  have hrun := abs_run_distinct (2 * 1024 * 1024 / 312) many_uris many_uris_valid
    many_uris_nodup (le_of_eq_of_le length_many_uris (by norm_num))
  have hlen : L.length = 1025 := by
    have hV2 : L.map (entry_view s.mem) =
        many_uris.reverse.map (fun u => (cstr (ngx_strlow u), 1)) := by
      rw [hV, hrun]
    have := congrArg List.length hV2
    rw [List.length_map, List.length_map, List.length_reverse, length_many_uris] at this
    exact this
  refine ⟨s, L, h1, h4, hR.lru_entries_eq, hlen, fun g => ?_⟩
  have hnone := hR.report_heap_none
    (lt_of_lt_of_eq (by unfold INITIAL_SIZE; omega) hlen.symm) g
  simp [ngx_uri_table_report, hnone]

/-- Claim C13: after every sequence of record calls on an initialised tracker,
`ngx_uri_table_cleanup` returns and leaves no live entry: head and tail of the
LRU list are `NULL`, the list walk finds nothing, every bucket of the hash index
is `NULL`, the walk over all bucket chains finds nothing, and the lookup of any
URI returns `NULL`. -/
theorem cleanup_evicts_every_entry (P : Platform) (footprint hash_size : Nat)
    (hh : hash_size ∈ hash_primes) (uris : List (List Nat)) :
    ∃ s t ht, record_all P (tracker_init footprint hash_size) uris = some s ∧
      ngx_uri_table_cleanup P s = some t ∧ t.hash_table = some ht ∧
      t.lru_list = ⟨none, none⟩ ∧ lru_entries t = some [] ∧
      (∀ v, v < ht.size → ht.buckets.getD v none = none) ∧
      hash_entries t = some [] ∧
      ∀ key, ngx_uri_table_lookup P t key = some none := by
  obtain ⟨s, h1, ⟨L, hR, _⟩, _, _⟩ := run_init P footprint (mem_hash_primes_pos hh) uris
  obtain ⟨t, ht1, hT, _, _, _⟩ :=
    purge_loop_all (P := P) true s.mem.length L s hR hR.list_length_le (Or.inl rfl)
  obtain ⟨hts, _, hhs, _⟩ := hR.hash
  obtain ⟨ht, C, hht, hH⟩ := hT.hash
  have hcl : ngx_uri_table_cleanup P s = some t := by
    unfold ngx_uri_table_cleanup ngx_uri_table_lru_list_purge
    rw [hhs, hR.lru.tail_eq]
    exact ht1
  have hhead : t.lru_list.head = none := hT.lru.fwd
  have htail : t.lru_list.tail = none := hT.lru.bwd
  have hC : ∀ v, C v = [] := by
    intro v
    apply List.eq_nil_iff_forall_not_mem.mpr
    intro a ha
    have := ((hH.mem_iff v a).1 ha).1
    simp at this
  refine ⟨s, t, ht, h1, hcl, hht, ?_, hT.lru_entries_eq, ?_, ?_, ?_⟩
  · cases hl : t.lru_list with
    | mk hd tl =>
      rw [hl] at hhead htail
      simp only at hhead htail
      rw [hhead, htail]
  · intro v hv
    have := hH.chain v hv
    rw [hC v] at this
    exact this
  · obtain ⟨H, g1, g2⟩ := hT.hash_entries_eq
    rw [g1]
    congr 1
    apply List.eq_nil_iff_forall_not_mem.mpr
    intro a ha
    have := (g2 a).1 ha
    simp at this
  · intro key
    obtain ⟨r, g1, g2, _⟩ := lookup_spec hH hht key
    rw [g1]
    cases r with
    | none => rfl
    | some a =>
      have := (g2 a rfl).1
      simp at this

/-- Witness for C13: teardown after a hit, two misses and a purge on a tracker
with capacity 3. -/
theorem cleanup_evicts_every_entry_witness :
    103 ∈ hash_primes ∧
    ∃ s t ht, record_all ⟨64, true⟩ (tracker_init 699050 103)
        [bytes "/a", bytes "/b", bytes "/A", bytes "/c", bytes "/d"] = some s ∧
      ngx_uri_table_cleanup ⟨64, true⟩ s = some t ∧ t.hash_table = some ht ∧
      t.lru_list = ⟨none, none⟩ ∧ lru_entries t = some [] ∧
      (∀ v, v < ht.size → ht.buckets.getD v none = none) ∧
      hash_entries t = some [] ∧
      ∀ key, ngx_uri_table_lookup ⟨64, true⟩ t key = some none :=
  ⟨by decide,
    cleanup_evicts_every_entry ⟨64, true⟩ 699050 103 (by decide)
      [bytes "/a", bytes "/b", bytes "/A", bytes "/c", bytes "/d"]⟩

/-- Claim C14: `ngx_uri_table_init` on a tracker whose `hash_table` is `NULL`
returns true and leaves an empty tracker: the bucket array has `hash_size`
buckets, all `NULL`, head and tail of the LRU list are `NULL`, the list walk
finds nothing, `lru_list_entries` is 0 and `lru_list_max_entries` is the 2 MiB
budget divided by the entry footprint; on a tracker whose `hash_table` is set it
returns false and changes nothing. -/
theorem init_yields_empty_tracker (footprint hash_size : Nat) (uri_table : ngx_uri_table) :
    (uri_table.hash_table = none →
      (ngx_uri_table_init footprint hash_size uri_table).1 = true ∧
      ∃ ht, (ngx_uri_table_init footprint hash_size uri_table).2.hash_table = some ht ∧
        ht.size = hash_size ∧ ht.buckets.length = hash_size ∧
        (∀ v, v < hash_size → ht.buckets.getD v none = none) ∧
        (ngx_uri_table_init footprint hash_size uri_table).2.lru_list = ⟨none, none⟩ ∧
        lru_entries (ngx_uri_table_init footprint hash_size uri_table).2 = some [] ∧
        (ngx_uri_table_init footprint hash_size uri_table).2.lru_list_entries = 0 ∧
        (ngx_uri_table_init footprint hash_size uri_table).2.lru_list_max_entries =
          2 * 1024 * 1024 / footprint) ∧
    (uri_table.hash_table ≠ none →
      ngx_uri_table_init footprint hash_size uri_table = (false, uri_table)) := by
  constructor
  · intro h
    unfold ngx_uri_table_init
    rw [h]
    refine ⟨rfl, _, rfl, rfl, by simp [ngx_alloc_buckets], ?_, rfl, ?_, rfl, rfl⟩
    · intro v _
      exact getD_replicate_none _ _
    · unfold lru_entries
      cases uri_table.mem.length <;> rfl
  · intro h
    unfold ngx_uri_table_init
    cases hx : uri_table.hash_table with
    | none => exact absurd hx h
    | some ht => rfl

/-- Witness for C14: the first init of the zeroed structure succeeds and a second
init of the result fails. -/
theorem init_yields_empty_tracker_witness :
    uri_table_zero.hash_table = none ∧
    (tracker_init 312 12149).hash_table ≠ none ∧
    (ngx_uri_table_init 312 12149 uri_table_zero).1 = true ∧
    ngx_uri_table_init 312 12149 (tracker_init 312 12149) =
      (false, tracker_init 312 12149) :=
  ⟨rfl, by rw [tracker_init_eq]; exact Option.some_ne_none _,
    ((init_yields_empty_tracker 312 12149 uri_table_zero).1 rfl).1,
    (init_yields_empty_tracker 312 12149 (tracker_init 312 12149)).2
      (by rw [tracker_init_eq]; exact Option.some_ne_none _)⟩

/-- Claim C15: the code at the failing input.  After the run `heap_run` the LRU
list holds, head first, `/a` .. `/g` with the counts 2, 2, 1, 2, 1, 1, 2, and the
heap that the report builds from it by repeated `ngx_max_heap_add` has these
counts in the slots 0 .. 6: `ngx_max_heap_add` sifts up along `PARENT(i) = i / 2`,
so slot 6 (count 2) is compared with slot 3 and not with slot 2 (count 1), whose
right child `2 * 2 + 2` it is.  The array is not a max-heap. -/
theorem heap_add_breaks_heap_property :
    (record_all ⟨64, true⟩ (tracker_init 312 12149) heap_run).bind
      (fun s => (report_heap none s).map
        (fun h => (h.elements.map (fun a => (rd s.mem a).count),
          decide (is_max_heap s.mem h.elements),
          decide (heap_count s.mem h.elements (RCHILD 2) ≤ heap_count s.mem h.elements 2)))) =
      some ([2, 2, 1, 2, 1, 1, 2], false, false) := by
  decide!

/-- Claim C16: on a non-empty heap array with the max-heap property for the children
`2i+1` and `2i+2`, `ngx_max_heap_delete` returns an entry of the heap whose count
is at least that of every entry, makes the heap one shorter, leaves the old
elements as the returned one plus the remaining ones (as a multiset), and the
remaining array is again a max-heap; on the empty heap it returns `NULL` and the
heap stays empty. -/
theorem heap_delete_extracts_max (mem : List ngx_uri_entry) (h : ngx_max_heap)
    (hne : h ≠ []) (hh : is_max_heap mem h) :
    (∃ e, (ngx_max_heap_delete mem h).1 = some e ∧ e ∈ h ∧
      (∀ a ∈ h, (rd mem a).count ≤ (rd mem e).count) ∧
      (ngx_max_heap_delete mem h).2.length + 1 = h.length ∧
      h.Perm (e :: (ngx_max_heap_delete mem h).2) ∧
      is_max_heap mem (ngx_max_heap_delete mem h).2) ∧
    ngx_max_heap_delete mem [] = (none, []) :=
  ⟨heap_delete_spec mem h hne hh, rfl⟩

/-- Witness for C16: the heap of three entries with the counts 5, 3 and 4. -/
theorem heap_delete_extracts_max_witness :
    ([0, 1, 2] : ngx_max_heap) ≠ [] ∧ is_max_heap heap_mem [0, 1, 2] ∧
    ((∃ e, (ngx_max_heap_delete heap_mem [0, 1, 2]).1 = some e ∧ e ∈ ([0, 1, 2] : ngx_max_heap) ∧
      (∀ a ∈ ([0, 1, 2] : ngx_max_heap), (rd heap_mem a).count ≤ (rd heap_mem e).count) ∧
      (ngx_max_heap_delete heap_mem [0, 1, 2]).2.length + 1 = ([0, 1, 2] : ngx_max_heap).length ∧
      ([0, 1, 2] : ngx_max_heap).Perm (e :: (ngx_max_heap_delete heap_mem [0, 1, 2]).2) ∧
      is_max_heap heap_mem (ngx_max_heap_delete heap_mem [0, 1, 2]).2) ∧
    ngx_max_heap_delete heap_mem [] = (none, [])) :=
  ⟨by decide, by decide, heap_delete_extracts_max heap_mem [0, 1, 2] (by decide) (by decide)⟩

/-- Claim C17, counterexample: on a platform whose plain `char` is signed the byte
200 is read as -56, so `hash4` of the one-byte string `[200]` into 103 buckets is
`(2 ^ 64 - 56) % 103 = 102`, while the rolling hash of the claim is
`200 % 103 = 97`. -/
theorem hash4_differs_on_high_byte :
    0 ∉ [200] ∧ 0 < 103 ∧ hash4 ⟨64, true⟩ [200] 103 = 102 ∧
      rolling_hash 64 [200] 103 = 97 ∧
      hash4 ⟨64, true⟩ [200] 103 ≠ rolling_hash 64 [200] 103 := by
  decide!

/-- Claim C17, amended: for every NUL-free byte string and every positive bucket
count the unrolled `hash4` is the rolling hash `h := h * 33 + c` modulo `2 ^ w`
over the values `c` that `*key` has after conversion from plain `char`, reduced
modulo the bucket count, and so it is below the bucket count; it is the rolling
hash over the bytes themselves when plain `char` is unsigned or every byte is
below 128. -/
theorem hash4_eq_rolling_hash (P : Platform) (s : List Nat) (size : Nat)
    (hs : 0 ∉ s) (hsize : 0 < size) :
    hash4 P s size = rolling_hash P.word_bits (s.map (char_val P)) size ∧
    hash4 P s size < size ∧
    ((P.char_signed = false ∨ ∀ b ∈ s, b < 128) →
      hash4 P s size = rolling_hash P.word_bits s size) := by
  have hstep : ∀ (l : List Nat) (h : Nat),
      l.foldl (hash_step P) h =
        (l.map (char_val P)).foldl (fun h b => (h * 33 + b) % 2 ^ P.word_bits) h := by
    intro l
    induction l with
    | nil => intro h; rfl
    | cons b l ih =>
      intro h
      rw [List.map_cons, List.foldl_cons, List.foldl_cons, ih]
      congr 1
      unfold hash_step
      rw [Nat.add_assoc, Nat.mod_add_mod]
      congr 1
      omega
  have h1 : hash4 P s size = rolling_hash P.word_bits (s.map (char_val P)) size := by
    rw [hash4_eq_fold, cstr_of_nul_free hs, hstep]
    rfl
  refine ⟨h1, hash4_lt P s hsize, fun hc => ?_⟩
  rw [h1]
  congr 1
  conv_rhs => rw [← List.map_id s]
  apply List.map_congr_left
  intro b hb
  unfold char_val
  rcases hc with hc | hc
  · simp [hc]
  · have := hc b hb
    have hn : ¬ (P.char_signed = true ∧ 128 ≤ b) := fun h => by omega
    rw [if_neg hn]
    rfl

/-- Witness for C17: the URI `/a` hashed into 103 buckets on a 64-bit platform. -/
theorem hash4_eq_rolling_hash_witness :
    0 ∉ bytes "/a" ∧ 0 < 103 ∧
    hash4 ⟨64, true⟩ (bytes "/a") 103 =
      rolling_hash 64 ((bytes "/a").map (char_val ⟨64, true⟩)) 103 ∧
    hash4 ⟨64, true⟩ (bytes "/a") 103 < 103 ∧
    (((⟨64, true⟩ : Platform).char_signed = false ∨ ∀ b ∈ bytes "/a", b < 128) →
      hash4 ⟨64, true⟩ (bytes "/a") 103 = rolling_hash 64 (bytes "/a") 103) :=
  ⟨by decide, by decide, hash4_eq_rolling_hash ⟨64, true⟩ (bytes "/a") 103 (by decide) (by decide)⟩

/-- Claim C18: after every sequence of record calls on an initialised tracker,
the walk of every bucket chain returns, the chain at index `v` has no repetition
and holds exactly the live entries whose URI hashes to `v`, so every live entry
is on the chain of its hash value, once, and on no other chain; live entries have
pairwise different URIs; and the lookup of any URI returns the live entry with
that URI (as a C string) when there is one and `NULL` otherwise. -/
theorem live_entry_in_one_bucket_chain (P : Platform) (footprint hash_size : Nat)
    (hh : hash_size ∈ hash_primes) (uris : List (List Nat)) :
    ∃ s ht L, record_all P (tracker_init footprint hash_size) uris = some s ∧
      s.hash_table = some ht ∧ ht.buckets.length = ht.size ∧ lru_entries s = some L ∧
      (∀ v, v < ht.size →
        ∃ c, chain_walk s.mem s.mem.length (ht.buckets.getD v none) = some c ∧ c.Nodup ∧
          ∀ a, a ∈ c ↔ a ∈ L ∧ hash4 P (rd s.mem a).uri ht.size = v) ∧
      (∀ a ∈ L, hash4 P (rd s.mem a).uri ht.size < ht.size) ∧
      (∀ a ∈ L, ∀ b ∈ L, cstr (rd s.mem a).uri = cstr (rd s.mem b).uri → a = b) ∧
      ∀ key, ∃ r, ngx_uri_table_lookup P s key = some r ∧
        (∀ a, r = some a → a ∈ L ∧ cstr (rd s.mem a).uri = cstr key) ∧
        (r = none → ∀ a ∈ L, cstr (rd s.mem a).uri ≠ cstr key) := by
  obtain ⟨s, h1, ⟨L, hR, _⟩, _, _⟩ := run_init P footprint (mem_hash_primes_pos hh) uris
  obtain ⟨ht, C, hht, hH⟩ := hR.hash
  refine ⟨s, ht, L, h1, hht, hH.len, hR.lru_entries_eq, ?_, ?_, ?_, ?_⟩
  · intro v hv
    refine ⟨C v, ?_, hH.nodup v, hH.mem_iff v⟩
    exact chain_walk_chain _ _ _ _ (hH.chain v hv)
      ((hH.chain v hv).length_le (hH.nodup v) (fun a ha => hH.bound a ((hH.mem_iff v a).1 ha).1))
  · intro a _
    exact hash4_lt P _ hH.size_pos
  · intro a ha b hb
    exact hH.uniq a b ha hb
  · intro key
    exact lookup_spec hH hht key

/-- Witness for C18: a hit, two misses and a purge on a tracker with capacity 3. -/
theorem live_entry_in_one_bucket_chain_witness :
    103 ∈ hash_primes ∧
    ∃ s ht L, record_all ⟨64, true⟩ (tracker_init 699050 103)
        [bytes "/a", bytes "/b", bytes "/A", bytes "/c", bytes "/d"] = some s ∧
      s.hash_table = some ht ∧ ht.buckets.length = ht.size ∧ lru_entries s = some L ∧
      (∀ v, v < ht.size →
        ∃ c, chain_walk s.mem s.mem.length (ht.buckets.getD v none) = some c ∧ c.Nodup ∧
          ∀ a, a ∈ c ↔ a ∈ L ∧ hash4 ⟨64, true⟩ (rd s.mem a).uri ht.size = v) ∧
      (∀ a ∈ L, hash4 ⟨64, true⟩ (rd s.mem a).uri ht.size < ht.size) ∧
      (∀ a ∈ L, ∀ b ∈ L, cstr (rd s.mem a).uri = cstr (rd s.mem b).uri → a = b) ∧
      ∀ key, ∃ r, ngx_uri_table_lookup ⟨64, true⟩ s key = some r ∧
        (∀ a, r = some a → a ∈ L ∧ cstr (rd s.mem a).uri = cstr key) ∧
        (r = none → ∀ a ∈ L, cstr (rd s.mem a).uri ≠ cstr key) :=
  ⟨by decide,
    live_entry_in_one_bucket_chain ⟨64, true⟩ 699050 103 (by decide)
      [bytes "/a", bytes "/b", bytes "/A", bytes "/c", bytes "/d"]⟩

/-- Claim C19: the code at the failing input.  In a location where
`popular_uri_track` has not been given (`track_uri` is still `NGX_CONF_UNSET`, a
non-zero value) the handler of `popular_uri_stats on` returns `NGX_CONF_OK` and
leaves `return_uri_stats = 1`: the test `!flcf->track_uri` is false for the
unset flag. -/
theorem stats_accepted_while_track_unset (NGX_CONF_UNSET : Int) (h0 : NGX_CONF_UNSET ≠ 0) :
    ngx_http_return_uristats NGX_CONF_UNSET
        (ngx_http_trackuri_create_loc_conf NGX_CONF_UNSET) (bytes "on") =
      (conf_result.NGX_CONF_OK, { track_uri := NGX_CONF_UNSET, return_uri_stats := 1 }) := by
  have hon : ngx_strcasecmp_eq (bytes "on") (bytes "on") = true := by decide
  unfold ngx_http_return_uristats ngx_http_trackuri_create_loc_conf
  rw [if_neg (fun h => h rfl), if_pos hon]
  unfold return_uristats_check
  rw [if_pos (show (1 : Int) ≠ 0 by decide), if_neg h0]

/-- Witness for C19: `NGX_CONF_UNSET` is -1 in the nginx core. -/
theorem stats_accepted_while_track_unset_witness :
    (-1 : Int) ≠ 0 ∧
    ngx_http_return_uristats (-1) (ngx_http_trackuri_create_loc_conf (-1)) (bytes "on") =
      (conf_result.NGX_CONF_OK, { track_uri := -1, return_uri_stats := 1 }) :=
  ⟨by decide, stats_accepted_while_track_unset (-1) (by decide)⟩

/-- Claim C20: the code at the failing input.  On the tracker with capacity 3,
after recording `/a`, `/b`, `/c`, `/d` the counter `lru_list_entries` is 4 while
the LRU list holds one entry: the purge evicted three entries and never
decremented the counter. -/
theorem counter_exceeds_list_length :
    (record_all ⟨64, true⟩ (tracker_init 699050 103)
        [bytes "/a", bytes "/b", bytes "/c", bytes "/d"]).map
      (fun s => (s.lru_list_max_entries, s.lru_list_entries,
        (lru_entries s).map List.length)) = some (3, 4, some 1) := by
  decide!

/-! ## Claims C21 to C23 -/

/-- Claim C21: after every sequence of record calls with NUL-free URIs on an
initialised tracker, two live entries with the same URI are the same entry, and
the URI stored in a live entry has no uppercase ASCII letter, is not empty, has
at most 256 bytes and no NUL byte. -/
theorem live_uris_distinct_lowercase (P : Platform) (footprint hash_size : Nat)
    (hh : hash_size ∈ hash_primes) (uris : List (List Nat)) (hnul : ∀ u ∈ uris, 0 ∉ u) :
    ∃ s L, record_all P (tracker_init footprint hash_size) uris = some s ∧
      lru_entries s = some L ∧
      (∀ a ∈ L, ∀ b ∈ L, (rd s.mem a).uri = (rd s.mem b).uri → a = b) ∧
      ∀ a ∈ L, (∀ c ∈ (rd s.mem a).uri, ¬ (65 ≤ c ∧ c ≤ 90)) ∧
        (rd s.mem a).uri ≠ [] ∧ (rd s.mem a).uri.length ≤ 256 ∧ 0 ∉ (rd s.mem a).uri := by
  obtain ⟨s, L, h1, hR, hq⟩ := record_all_stored (P := P)
    (fun x => (∀ c ∈ x, ¬ (65 ≤ c ∧ c ≤ 90)) ∧ x ≠ [] ∧ x.length ≤ 256 ∧ 0 ∉ x)
    uris (tracker_init footprint hash_size) []
    (Repr_init P footprint (mem_hash_primes_pos hh)) (fun a ha => by simp at ha)
    (fun u hu hv => by
      refine ⟨?_, ?_, ?_, strlow_nul_free (hnul u hu)⟩
      · intro c hc
        obtain ⟨d, _, hd⟩ := List.mem_map.1 hc
        rw [← hd]
        exact tolower_not_upper d
      · intro e
        have := congrArg List.length e
        rw [length_strlow] at this
        exact hv (Or.inl this)
      · rw [length_strlow]
        omega)
  obtain ⟨ht, C, _, hH⟩ := hR.hash
  refine ⟨s, L, h1, hR.lru_entries_eq, ?_, hq⟩
  intro a ha b hb e
  exact hH.uniq a b ha hb (by rw [e])

/-- Witness for C21: hits in both cases of letters, misses and a purge on a tracker
with capacity 3. -/
theorem live_uris_distinct_lowercase_witness :
    103 ∈ hash_primes ∧
    (∀ u ∈ [bytes "/a", bytes "/B", bytes "/A", bytes "/c", bytes "/D"], 0 ∉ u) ∧
    ∃ s L, record_all ⟨64, true⟩ (tracker_init 699050 103)
        [bytes "/a", bytes "/B", bytes "/A", bytes "/c", bytes "/D"] = some s ∧
      lru_entries s = some L ∧
      (∀ a ∈ L, ∀ b ∈ L, (rd s.mem a).uri = (rd s.mem b).uri → a = b) ∧
      ∀ a ∈ L, (∀ c ∈ (rd s.mem a).uri, ¬ (65 ≤ c ∧ c ≤ 90)) ∧
        (rd s.mem a).uri ≠ [] ∧ (rd s.mem a).uri.length ≤ 256 ∧ 0 ∉ (rd s.mem a).uri :=
  ⟨by decide, by decide,
    live_uris_distinct_lowercase ⟨64, true⟩ 699050 103 (by decide)
      [bytes "/a", bytes "/B", bytes "/A", bytes "/c", bytes "/D"] (by decide)⟩

/-- Claim C22: the code at the failing input, and where the claim holds.  After
every sequence of record calls on an initialised tracker that leaves between 1
and `INITIAL_SIZE = 1024` live entries, a report that starts with the global heap
`NULL` or with room for the counter returns and its first line is the line of a
live entry whose count is at least the count of every live entry.  With more
live entries every report faults, and a later report faults when the counter
exceeds the `capacity` of the global heap.  After the 1025 pairwise different
URIs of `many_uris` the report has no first line: it writes past the heap array. -/
theorem report_first_line_max_or_fault (P : Platform) (footprint hash_size : Nat)
    (hh : hash_size ∈ hash_primes) (uris : List (List Nat)) :
    (∃ s L, record_all P (tracker_init footprint hash_size) uris = some s ∧
      lru_entries s = some L ∧
      (∀ g, (∀ h, g = some h → s.lru_list_entries ≤ h.capacity) →
        L ≠ [] → L.length ≤ INITIAL_SIZE →
        ∃ e rest len g2, report_entries g s = some (e :: rest) ∧
          ngx_uri_table_report g s = some ((len, report_line (rd s.mem e) ++
            (rest.map (fun a => report_line (rd s.mem a))).flatten), g2) ∧
          e ∈ L ∧ ∀ a ∈ L, (rd s.mem a).count ≤ (rd s.mem e).count) ∧
      (∀ g, INITIAL_SIZE < L.length →
        report_entries g s = none ∧ ngx_uri_table_report g s = none) ∧
      (∀ h, h.capacity < s.lru_list_entries →
        report_entries (some h) s = none ∧ ngx_uri_table_report (some h) s = none)) ∧
    ∃ s L, record_all P (tracker_init 312 12149) many_uris = some s ∧
      lru_entries s = some L ∧ L ≠ [] ∧ INITIAL_SIZE < L.length ∧
      ∀ g, report_entries g s = none := by
  have hfault : ∀ (s : ngx_uri_table) (L : List Nat), Repr P s L → INITIAL_SIZE < L.length →
      ∀ g, report_entries g s = none ∧ ngx_uri_table_report g s = none := by
    intro s L hR hl g
    have hnone := hR.report_heap_none hl g
    simp [report_entries, ngx_uri_table_report, hnone]
  constructor
  · obtain ⟨s, h1, ⟨L, hR, _⟩, _, _⟩ := run_init P footprint (mem_hash_primes_pos hh) uris
    refine ⟨s, L, h1, hR.lru_entries_eq,
      fun g hg hne hcap => hR.report_first_max hne hcap hg,
      fun g hl => hfault s L hR hl g, fun h hc => ?_⟩
    have hnone := report_heap_fault (s := s) hc
    simp [report_entries, ngx_uri_table_report, hnone]
  · obtain ⟨s, h1, ⟨L, hR, hV⟩, _, _⟩ := run_init P 312 (by decide : 0 < 12149) many_uris
    have hrun := abs_run_distinct (2 * 1024 * 1024 / 312) many_uris many_uris_valid
      many_uris_nodup (le_of_eq_of_le length_many_uris (by norm_num))
    have hlen : L.length = 1025 := by
      have hV2 : L.map (entry_view s.mem) =
          many_uris.reverse.map (fun u => (cstr (ngx_strlow u), 1)) := by
        rw [hV, hrun]
      have := congrArg List.length hV2
      rw [List.length_map, List.length_map, List.length_reverse, length_many_uris] at this
      exact this
    have hl : INITIAL_SIZE < L.length := lt_of_lt_of_eq (by unfold INITIAL_SIZE; omega) hlen.symm
    refine ⟨s, L, h1, hR.lru_entries_eq, ?_, hl, fun g => (hfault s L hR hl g).1⟩
    intro e
    rw [e] at hlen
    simp at hlen

/-- Witness for C22: the run of ten URIs with the counts 2, 2, 1, 2, 1, 1, 2, 1, 1,
1 on the tracker of a 64-bit platform. -/
theorem report_first_line_max_or_fault_witness :
    12149 ∈ hash_primes ∧
    ((∃ s L, record_all ⟨64, true⟩ (tracker_init 312 12149) unsorted_run = some s ∧
      lru_entries s = some L ∧
      (∀ g, (∀ h, g = some h → s.lru_list_entries ≤ h.capacity) →
        L ≠ [] → L.length ≤ INITIAL_SIZE →
        ∃ e rest len g2, report_entries g s = some (e :: rest) ∧
          ngx_uri_table_report g s = some ((len, report_line (rd s.mem e) ++
            (rest.map (fun a => report_line (rd s.mem a))).flatten), g2) ∧
          e ∈ L ∧ ∀ a ∈ L, (rd s.mem a).count ≤ (rd s.mem e).count) ∧
      (∀ g, INITIAL_SIZE < L.length →
        report_entries g s = none ∧ ngx_uri_table_report g s = none) ∧
      (∀ h, h.capacity < s.lru_list_entries →
        report_entries (some h) s = none ∧ ngx_uri_table_report (some h) s = none)) ∧
    ∃ s L, record_all ⟨64, true⟩ (tracker_init 312 12149) many_uris = some s ∧
      lru_entries s = some L ∧ L ≠ [] ∧ INITIAL_SIZE < L.length ∧
      ∀ g, report_entries g s = none) :=
  ⟨by decide, report_first_line_max_or_fault ⟨64, true⟩ 312 12149 (by decide) unsorted_run⟩

/-- Claim C23: the code at the failing input, and where the claim holds.  After
every sequence of record calls on an initialised tracker, whenever a report
returns its text is one line per extracted entry, the extracted entries are live
entries with pairwise different URIs, and every line is built from the URI and
the count that its entry has in this state; with at most 100 live entries a
report that starts with the global heap `NULL` or with room for the counter
returns and the extracted entries are exactly the live entries, each once.  A
report that is not the first of the process does not return when the counter
exceeds the `capacity` of the global heap: after the 6722 pairwise different
URIs of `overflow_uris` one entry is live and the counter is 6722; the first
report of the process returns the line `/jyn 1` and leaves a global heap of
capacity 1024, and the next report faults in `ngx_max_heap_reset`. -/
theorem report_live_entries_or_fault (P : Platform) (footprint hash_size : Nat)
    (hh : hash_size ∈ hash_primes) (uris : List (List Nat)) :
    (∃ s L, record_all P (tracker_init footprint hash_size) uris = some s ∧
      lru_entries s = some L ∧
      (∀ g rep, ngx_uri_table_report g s = some rep →
        ∃ r, report_entries g s = some r ∧
          rep.1.2 = (r.map (fun a => cstr (rd s.mem a).uri ++ [32] ++
            sprintf_count (rd s.mem a).count)).flatten ∧
          (r.map (fun a => cstr (rd s.mem a).uri)).Nodup ∧ ∀ a ∈ r, a ∈ L) ∧
      (∀ g, (∀ h, g = some h → s.lru_list_entries ≤ h.capacity) → L.length ≤ 100 →
        ∃ r rep, report_entries g s = some r ∧ ngx_uri_table_report g s = some rep ∧
          r.Perm L)) ∧
    ∃ s a len g1, record_all P (tracker_init 312 12149) overflow_uris = some s ∧
      lru_entries s = some [a] ∧ s.lru_list_entries = 6722 ∧
      ngx_uri_table_report none s = some ((len, bytes "/jyn 1\n"), g1) ∧
      g1.capacity = INITIAL_SIZE ∧
      report_entries (some g1) s = none ∧ ngx_uri_table_report (some g1) s = none := by
  constructor
  · obtain ⟨s, h1, ⟨L, hR, _⟩, _, _⟩ := run_init P footprint (mem_hash_primes_pos hh) uris
    obtain ⟨ht, C, _, hH⟩ := hR.hash
    refine ⟨s, L, h1, hR.lru_entries_eq, ?_, ?_⟩
    · intro g rep hrep
      obtain ⟨hcap, hg⟩ := hR.report_returns hrep
      obtain ⟨r, len, g2, g1, e2, _, g4, g5⟩ := hR.report_spec hcap hg
      rw [e2] at hrep
      refine ⟨r, g1, ?_, ?_, g5⟩
      · rw [← Option.some.inj hrep]
        rfl
      · refine g4.map_on ?_
        intro a ha b hb e
        exact hH.uniq a b (g5 a ha) (g5 b hb) e
    · intro g hg hle
      have hcap : L.length ≤ INITIAL_SIZE := by unfold INITIAL_SIZE; omega
      obtain ⟨r, len, g2, g1, e2, g3, g4, g5⟩ := hR.report_spec hcap hg
      refine ⟨r, _, g1, e2, ?_⟩
      have hlen : L.length ≤ r.length := by
        rw [g3]
        unfold TOPN
        omega
      exact (List.subperm_of_subset g4 g5).perm_of_length_le hlen
  · obtain ⟨s, a, h1, hR, hc, hview⟩ := overflow_uris_state P
    obtain ⟨r, len, g1, _, hrep, hlen, _, hsub⟩ :=
      hR.report_spec (g := none) (by unfold INITIAL_SIZE; simp) (fun h e => by cases e)
    have hr : r = [a] := by
      cases r with
      | nil => simp [TOPN] at hlen
      | cons b t =>
        cases t with
        | nil =>
          have := hsub b (List.mem_cons_self _ _)
          simp only [List.mem_singleton] at this
          rw [this]
        | cons c t2 => simp [TOPN] at hlen
    have hline : report_line (rd s.mem a) = bytes "/jyn 1\n" := by
      have hu : cstr (rd s.mem a).uri = bytes "/jyn" := by
        rw [← uri3_overflow]
        exact congrArg Prod.fst hview
      have hcnt : (rd s.mem a).count = 1 := congrArg Prod.snd hview
      unfold report_line
      rw [hu, hcnt]
      decide
    rw [hr] at hrep
    simp only [List.map_cons, List.map_nil, List.flatten_cons, List.flatten_nil,
      List.append_nil, hline] at hrep
    have hcapg : g1.capacity = INITIAL_SIZE := report_first_capacity hrep
    have hnone : report_heap (some g1) s = none :=
      report_heap_fault (by rw [hc, hcapg]; unfold INITIAL_SIZE; omega)
    refine ⟨s, a, len, g1, h1, hR.lru_entries_eq, hc, hrep, hcapg, ?_, ?_⟩
    · simp [report_entries, hnone]
    · simp [ngx_uri_table_report, hnone]

/-- Witness for C23: the run of ten URIs with the counts 2, 2, 1, 2, 1, 1, 2, 1, 1,
1 on the tracker of a 64-bit platform. -/
theorem report_live_entries_or_fault_witness :
    12149 ∈ hash_primes ∧
    ((∃ s L, record_all ⟨64, true⟩ (tracker_init 312 12149) unsorted_run = some s ∧
      lru_entries s = some L ∧
      (∀ g rep, ngx_uri_table_report g s = some rep →
        ∃ r, report_entries g s = some r ∧
          rep.1.2 = (r.map (fun a => cstr (rd s.mem a).uri ++ [32] ++
            sprintf_count (rd s.mem a).count)).flatten ∧
          (r.map (fun a => cstr (rd s.mem a).uri)).Nodup ∧ ∀ a ∈ r, a ∈ L) ∧
      (∀ g, (∀ h, g = some h → s.lru_list_entries ≤ h.capacity) → L.length ≤ 100 →
        ∃ r rep, report_entries g s = some r ∧ ngx_uri_table_report g s = some rep ∧
          r.Perm L)) ∧
    ∃ s a len g1, record_all ⟨64, true⟩ (tracker_init 312 12149) overflow_uris = some s ∧
      lru_entries s = some [a] ∧ s.lru_list_entries = 6722 ∧
      ngx_uri_table_report none s = some ((len, bytes "/jyn 1\n"), g1) ∧
      g1.capacity = INITIAL_SIZE ∧
      report_entries (some g1) s = none ∧ ngx_uri_table_report (some g1) s = none) :=
  ⟨by decide, report_live_entries_or_fault ⟨64, true⟩ 312 12149 (by decide) unsorted_run⟩

end TrackUri
